import Mathlib

/-!
# Verification of the ultra-engineer orchestration core

Shallow embedding, in Lean 4, of the components of the ultra-engineer
repository that the verified properties are about:

* the `WorkerPool` concurrency limiter
  (`internal/orchestrator/orchestrator.go`),
* the retry engine (`internal/retry/retry.go`),
* the dependency detector (`deps.go`, package `orchestrator`),
* the state-persistence protocol (`internal/state`),
* the comment-consumption step of the orchestrator's `questions` /
  `approval` phases (`internal/orchestrator/orchestrator.go`).

Go `map[string]int` values are embedded as total functions `String → Int`
(absent keys read as `0`, exactly as in Go); Go slices as lists; the
buffered job channel as a list bounded by its capacity.  Mutation is
explicit state passing.
-/

namespace UltraEng

/-! ## Worker pool (`orchestrator.go`, `WorkerPool`) -/

/-- A job submitted to the worker pool (`Job` in `orchestrator.go`);
only the fields the pool logic reads are kept. -/
structure Job where
  repository : String
  issueNumber : Int
deriving DecidableEq, Repr

/-- The mutex-protected state of `WorkerPool`.  The Go `jobQueue` channel
(buffered to `maxTotal` at construction) is embedded as the list of
queued jobs; a non-blocking send succeeds when the buffer has room. -/
structure WorkerPool where
  maxPerRepo : Int
  maxTotal : Int
  jobQueue : List Job
  accepting : Bool
  activeJobs : String → Int
  totalActive : Int

/-- `NewWorkerPool`: empty queue, empty counts, accepting. -/
def NewWorkerPool (maxPerRepo maxTotal : Int) : WorkerPool :=
  { maxPerRepo := maxPerRepo
    maxTotal := maxTotal
    jobQueue := []
    accepting := true
    activeJobs := fun _ => 0
    totalActive := 0 }

/-- The state after `wp.activeJobs[job.Repository]++; wp.totalActive++`
inside `TrySubmit`. -/
def WorkerPool.incCounts (wp : WorkerPool) (repoKey : String) : WorkerPool :=
  { wp with
    activeJobs := Function.update wp.activeJobs repoKey
      (wp.activeJobs repoKey + 1)
    totalActive := wp.totalActive + 1 }

/-- The channel-full revert inside `TrySubmit`:
`wp.activeJobs[job.Repository]--; wp.totalActive--`. -/
def WorkerPool.decCounts (wp : WorkerPool) (repoKey : String) : WorkerPool :=
  { wp with
    activeJobs := Function.update wp.activeJobs repoKey
      (wp.activeJobs repoKey - 1)
    totalActive := wp.totalActive - 1 }

/-- `WorkerPool.TrySubmit`: checks `accepting`, the global limit, the
per-repository limit; on success increments both counters and enqueues.
If the (buffered) channel is full the counter increments are reverted and
the job is rejected.  Returns the Go function's boolean together with the
pool state after the call.  (The queue length and capacity are unchanged
by the counter increments, so the non-blocking-send test reads them off
`wp` directly.) -/
def WorkerPool.TrySubmit (wp : WorkerPool) (job : Job) : Bool × WorkerPool :=
  if !wp.accepting then (false, wp)
  else if wp.maxTotal ≤ wp.totalActive then (false, wp)
  else if wp.maxPerRepo ≤ wp.activeJobs job.repository then (false, wp)
  else if (wp.jobQueue.length : Int) < wp.maxTotal then
    (true,
      { wp.incCounts job.repository with jobQueue := wp.jobQueue ++ [job] })
  else
    (false, (wp.incCounts job.repository).decCounts job.repository)

/-- `if wp.activeJobs[repoKey] > 0 { wp.activeJobs[repoKey]-- }`. -/
def WorkerPool.decRepoClamped (wp : WorkerPool) (repoKey : String) : WorkerPool :=
  if 0 < wp.activeJobs repoKey then
    { wp with
      activeJobs := Function.update wp.activeJobs repoKey
        (wp.activeJobs repoKey - 1) }
  else wp

/-- `if wp.totalActive > 0 { wp.totalActive-- }`. -/
def WorkerPool.decTotalClamped (wp : WorkerPool) : WorkerPool :=
  if 0 < wp.totalActive then { wp with totalActive := wp.totalActive - 1 }
  else wp

/-- `WorkerPool.OnJobComplete`: decrements the repository's count and the
total count, each clamped at zero exactly as in the source. -/
def WorkerPool.OnJobComplete (wp : WorkerPool) (repoKey : String) : WorkerPool :=
  (wp.decRepoClamped repoKey).decTotalClamped

/-- The operations a client (the polling daemon and the worker goroutines)
performs on the pool state: a `TrySubmit` call, an `OnJobComplete` call, a
worker receiving from the job queue, and `StopAccepting`. -/
inductive PoolOp where
  | submit (job : Job)
  | complete (repoKey : String)
  | dequeue
  | stopAccepting
deriving Repr

/-- Apply one operation to the pool state. -/
def applyPoolOp (wp : WorkerPool) : PoolOp → WorkerPool
  | .submit job => (wp.TrySubmit job).2
  | .complete repoKey => wp.OnJobComplete repoKey
  | .dequeue => { wp with jobQueue := wp.jobQueue.tail }
  | .stopAccepting => { wp with accepting := false }

/-- Run a sequence of operations from a given pool state. -/
def runPoolOps (wp : WorkerPool) (ops : List PoolOp) : WorkerPool :=
  ops.foldl applyPoolOp wp

/-- The two concurrency limits together with nonnegativity of the
counters: the inductive invariant of the pool. -/
def PoolInv (wp : WorkerPool) : Prop :=
  0 ≤ wp.totalActive ∧ wp.totalActive ≤ wp.maxTotal ∧
    ∀ r, 0 ≤ wp.activeJobs r ∧ wp.activeJobs r ≤ wp.maxPerRepo

@[simp] theorem incCounts_maxPerRepo (wp : WorkerPool) (r : String) :
    (wp.incCounts r).maxPerRepo = wp.maxPerRepo := rfl

@[simp] theorem incCounts_maxTotal (wp : WorkerPool) (r : String) :
    (wp.incCounts r).maxTotal = wp.maxTotal := rfl

@[simp] theorem incCounts_totalActive (wp : WorkerPool) (r : String) :
    (wp.incCounts r).totalActive = wp.totalActive + 1 := rfl

@[simp] theorem incCounts_activeJobs (wp : WorkerPool) (r : String) :
    (wp.incCounts r).activeJobs =
      Function.update wp.activeJobs r (wp.activeJobs r + 1) := rfl

@[simp] theorem decCounts_maxPerRepo (wp : WorkerPool) (r : String) :
    (wp.decCounts r).maxPerRepo = wp.maxPerRepo := rfl

@[simp] theorem decCounts_maxTotal (wp : WorkerPool) (r : String) :
    (wp.decCounts r).maxTotal = wp.maxTotal := rfl

@[simp] theorem decCounts_totalActive (wp : WorkerPool) (r : String) :
    (wp.decCounts r).totalActive = wp.totalActive - 1 := rfl

@[simp] theorem decCounts_activeJobs (wp : WorkerPool) (r : String) :
    (wp.decCounts r).activeJobs =
      Function.update wp.activeJobs r (wp.activeJobs r - 1) := rfl

/-- The inc-then-revert composite in `TrySubmit`'s channel-full branch is
the identity on the pool state. -/
theorem incCounts_decCounts (wp : WorkerPool) (r : String) :
    (wp.incCounts r).decCounts r = wp := by
  unfold WorkerPool.incCounts WorkerPool.decCounts
  simp only [Function.update_same, Function.update_idem, add_sub_cancel_right,
    Function.update_eq_self]

theorem trySubmit_maxPerRepo (wp : WorkerPool) (job : Job) :
    (wp.TrySubmit job).2.maxPerRepo = wp.maxPerRepo := by
  unfold WorkerPool.TrySubmit
  split_ifs <;> simp

theorem trySubmit_maxTotal (wp : WorkerPool) (job : Job) :
    (wp.TrySubmit job).2.maxTotal = wp.maxTotal := by
  unfold WorkerPool.TrySubmit
  split_ifs <;> simp

theorem onJobComplete_maxPerRepo (wp : WorkerPool) (r : String) :
    (wp.OnJobComplete r).maxPerRepo = wp.maxPerRepo := by
  unfold WorkerPool.OnJobComplete WorkerPool.decRepoClamped
    WorkerPool.decTotalClamped
  split_ifs <;> rfl

theorem onJobComplete_maxTotal (wp : WorkerPool) (r : String) :
    (wp.OnJobComplete r).maxTotal = wp.maxTotal := by
  unfold WorkerPool.OnJobComplete WorkerPool.decRepoClamped
    WorkerPool.decTotalClamped
  split_ifs <;> rfl

theorem poolInv_trySubmit {wp : WorkerPool} (job : Job) (h : PoolInv wp) :
    PoolInv (wp.TrySubmit job).2 := by
  obtain ⟨h0, h1, h2⟩ := h
  unfold WorkerPool.TrySubmit
  split_ifs with ha hb hc hd
  · exact ⟨h0, h1, h2⟩
  · exact ⟨h0, h1, h2⟩
  · exact ⟨h0, h1, h2⟩
  · refine ⟨?_, ?_, fun r => ?_⟩
    · show (0 : Int) ≤ wp.totalActive + 1
      omega
    · show wp.totalActive + 1 ≤ wp.maxTotal
      omega
    · show 0 ≤ Function.update wp.activeJobs job.repository
          (wp.activeJobs job.repository + 1) r ∧
        Function.update wp.activeJobs job.repository
          (wp.activeJobs job.repository + 1) r ≤ wp.maxPerRepo
      by_cases hr : r = job.repository
      · subst hr
        simp only [Function.update_same]
        have := h2 job.repository
        constructor <;> omega
      · simp only [Function.update_noteq hr]
        exact h2 r
  · rw [incCounts_decCounts]
    exact ⟨h0, h1, h2⟩

theorem poolInv_decRepoClamped {wp : WorkerPool} (r : String)
    (h : PoolInv wp) : PoolInv (wp.decRepoClamped r) := by
  obtain ⟨h0, h1, h2⟩ := h
  unfold WorkerPool.decRepoClamped
  split_ifs with hr
  · refine ⟨h0, h1, fun q => ?_⟩
    show 0 ≤ Function.update wp.activeJobs r (wp.activeJobs r - 1) q ∧
      Function.update wp.activeJobs r (wp.activeJobs r - 1) q ≤ wp.maxPerRepo
    rcases eq_or_ne q r with hq | hq
    · rw [hq]
      simp only [Function.update_same]
      have := h2 r
      constructor <;> omega
    · simp only [Function.update_noteq hq]
      exact h2 q
  · exact ⟨h0, h1, h2⟩

theorem poolInv_decTotalClamped {wp : WorkerPool} (h : PoolInv wp) :
    PoolInv wp.decTotalClamped := by
  obtain ⟨h0, h1, h2⟩ := h
  unfold WorkerPool.decTotalClamped
  split_ifs with ht
  · refine ⟨?_, ?_, fun q => h2 q⟩
    · show (0 : Int) ≤ wp.totalActive - 1
      omega
    · show wp.totalActive - 1 ≤ wp.maxTotal
      omega
  · exact ⟨h0, h1, h2⟩

theorem poolInv_onJobComplete {wp : WorkerPool} (repoKey : String)
    (h : PoolInv wp) : PoolInv (wp.OnJobComplete repoKey) :=
  poolInv_decTotalClamped (poolInv_decRepoClamped repoKey h)

theorem poolInv_applyPoolOp {wp : WorkerPool} (op : PoolOp) (h : PoolInv wp) :
    PoolInv (applyPoolOp wp op) := by
  cases op with
  | submit job => exact poolInv_trySubmit job h
  | complete repoKey => exact poolInv_onJobComplete repoKey h
  | dequeue => exact h
  | stopAccepting => exact h

theorem poolInv_runPoolOps {wp : WorkerPool} (ops : List PoolOp)
    (h : PoolInv wp) : PoolInv (runPoolOps wp ops) := by
  induction ops generalizing wp with
  | nil => exact h
  | cons op ops ih => exact ih (poolInv_applyPoolOp op h)

theorem trySubmit_accept_necessary (wp : WorkerPool) (job : Job)
    (h : (wp.TrySubmit job).1 = true) :
    wp.accepting = true ∧ wp.totalActive < wp.maxTotal ∧
      wp.activeJobs job.repository < wp.maxPerRepo ∧
      (wp.TrySubmit job).2.totalActive = wp.totalActive + 1 ∧
      (wp.TrySubmit job).2.activeJobs job.repository =
        wp.activeJobs job.repository + 1 := by
  unfold WorkerPool.TrySubmit at h ⊢
  split_ifs at h ⊢ with ha hb hc hd
  · refine ⟨by revert ha; simp, by omega, by omega, ?_, ?_⟩
    · show wp.totalActive + 1 = wp.totalActive + 1
      rfl
    · show Function.update wp.activeJobs job.repository
          (wp.activeJobs job.repository + 1) job.repository =
        wp.activeJobs job.repository + 1
      simp only [Function.update_same]

/-- C1: for every sequence of `TrySubmit` / `OnJobComplete` (and worker
dequeue / `StopAccepting`) calls on a pool created by
`NewWorkerPool maxPerRepo maxTotal` with nonnegative limits, the total
number of active jobs never exceeds `maxTotal` and no repository's active
count ever exceeds `maxPerRepo`; moreover `TrySubmit` accepts only when
`accepting` is true, `totalActive < maxTotal` and the job's repository
count is `< maxPerRepo`, and on acceptance it increments both counters. -/
theorem C1_workerPool_limits (maxPerRepo maxTotal : Int)
    (h1 : 0 ≤ maxPerRepo) (h2 : 0 ≤ maxTotal) (ops : List PoolOp) :
    ((runPoolOps (NewWorkerPool maxPerRepo maxTotal) ops).totalActive ≤ maxTotal ∧
      ∀ r, (runPoolOps (NewWorkerPool maxPerRepo maxTotal) ops).activeJobs r ≤
        maxPerRepo) ∧
    (∀ (wp : WorkerPool) (job : Job), (wp.TrySubmit job).1 = true →
      wp.accepting = true ∧ wp.totalActive < wp.maxTotal ∧
        wp.activeJobs job.repository < wp.maxPerRepo ∧
        (wp.TrySubmit job).2.totalActive = wp.totalActive + 1 ∧
        (wp.TrySubmit job).2.activeJobs job.repository =
          wp.activeJobs job.repository + 1) := by
  have hinv0 : PoolInv (NewWorkerPool maxPerRepo maxTotal) := by
    refine ⟨le_refl 0, h2, fun r => ⟨le_refl 0, h1⟩⟩
  have hmaxT : ∀ ops', (runPoolOps (NewWorkerPool maxPerRepo maxTotal) ops').maxTotal = maxTotal := by
    intro ops'
    induction ops' using List.reverseRecOn with
    | nil => rfl
    | append_singleton ops' op ih =>
      rw [runPoolOps, List.foldl_append, List.foldl_cons, List.foldl_nil]
      cases op with
      | submit job => rw [applyPoolOp, trySubmit_maxTotal]; exact ih
      | complete repoKey => rw [applyPoolOp, onJobComplete_maxTotal]; exact ih
      | dequeue => exact ih
      | stopAccepting => exact ih
  have hmaxR : ∀ ops', (runPoolOps (NewWorkerPool maxPerRepo maxTotal) ops').maxPerRepo = maxPerRepo := by
    intro ops'
    induction ops' using List.reverseRecOn with
    | nil => rfl
    | append_singleton ops' op ih =>
      rw [runPoolOps, List.foldl_append, List.foldl_cons, List.foldl_nil]
      cases op with
      | submit job => rw [applyPoolOp, trySubmit_maxPerRepo]; exact ih
      | complete repoKey => rw [applyPoolOp, onJobComplete_maxPerRepo]; exact ih
      | dequeue => exact ih
      | stopAccepting => exact ih
  have hinv := poolInv_runPoolOps ops hinv0
  refine ⟨⟨?_, fun r => ?_⟩, fun wp job h => trySubmit_accept_necessary wp job h⟩
  · have := hinv.2.1
    rw [hmaxT ops] at this
    exact this
  · have := (hinv.2.2 r).2
    rw [hmaxR ops] at this
    exact this

/-- A concrete run for the witness: five submissions across two
repositories against limits `maxPerRepo = 2`, `maxTotal = 3`, the
scenario of `TestWorkerPoolLimits`. -/
def demoPoolOps : List PoolOp :=
  [ .submit { repository := "repo-a", issueNumber := 1 }
  , .submit { repository := "repo-a", issueNumber := 2 }
  , .submit { repository := "repo-a", issueNumber := 3 }
  , .submit { repository := "repo-b", issueNumber := 4 }
  , .submit { repository := "repo-b", issueNumber := 5 } ]

theorem C1_workerPool_limits_witness :
    (runPoolOps (NewWorkerPool 2 3) demoPoolOps).totalActive ≤ 3 ∧
      (runPoolOps (NewWorkerPool 2 3) demoPoolOps).activeJobs "repo-a" ≤ 2 :=
  ⟨(C1_workerPool_limits 2 3 (by decide) (by decide) demoPoolOps).1.1,
    (C1_workerPool_limits 2 3 (by decide) (by decide) demoPoolOps).1.2 "repo-a"⟩

/-- C9: a rejected `TrySubmit` call leaves the pool unchanged — the
total count, every per-repository count, and the queue are as before,
and the job is not enqueued; in the channel-full branch the two counter
increments are reverted exactly. -/
theorem C9_trySubmit_reject_frame (wp : WorkerPool) (job : Job)
    (h : (wp.TrySubmit job).1 = false) : (wp.TrySubmit job).2 = wp := by
  unfold WorkerPool.TrySubmit at h ⊢
  split_ifs at h ⊢ with ha hb hc hd
  · rfl
  · rfl
  · rfl
  · exact incCounts_decCounts wp job.repository

theorem C9_trySubmit_reject_frame_witness :
    ((NewWorkerPool 0 0).TrySubmit { repository := "r", issueNumber := 1 }).1 =
        false ∧
      ((NewWorkerPool 0 0).TrySubmit { repository := "r", issueNumber := 1 }).2 =
        NewWorkerPool 0 0 :=
  ⟨by decide,
    C9_trySubmit_reject_frame (NewWorkerPool 0 0)
      { repository := "r", issueNumber := 1 } (by decide)⟩

/-! ## Retry engine (`internal/retry/retry.go`)

`Do` / `DoWithResult` are loops over attempts.  The embedding makes the
operation a function from the attempt index to its result (errors are
strings, Go's `error` text; `nil` is `none`), and the caller's context a
function `cancel` from observation points to `Bool`: point `2*k` is the
`ctx.Err()` check before attempt `k`, point `2*k + 1` is the `sleep`
after attempt `k`.  The loop itself cannot be a total function (with
`MaxAttempts ≤ 0` it is intentionally non-terminating), so it is embedded
with explicit fuel; `DoOutcome.running` means the loop is still running
when the fuel runs out, and "`Do` never returns on its own" is "for
every fuel the outcome is `running`".  The float arithmetic of
`calculateBackoff` (delay magnitude and jitter) is not modelled: no
claim depends on the length of a wait, only on whether one happens,
which the event trace records. -/

/-- `ErrorType` of `retry.go`. -/
inductive ErrorType where
  | Retryable
  | RateLimited
  | Permanent
deriving DecidableEq, Repr

/-- `Options` of `retry.go`; the classifier is optional (`nil` in Go). -/
structure RetryOptions where
  maxAttempts : Int
  classifier : Option (String → ErrorType)

/-- `errType := Permanent; if opts.Classifier != nil { errType =
opts.Classifier(lastErr) }`. -/
def classify (opts : RetryOptions) (e : String) : ErrorType :=
  match opts.classifier with
  | none => .Permanent
  | some cl => cl e

/-- Observable events of one `Do` run: an invocation of the operation,
the exponential-backoff sleep after an attempt, the rate-limit sleep
after an attempt. -/
inductive RetryEvent where
  | call (attempt : Nat)
  | sleepBackoff (attempt : Nat)
  | sleepRate (attempt : Nat)
deriving DecidableEq, Repr

/-- What a (finite prefix of a) `Do` run produced: returned `nil`,
returned an operation error, returned the context's cancellation error,
or still looping when the fuel ran out. -/
inductive DoOutcome where
  | success
  | failure (e : String)
  | canceled
  | running
deriving DecidableEq, Repr

/-- Prefix events onto a run result. -/
def prependEvents (evs : List RetryEvent) (r : DoOutcome × List RetryEvent) :
    DoOutcome × List RetryEvent :=
  (r.1, evs ++ r.2)

/-- The loop of `retry.Do`, from loop counter `attempt` with accumulated
`lastErr`, mirroring the Go control flow: loop-condition check
(`infinite || attempt < opts.MaxAttempts`), `ctx.Err()` check, the call,
classification, `Permanent` ⇒ return, `RateLimited` ⇒ sleep,
`Retryable` ⇒ sleep unless this is the last attempt of finite mode. -/
def retryGo (opts : RetryOptions) (fn : Nat → Option String)
    (cancel : Nat → Bool) : Nat → Nat → Option String →
    DoOutcome × List RetryEvent
  | 0, _, _ => (.running, [])
  | fuel + 1, attempt, lastErr =>
    if ¬(opts.maxAttempts ≤ 0 ∨ (attempt : Int) < opts.maxAttempts) then
      (match lastErr with
       | some e => (.failure e, [])
       | none => (.success, []))
    else if cancel (2 * attempt) then (.canceled, [])
    else
      match fn attempt with
      | none => (.success, [.call attempt])
      | some e =>
        match classify opts e with
        | .Permanent => (.failure e, [.call attempt])
        | .RateLimited =>
          if cancel (2 * attempt + 1) then
            (.canceled, [.call attempt, .sleepRate attempt])
          else
            prependEvents [.call attempt, .sleepRate attempt]
              (retryGo opts fn cancel fuel (attempt + 1) (some e))
        | .Retryable =>
          if opts.maxAttempts ≤ 0 ∨ (attempt : Int) < opts.maxAttempts - 1 then
            if cancel (2 * attempt + 1) then
              (.canceled, [.call attempt, .sleepBackoff attempt])
            else
              prependEvents [.call attempt, .sleepBackoff attempt]
                (retryGo opts fn cancel fuel (attempt + 1) (some e))
          else
            prependEvents [.call attempt]
              (retryGo opts fn cancel fuel (attempt + 1) (some e))

/-- `retry.Do`, starting at attempt 0 with `lastErr = nil`. -/
def retryDo (opts : RetryOptions) (fn : Nat → Option String)
    (cancel : Nat → Bool) (fuel : Nat) : DoOutcome × List RetryEvent :=
  retryGo opts fn cancel fuel 0 none

/-- The loop of `retry.DoWithResult`: identical control flow, also
threading the operation's value (`res` starts as Go's zero value, which
the embedding takes as a parameter). -/
def retryGoRes {T : Type} (opts : RetryOptions)
    (fn : Nat → T × Option String) (cancel : Nat → Bool) :
    Nat → Nat → T → Option String → (DoOutcome × T) × List RetryEvent
  | 0, _, res, _ => ((.running, res), [])
  | fuel + 1, attempt, res, lastErr =>
    if ¬(opts.maxAttempts ≤ 0 ∨ (attempt : Int) < opts.maxAttempts) then
      (match lastErr with
       | some e => ((.failure e, res), [])
       | none => ((.success, res), []))
    else if cancel (2 * attempt) then ((.canceled, res), [])
    else
      match fn attempt with
      | (v, none) => ((.success, v), [.call attempt])
      | (v, some e) =>
        match classify opts e with
        | .Permanent => ((.failure e, v), [.call attempt])
        | .RateLimited =>
          if cancel (2 * attempt + 1) then
            ((.canceled, v), [.call attempt, .sleepRate attempt])
          else
            ((retryGoRes opts fn cancel fuel (attempt + 1) v (some e)).1,
              .call attempt :: .sleepRate attempt ::
                (retryGoRes opts fn cancel fuel (attempt + 1) v (some e)).2)
        | .Retryable =>
          if opts.maxAttempts ≤ 0 ∨ (attempt : Int) < opts.maxAttempts - 1 then
            if cancel (2 * attempt + 1) then
              ((.canceled, v), [.call attempt, .sleepBackoff attempt])
            else
              ((retryGoRes opts fn cancel fuel (attempt + 1) v (some e)).1,
                .call attempt :: .sleepBackoff attempt ::
                  (retryGoRes opts fn cancel fuel (attempt + 1) v (some e)).2)
          else
            ((retryGoRes opts fn cancel fuel (attempt + 1) v (some e)).1,
              .call attempt ::
                (retryGoRes opts fn cancel fuel (attempt + 1) v (some e)).2)

/-- `retry.DoWithResult`. -/
def retryDoWithResult {T : Type} (opts : RetryOptions)
    (fn : Nat → T × Option String) (cancel : Nat → Bool) (zero : T)
    (fuel : Nat) : (DoOutcome × T) × List RetryEvent :=
  retryGoRes opts fn cancel fuel 0 zero none

/-- C5: when an invocation of the operation returns an error the
classifier maps to `Permanent`, `Do` (and `DoWithResult`) returns that
error right there: the run's remaining trace is exactly the one call —
no further invocation and no backoff or rate-limit wait — regardless of
the remaining attempt budget (`fuel` and `opts.maxAttempts` arbitrary).
With `attempt = 0` this is "a Permanent error on the first call stops
after exactly one attempt". -/
theorem C5_permanent_stops_immediately (opts : RetryOptions)
    (fn : Nat → Option String) {T : Type} (fnr : Nat → T × Option String)
    (cancel : Nat → Bool) (fuel attempt : Nat) (lastErr : Option String)
    (res : T) (e : String)
    (hbudget : opts.maxAttempts ≤ 0 ∨ (attempt : Int) < opts.maxAttempts)
    (hcancel : cancel (2 * attempt) = false)
    (hperm : classify opts e = .Permanent) :
    (fn attempt = some e →
      retryGo opts fn cancel (fuel + 1) attempt lastErr =
        (.failure e, [.call attempt])) ∧
    (∀ v, fnr attempt = (v, some e) →
      retryGoRes opts fnr cancel (fuel + 1) attempt res lastErr =
        ((.failure e, v), [.call attempt])) := by
  constructor
  · intro hf
    simp only [retryGo]
    rw [if_neg (not_not_intro hbudget), if_neg (by simp [hcancel]), hf]
    simp only [hperm]
  · intro v hf
    simp only [retryGoRes]
    rw [if_neg (not_not_intro hbudget), if_neg (by simp [hcancel]), hf]
    simp only [hperm]

/-- Witness for C5 at `attempt = 0`: a `Permanent` error on the first
call stops after exactly one attempt, with five attempts of budget and
fuel left. -/
theorem C5_permanent_stops_immediately_witness :
    retryGo { maxAttempts := 5, classifier := some fun _ => .Permanent }
        (fun _ => some "authentication failed") (fun _ => false) 9 0 none =
      (.failure "authentication failed", [.call 0]) :=
  (C5_permanent_stops_immediately
      { maxAttempts := 5, classifier := some fun _ => .Permanent }
      (fun _ => some "authentication failed")
      (fun _ => ((), some "authentication failed")) (fun _ => false) 8 0 none
      () "authentication failed" (by decide) rfl rfl).1 rfl

/-- C4: with `MaxAttempts ≤ 0` and an operation that only ever produces
errors classified `Retryable` or `RateLimited`, `Do` never returns on
its own: whatever the fuel, the run is either still looping or has
returned the context's cancellation error (never an operation error,
never success), and if the context is never cancelled it is still
looping at every fuel. -/
theorem C4_infinite_mode_never_gives_up (opts : RetryOptions)
    (fn : Nat → Option String) (cancel : Nat → Bool)
    (hinf : opts.maxAttempts ≤ 0)
    (herr : ∀ k, ∃ e, fn k = some e ∧ classify opts e ≠ .Permanent) :
    (∀ fuel attempt lastErr,
      (retryGo opts fn cancel fuel attempt lastErr).1 = .running ∨
        (retryGo opts fn cancel fuel attempt lastErr).1 = .canceled) ∧
    ((∀ p, cancel p = false) → ∀ fuel attempt lastErr,
      (retryGo opts fn cancel fuel attempt lastErr).1 = .running) := by
  constructor
  · intro fuel
    induction fuel with
    | zero => intro attempt lastErr; left; rfl
    | succ fuel ih =>
      intro attempt lastErr
      obtain ⟨e, hf, hcl⟩ := herr attempt
      simp only [retryGo]
      rw [if_neg (not_not_intro (Or.inl hinf)), hf]
      rcases hcan : cancel (2 * attempt) with _ | _
      · rw [if_neg (by simp [hcan])]
        rcases hcl2 : classify opts e with _ | _ | _
        · simp only [hcl2]
          rw [if_pos (Or.inl hinf)]
          rcases hcan2 : cancel (2 * attempt + 1) with _ | _
          · rw [if_neg (by simp [hcan2])]
            simpa [prependEvents] using ih (attempt + 1) (some e)
          · rw [if_pos (by simp [hcan2])]
            right; rfl
        · simp only [hcl2]
          rcases hcan2 : cancel (2 * attempt + 1) with _ | _
          · rw [if_neg (by simp [hcan2])]
            simpa [prependEvents] using ih (attempt + 1) (some e)
          · rw [if_pos (by simp [hcan2])]
            right; rfl
        · exact absurd hcl2 hcl
      · rw [if_pos (by simp [hcan])]
        right; rfl
  · intro hnc fuel
    induction fuel with
    | zero => intro attempt lastErr; rfl
    | succ fuel ih =>
      intro attempt lastErr
      obtain ⟨e, hf, hcl⟩ := herr attempt
      simp only [retryGo]
      rw [if_neg (not_not_intro (Or.inl hinf)), if_neg (by simp [hnc]), hf]
      rcases hcl2 : classify opts e with _ | _ | _
      · simp only [hcl2]
        rw [if_pos (Or.inl hinf), if_neg (by simp [hnc])]
        simpa [prependEvents] using ih (attempt + 1) (some e)
      · simp only [hcl2]
        rw [if_neg (by simp [hnc])]
        simpa [prependEvents] using ih (attempt + 1) (some e)
      · exact absurd hcl2 hcl

/-- Witness for C4: indefinitely retrying operation (always a
`Retryable` timeout), no cancellation, 7 units of fuel: still looping. -/
theorem C4_infinite_mode_never_gives_up_witness :
    (retryGo { maxAttempts := 0, classifier := some fun _ => .Retryable }
        (fun _ => some "connection timeout") (fun _ => false) 7 0 none).1 =
      .running :=
  (C4_infinite_mode_never_gives_up
      { maxAttempts := 0, classifier := some fun _ => .Retryable }
      (fun _ => some "connection timeout") (fun _ => false) (by decide)
      (fun k => ⟨"connection timeout", rfl, by decide⟩)).2
    (fun p => rfl) 7 0 none

/-! ## Dependency detector (`deps.go`, package `orchestrator`)

`ParseIssueReferences` runs five Go regexps over the text with
`FindAllStringSubmatch`.  The embedding implements the five patterns
directly: each is a case-insensitive keyword (with an optional trailing
`s` for `depends?` / `requires?`), `\s+`, an optional second keyword
alternation, `\s+`, `#`, and a greedy `(\d+)` capture.  `FindAll`'s
leftmost, non-overlapping scan is `findPatternMatches`; case folding is
ASCII (all keywords are ASCII).  RE2's `\s` is `[\t\n\f\r ]` and `\d` is
`[0-9]`. -/

/-- RE2's `\s` class. -/
def isReWS (c : Char) : Bool :=
  c = ' ' || c = '\t' || c = '\n' || c = '\x0c' || c = '\r'

/-- Case-insensitive literal: consumes `ks` from the front of `cs`,
returning the rest. -/
def matchLitCI : List Char → List Char → Option (List Char)
  | [], cs => some cs
  | _ :: _, [] => none
  | k :: ks, c :: cs => if c.toLower = k then matchLitCI ks cs else none

/-- `\s+`, greedy: one or more whitespace characters. -/
def matchWS1 : List Char → Option (List Char)
  | [] => none
  | c :: cs => if isReWS c then some (cs.dropWhile isReWS) else none

/-- `(\d+)`, greedy: the maximal nonempty digit run (the capture) and
the rest. -/
def matchDigits1 (cs : List Char) : Option (List Char × List Char) :=
  if cs.takeWhile Char.isDigit = [] then none
  else some (cs.takeWhile Char.isDigit, cs.dropWhile Char.isDigit)

/-- One of the five dependency regexps: keyword, optional trailing `s`,
and the second-keyword alternatives (empty when the `#` follows the
first keyword directly). -/
structure DepPattern where
  kw : List Char
  optS : Bool
  alts : List (List Char)

/-- Optional trailing `s` (greedy; committing is safe because the
continuation starts with `\s+` and `s` is not whitespace). -/
def matchOptS (optS : Bool) (cs : List Char) : List Char :=
  match optS, cs with
  | true, c :: rest => if c.toLower = 's' then rest else c :: rest
  | _, _ => cs

/-- `(?:a|b)\s+`-style alternation: first alternative whose literal and
following `\s+` both match. -/
def matchAltsWS : List (List Char) → List Char → Option (List Char)
  | [], _ => none
  | a :: rest, cs =>
    match (matchLitCI a cs).bind matchWS1 with
    | some cs2 => some cs2
    | none => matchAltsWS rest cs

/-- Match one dependency pattern at the head of `cs`: keyword, optional
`s`, `\s+`, the alternation (if any), `#`, digit capture.  Returns the
capture and the rest of the text after the match. -/
def matchPatternAt (p : DepPattern) (cs : List Char) :
    Option (List Char × List Char) :=
  (matchLitCI p.kw cs).bind fun cs1 =>
    (matchWS1 (matchOptS p.optS cs1)).bind fun cs2 =>
      (if p.alts.isEmpty then some cs2 else matchAltsWS p.alts cs2).bind
        fun cs3 =>
          match cs3 with
          | '#' :: cs4 => matchDigits1 cs4
          | _ => none

theorem matchLitCI_length {ks cs cs1 : List Char}
    (h : matchLitCI ks cs = some cs1) : cs1.length + ks.length = cs.length := by
  induction ks generalizing cs with
  | nil =>
    rw [matchLitCI] at h
    cases h
    simp
  | cons k ks ih =>
    cases cs with
    | nil => exact absurd h (by rw [matchLitCI]; simp)
    | cons c cs =>
      rw [matchLitCI] at h
      split_ifs at h
      have := ih h
      simp only [List.length_cons]
      omega

theorem matchOptS_length (b : Bool) (cs : List Char) :
    (matchOptS b cs).length ≤ cs.length := by
  cases b with
  | false => cases cs <;> simp [matchOptS]
  | true =>
    cases cs with
    | nil => simp [matchOptS]
    | cons c rest =>
      simp only [matchOptS]
      split_ifs <;> simp

theorem matchWS1_length {cs cs1 : List Char} (h : matchWS1 cs = some cs1) :
    cs1.length < cs.length := by
  cases cs with
  | nil => exact absurd h (by rw [matchWS1]; simp)
  | cons c cs =>
    rw [matchWS1] at h
    split_ifs at h
    cases h
    have := (List.dropWhile_suffix (l := cs) isReWS).length_le
    simp only [List.length_cons]
    omega

theorem matchWS1_length_le {cs cs1 : List Char} (h : matchWS1 cs = some cs1) :
    cs1.length ≤ cs.length :=
  Nat.le_of_lt (matchWS1_length h)

theorem matchAltsWS_length {alts : List (List Char)} {cs cs1 : List Char}
    (h : matchAltsWS alts cs = some cs1) : cs1.length ≤ cs.length := by
  induction alts with
  | nil => exact absurd h (by rw [matchAltsWS]; simp)
  | cons a rest ih =>
    rw [matchAltsWS] at h
    split at h
    · rename_i cs2 heq
      cases h
      rcases Option.bind_eq_some.mp heq with ⟨csa, hlit, hws⟩
      have h1 := matchLitCI_length hlit
      have h2 := matchWS1_length_le hws
      omega
    · exact ih h

theorem matchDigits1_length {cs : List Char} {d rest : List Char}
    (h : matchDigits1 cs = some (d, rest)) : rest.length ≤ cs.length := by
  unfold matchDigits1 at h
  split_ifs at h
  cases h
  exact (List.dropWhile_suffix (l := cs) Char.isDigit).length_le

theorem matchPatternAt_length {p : DepPattern} {cs d rest : List Char}
    (h : matchPatternAt p cs = some (d, rest)) : rest.length < cs.length := by
  unfold matchPatternAt at h
  rcases Option.bind_eq_some.mp h with ⟨cs1, h1, h'⟩
  rcases Option.bind_eq_some.mp h' with ⟨cs2, h2, h''⟩
  rcases Option.bind_eq_some.mp h'' with ⟨cs3, h3, h4⟩
  have l1 := matchLitCI_length h1
  have l2 := matchWS1_length h2
  have l2b := matchOptS_length p.optS cs1
  have l3 : cs3.length ≤ cs2.length := by
    split_ifs at h3 with he
    · cases h3; exact le_refl _
    · exact matchAltsWS_length h3
  rcases cs3 with _ | ⟨c4, cs4⟩
  · exact absurd h4 (by simp)
  · split at h4
    · rename_i cs5 heq4
      have l4 := matchDigits1_length h4
      injection heq4 with hc hrest
      subst hrest
      simp only [List.length_cons] at l3
      omega
    · exact absurd h4 (by simp)

/-- `FindAllStringSubmatch(text, -1)`: leftmost matches, scanning
resumes after each match (non-overlapping); returns the captures. -/
def findPatternMatches (p : DepPattern) : List Char → List (List Char)
  | [] => []
  | c :: cs =>
    match h : matchPatternAt p (c :: cs) with
    | some (d, rest) => d :: findPatternMatches p rest
    | none => findPatternMatches p cs
termination_by cs => cs.length
decreasing_by
  · have := matchPatternAt_length h
    simpa using this
  · simp

/-- `depends?\s+on\s+#(\d+)`. -/
def patDependsOn : DepPattern := ⟨"depend".data, true, ["on".data]⟩

/-- `after\s+#(\d+)`. -/
def patAfter : DepPattern := ⟨"after".data, false, []⟩

/-- `requires?\s+#(\d+)`. -/
def patRequires : DepPattern := ⟨"require".data, true, []⟩

/-- `blocked\s+by\s+#(\d+)`. -/
def patBlockedBy : DepPattern := ⟨"blocked".data, false, ["by".data]⟩

/-- `waiting\s+(?:for|on)\s+#(\d+)`. -/
def patWaiting : DepPattern := ⟨"waiting".data, false, ["for".data, "on".data]⟩

/-- The `dependencyPatterns` list of `ParseIssueReferences`, in source
order. -/
def dependencyPatterns : List DepPattern :=
  [patDependsOn, patAfter, patRequires, patBlockedBy, patWaiting]

/-- The numeric value of a digit capture. -/
def digitsToNat (ds : List Char) : Nat :=
  ds.foldl (fun n c => n * 10 + (c.toNat - 48)) 0

/-- `strconv.Atoi` on a capture: the reference is skipped when the value
overflows a 64-bit int (Go returns `ErrRange`). -/
def atoiCapture (ds : List Char) : Option Int :=
  if digitsToNat ds ≤ 9223372036854775807 then some (Int.ofNat (digitsToNat ds))
  else none

/-- `ParseIssueReferences`: for each pattern in order, every match in
text order, converted by `strconv.Atoi`. -/
def ParseIssueReferences (text : String) : List Int :=
  dependencyPatterns.foldl
    (fun deps p => deps ++ (findPatternMatches p text.data).filterMap atoiCapture)
    []

/-- The loop of `deduplicateDeps`: keep first occurrences, skip the
issue's own number; `seen` is the map of already-kept values. -/
def dedupLoop (selfIssueNum : Int) : List Int → List Int → List Int
  | [], _ => []
  | d :: rest, seen =>
    if d ≠ selfIssueNum ∧ ¬d ∈ seen then
      d :: dedupLoop selfIssueNum rest (d :: seen)
    else dedupLoop selfIssueNum rest seen

/-- `deduplicateDeps`. -/
def deduplicateDeps (deps : List Int) (selfIssueNum : Int) : List Int :=
  dedupLoop selfIssueNum deps []

/-! ### Character facts and suffix bookkeeping for the matcher proofs -/

theorem isReWS_toLower {c : Char} (h : isReWS c = true) : c.toLower = c := by
  unfold isReWS at h
  rcases (by simpa using h :
      (((c = ' ' ∨ c = '\t') ∨ c = '\n') ∨ c = '\x0c') ∨ c = '\r') with
    ⟨⟨⟨h' | h'⟩ | h'⟩ | h'⟩ | h' <;> (subst h'; decide)

theorem isDigit_toLower {c : Char} (h : c.isDigit = true) : c.toLower = c := by
  unfold Char.isDigit at h
  simp only [Bool.and_eq_true, decide_eq_true_eq] at h
  have h1 : (48 : UInt32).toNat ≤ c.val.toNat := h.1
  have h2 : c.val.toNat ≤ (57 : UInt32).toNat := h.2
  have e1 : (48 : UInt32).toNat = 48 := rfl
  have e2 : (57 : UInt32).toNat = 57 := rfl
  unfold Char.toLower
  rw [if_neg]
  have hv : Char.toNat c = c.val.toNat := rfl
  omega

/-- A whitespace character is not a given non-whitespace character. -/
theorem ws_ne {c k : Char} (h : isReWS c = true) (hk : isReWS k = false) :
    c ≠ k := by
  intro he
  rw [he] at h
  rw [h] at hk
  exact Bool.true_eq_false.mp hk

/-- A digit is not a given non-digit character. -/
theorem digit_ne {c k : Char} (h : c.isDigit = true) (hk : k.isDigit = false) :
    c ≠ k := by
  intro he
  rw [he] at h
  rw [h] at hk
  exact Bool.true_eq_false.mp hk

/-- A list that starts (if at all) with a character other than `k` has
no prefix starting with `k`. -/
theorem not_cons_prefix {k : Char} {ks l : List Char}
    (h : ∀ c, l.head? = some c → c ≠ k) : ¬k :: ks <+: l := by
  cases l with
  | nil => intro hp; exact absurd (List.eq_nil_of_prefix_nil hp) (by simp)
  | cons c l' =>
    intro hp
    rcases List.cons_prefix_iff.mp hp with ⟨he, _⟩
    exact h c rfl he.symm

/-- Split a suffix of `A ++ B` that is at least as long as `B`:
it is `ta ++ B` for a suffix `ta` of `A`. -/
theorem suffix_append_split {A B t : List Char} (h : t <:+ A ++ B)
    (hlen : B.length ≤ t.length) : ∃ ta, ta <:+ A ∧ t = ta ++ B := by
  induction A with
  | nil =>
    simp only [List.nil_append] at h
    have : t.length ≤ B.length := h.length_le
    have : t = B := List.eq_of_suffix_of_length_eq h (by omega)
    exact ⟨[], List.nil_suffix, by simpa using this⟩
  | cons a A ih =>
    rw [List.cons_append, List.suffix_cons_iff] at h
    rcases h with h | h
    · exact ⟨a :: A, List.suffix_rfl, by simpa using h⟩
    · rcases ih h with ⟨ta, h1, h2⟩
      exact ⟨ta, h1.trans (List.suffix_cons a A), h2⟩

/-- A nonempty suffix's head is a member of the list. -/
theorem head_mem_of_suffix {c : Char} {cs l : List Char}
    (h : c :: cs <:+ l) : c ∈ l :=
  h.subset (by simp)

theorem matchLitCI_decomp {ks cs rest : List Char}
    (h : matchLitCI ks cs = some rest) :
    ∃ pre, cs = pre ++ rest ∧ pre.map Char.toLower = ks := by
  induction ks generalizing cs with
  | nil =>
    rw [matchLitCI] at h
    cases h
    exact ⟨[], rfl, rfl⟩
  | cons k ks ih =>
    cases cs with
    | nil => exact absurd h (by rw [matchLitCI]; simp)
    | cons c cs =>
      rw [matchLitCI] at h
      split_ifs at h with hc
      rcases ih h with ⟨pre, h1, h2⟩
      exact ⟨c :: pre, by simp [h1], by simp [h2, hc]⟩

theorem matchWS1_decomp {cs rest : List Char} (h : matchWS1 cs = some rest) :
    ∃ pre, cs = pre ++ rest ∧ pre ≠ [] ∧ ∀ c ∈ pre, isReWS c = true := by
  cases cs with
  | nil => exact absurd h (by rw [matchWS1]; simp)
  | cons c cs =>
    rw [matchWS1] at h
    split_ifs at h with hw
    cases h
    refine ⟨c :: cs.takeWhile isReWS, ?_, by simp, ?_⟩
    · simp [List.takeWhile_append_dropWhile]
    · intro x hx
      rcases List.mem_cons.mp hx with hx | hx
      · subst hx; exact hw
      · exact List.mem_takeWhile_imp hx

theorem matchOptS_decomp (b : Bool) (cs : List Char) :
    ∃ pre, cs = pre ++ matchOptS b cs ∧
      (pre = [] ∨ ∃ c, pre = [c] ∧ c.toLower = 's') := by
  cases b with
  | false => exact ⟨[], by cases cs <;> simp [matchOptS], Or.inl rfl⟩
  | true =>
    cases cs with
    | nil => exact ⟨[], by simp [matchOptS], Or.inl rfl⟩
    | cons c rest =>
      by_cases hc : c.toLower = 's'
      · exact ⟨[c], by simp [matchOptS, hc], Or.inr ⟨c, rfl, hc⟩⟩
      · exact ⟨[], by simp [matchOptS, hc], Or.inl rfl⟩

theorem matchAltsWS_decomp {alts : List (List Char)} {cs rest : List Char}
    (h : matchAltsWS alts cs = some rest) :
    ∃ a ∈ alts, ∃ pre wsp, cs = pre ++ wsp ++ rest ∧
      pre.map Char.toLower = a ∧ wsp ≠ [] ∧ ∀ c ∈ wsp, isReWS c = true := by
  induction alts with
  | nil => exact absurd h (by rw [matchAltsWS]; simp)
  | cons a arest ih =>
    rw [matchAltsWS] at h
    split at h
    · rename_i cs2 heq
      cases h
      rcases Option.bind_eq_some.mp heq with ⟨csa, hlit, hws⟩
      rcases matchLitCI_decomp hlit with ⟨pre, hp1, hp2⟩
      rcases matchWS1_decomp hws with ⟨wsp, hw1, hw2, hw3⟩
      exact ⟨a, by simp, pre, wsp, by simp [hp1, hw1], hp2, hw2, hw3⟩
    · rcases ih h with ⟨a', ha', rest'⟩
      exact ⟨a', List.mem_cons_of_mem a ha', rest'⟩

theorem matchDigits1_decomp {cs d rest : List Char}
    (h : matchDigits1 cs = some (d, rest)) :
    cs = d ++ rest ∧ d ≠ [] ∧ ∀ c ∈ d, c.isDigit = true := by
  unfold matchDigits1 at h
  split_ifs at h with hne
  cases h
  refine ⟨(List.takeWhile_append_dropWhile Char.isDigit cs).symm, hne, ?_⟩
  intro c hc
  exact List.mem_takeWhile_imp hc

/-- The shape of the span a successful `matchPatternAt` consumes. -/
def SpanShape (p : DepPattern) (span d : List Char) : Prop :=
  ∃ kwPre sPre ws1 mid,
    span = kwPre ++ sPre ++ ws1 ++ mid ++ '#' :: d ∧
    kwPre.map Char.toLower = p.kw ∧
    (sPre = [] ∨ ∃ c, sPre = [c] ∧ c.toLower = 's') ∧
    ws1 ≠ [] ∧ (∀ c ∈ ws1, isReWS c = true) ∧
    ((p.alts.isEmpty = true ∧ mid = []) ∨
      ∃ a ∈ p.alts, ∃ altPre ws2, mid = altPre ++ ws2 ∧
        altPre.map Char.toLower = a ∧ ws2 ≠ [] ∧
        ∀ c ∈ ws2, isReWS c = true) ∧
    d ≠ [] ∧ ∀ c ∈ d, c.isDigit = true

theorem matchPatternAt_decomp {p : DepPattern} {cs d rest : List Char}
    (h : matchPatternAt p cs = some (d, rest)) :
    ∃ span, cs = span ++ rest ∧ SpanShape p span d := by
  unfold matchPatternAt at h
  rcases Option.bind_eq_some.mp h with ⟨cs1, h1, h'⟩
  rcases Option.bind_eq_some.mp h' with ⟨cs2, h2, h''⟩
  rcases Option.bind_eq_some.mp h'' with ⟨cs3, h3, h4⟩
  rcases matchLitCI_decomp h1 with ⟨kwPre, hk1, hk2⟩
  rcases matchOptS_decomp p.optS cs1 with ⟨sPre, hs1, hs2⟩
  rcases matchWS1_decomp h2 with ⟨ws1, hw1, hw2, hw3⟩
  rcases cs3 with _ | ⟨c4, cs4⟩
  · exact absurd h4 (by simp)
  · revert h4
    split
    · rename_i cs5 heq4
      intro h4
      rcases matchDigits1_decomp h4 with ⟨hd1, hd2, hd3⟩
      injection heq4 with hc4 hcs4
      subst hc4
      subst hcs4
      by_cases he : p.alts.isEmpty
      · rw [if_pos he] at h3
        cases h3
        refine ⟨kwPre ++ sPre ++ ws1 ++ [] ++ '#' :: d, ?_, ?_⟩
        · rw [hk1, hs1, hw1, hd1]
          simp
        · exact ⟨kwPre, sPre, ws1, [], rfl, hk2, hs2, hw2, hw3,
            Or.inl ⟨he, rfl⟩, hd2, hd3⟩
      · rw [if_neg he] at h3
        rcases matchAltsWS_decomp h3 with ⟨a, ha, altPre, ws2, hm1, hm2, hm3, hm4⟩
        refine ⟨kwPre ++ sPre ++ ws1 ++ (altPre ++ ws2) ++ '#' :: d, ?_, ?_⟩
        · rw [hk1, hs1, hw1, hm1, hd1]
          simp
        · refine ⟨kwPre, sPre, ws1, altPre ++ ws2, rfl, hk2, hs2, hw2, hw3,
            Or.inr ⟨a, ha, altPre, ws2, rfl, hm2, hm3, hm4⟩, hd2, hd3⟩
    · intro h4
      exact absurd h4 (by simp)

/-- A successful match makes the (case-folded) keyword a prefix of the
input. -/
theorem matchPatternAt_kw_prefix {p : DepPattern} {cs d rest : List Char}
    (h : matchPatternAt p cs = some (d, rest)) :
    p.kw <+: cs.map Char.toLower := by
  unfold matchPatternAt at h
  rcases Option.bind_eq_some.mp h with ⟨cs1, h1, _⟩
  rcases matchLitCI_decomp h1 with ⟨pre, hp1, hp2⟩
  rw [hp1, List.map_append, ← hp2]
  exact List.prefix_append _ _

/-! ### Non-overlap of matches

`FindAllStringSubmatch` resumes scanning after each match.  For these
five patterns that loses nothing: no match can start strictly inside
another match's span, because a new match would have to start with the
pattern's keyword and no position inside a span can.  The next block
proves this for each pattern. -/

/-- Matches of `p` never overlap: a suffix that starts strictly inside
the span of a successful match does not match. -/
def OverlapFree (p : DepPattern) : Prop :=
  ∀ cs d rest s, matchPatternAt p cs = some (d, rest) → s <:+ cs →
    rest.length < s.length → s.length < cs.length →
    matchPatternAt p s = none

/-- A suffix of `A ++ B` is a suffix of `B`, or `ta ++ B` for a
nonempty suffix `ta` of `A`. -/
theorem suffix_append_cases {A B t : List Char} (h : t <:+ A ++ B) :
    t <:+ B ∨ ∃ ta, ta <:+ A ∧ ta ≠ [] ∧ t = ta ++ B := by
  by_cases hl : t.length ≤ B.length
  · exact Or.inl (List.suffix_of_suffix_length_le h (List.suffix_append A B) hl)
  · rcases suffix_append_split h (by omega) with ⟨ta, h1, h2⟩
    refine Or.inr ⟨ta, h1, ?_, h2⟩
    intro hnil
    subst hnil
    simp only [List.nil_append] at h2
    subst h2
    exact hl (le_refl _)

/-- A whitespace-headed list has no prefix starting with a non-space
character. -/
theorem not_prefix_of_ws_head {k : Char} {ks ws ta : List Char}
    (Y : List Char) (hws : ∀ c ∈ ws, isReWS c = true) (ht : ta <:+ ws)
    (hne : ta ≠ []) (hk : isReWS k = false) :
    ¬k :: ks <+: ta.map Char.toLower ++ Y := by
  cases ta with
  | nil => exact absurd rfl hne
  | cons c t' =>
    have hc : isReWS c = true := hws c (head_mem_of_suffix ht)
    rw [List.map_cons, isReWS_toLower hc, List.cons_append]
    exact not_cons_prefix fun c' he => by cases he; exact ws_ne hc hk

/-- A digit-headed list has no prefix starting with a non-digit
character. -/
theorem not_prefix_of_digit_head {k : Char} {ks ds ta : List Char}
    (Y : List Char) (hds : ∀ c ∈ ds, c.isDigit = true) (ht : ta <:+ ds)
    (hne : ta ≠ []) (hk : k.isDigit = false) :
    ¬k :: ks <+: ta.map Char.toLower ++ Y := by
  cases ta with
  | nil => exact absurd rfl hne
  | cons c t' =>
    have hc : c.isDigit = true := hds c (head_mem_of_suffix ht)
    rw [List.map_cons, isDigit_toLower hc, List.cons_append]
    exact not_cons_prefix fun c' he => by cases he; exact digit_ne hc hk

/-- After the keyword's first letter, the next character of a span is
the optional `s` or whitespace — never the letter `k`. -/
theorem not_prefix_sPre_ws {k : Char} {ks sPre ws1 : List Char}
    (Y : List Char) (hs : sPre = [] ∨ ∃ c, sPre = [c] ∧ c.toLower = 's')
    (hws1 : ws1 ≠ []) (hwsa : ∀ c ∈ ws1, isReWS c = true)
    (hk1 : isReWS k = false) (hk2 : k ≠ 's') :
    ¬k :: ks <+: sPre.map Char.toLower ++ (ws1.map Char.toLower ++ Y) := by
  rcases hs with hs | ⟨c, hs, hc⟩
  · subst hs
    simp only [List.map_nil, List.nil_append]
    cases ws1 with
    | nil => exact absurd rfl hws1
    | cons w ws' =>
      have hw := hwsa w (by simp)
      rw [List.map_cons, isReWS_toLower hw, List.cons_append]
      exact not_cons_prefix fun c' he => by cases he; exact ws_ne hw hk1
  · subst hs
    simp only [List.map_cons, List.map_nil, List.cons_append]
    rw [hc]
    exact not_cons_prefix fun c' he => by cases he; exact fun h => hk2 h.symm

/-- The tail of every span: whitespace, then (optionally a second
keyword and whitespace), then `#` and digits.  No proper nonempty suffix
of it starts, after case folding, with the character `k` (a letter that
is none of the second-keyword letters). -/
theorem no_inner_from_ws {k : Char} {ks ws1 mid d : List Char}
    (X : List Char) (ta : List Char)
    (hws1 : ∀ c ∈ ws1, isReWS c = true)
    (hmid : (mid = []) ∨ ∃ altL ws2, mid = altL ++ ws2 ∧
      (∀ c ∈ ws2, isReWS c = true) ∧
      (∀ tb, tb <:+ altL → tb ≠ [] →
        ¬k :: ks <+: tb.map Char.toLower ++
          (ws2.map Char.toLower ++ ('#' :: d).map Char.toLower ++ X)))
    (hd : ∀ c ∈ d, c.isDigit = true)
    (hta : ta <:+ ws1 ++ (mid ++ '#' :: d)) (hne : ta ≠ [])
    (hk1 : isReWS k = false) (hk2 : k.isDigit = false) (hk3 : k ≠ '#') :
    ¬k :: ks <+: ta.map Char.toLower ++ X := by
  rcases suffix_append_cases hta with hta | ⟨tb, htb, hbne, heq⟩
  swap
  · subst heq
    rw [List.map_append, List.append_assoc]
    exact not_prefix_of_ws_head _ hws1 htb hbne hk1
  rcases hmid with hmid | ⟨altL, ws2, hmid, hws2, halt⟩
  · subst hmid
    rw [List.nil_append] at hta
    rcases List.suffix_cons_iff.mp hta with hta | hta
    · subst hta
      rw [List.map_cons]
      show ¬k :: ks <+: '#' :: (d.map Char.toLower ++ X)
      exact not_cons_prefix fun c' he => by cases he; exact fun h => hk3 h.symm
    · exact not_prefix_of_digit_head _ hd hta hne hk2
  · subst hmid
    rw [List.append_assoc] at hta
    rcases suffix_append_cases hta with hta | ⟨tb, htb, hbne, heq⟩
    swap
    · subst heq
      rw [List.map_append, List.append_assoc]
      have := halt tb htb hbne
      simpa [List.map_append, List.append_assoc] using this
    rcases suffix_append_cases hta with hta | ⟨tb, htb, hbne, heq⟩
    swap
    · subst heq
      rw [List.map_append, List.append_assoc]
      exact not_prefix_of_ws_head _ hws2 htb hbne hk1
    rcases List.suffix_cons_iff.mp hta with hta | hta
    · subst hta
      rw [List.map_cons]
      show ¬k :: ks <+: '#' :: (d.map Char.toLower ++ X)
      exact not_cons_prefix fun c' he => by cases he; exact fun h => hk3 h.symm
    · exact not_prefix_of_digit_head _ hd hta hne hk2

/-- Reduce `OverlapFree` to: no proper nonempty suffix of a span can
start a new (case-folded) keyword. -/
theorem overlapFree_of_no_inner (p : DepPattern)
    (H : ∀ span d ta (X : List Char), SpanShape p span d → ta <:+ span →
      ta ≠ [] → ta.length < span.length →
      ¬p.kw <+: ta.map Char.toLower ++ X) :
    OverlapFree p := by
  intro cs d rest s hm hsuf h1 h2
  rcases matchPatternAt_decomp hm with ⟨span, hcs, hshape⟩
  subst hcs
  rcases suffix_append_split hsuf (le_of_lt h1) with ⟨ta, hta, hs⟩
  subst hs
  cases hin : matchPatternAt p (ta ++ rest) with
  | none => rfl
  | some pr =>
    exfalso
    obtain ⟨d2, r2⟩ := pr
    have hpre := matchPatternAt_kw_prefix hin
    rw [List.map_append] at hpre
    refine H span d ta (rest.map Char.toLower) hshape hta ?_ ?_ hpre
    · intro hnil
      subst hnil
      simp at h1
    · have hl1 := List.length_append ta rest
      have hl2 := List.length_append span rest
      simp only [List.length_append] at h2
      omega

theorem no_inner_depend (span d ta : List Char) (X : List Char)
    (hshape : SpanShape patDependsOn span d) (hta : ta <:+ span)
    (h0 : ta ≠ []) (hlt : ta.length < span.length) :
    ¬patDependsOn.kw <+: ta.map Char.toLower ++ X := by
  obtain ⟨kwPre, sPre, ws1, mid, hspan, hk, hs, hw1ne, hw1, hmid, hdne, hd⟩ :=
    hshape
  have hkw : patDependsOn.kw = 'd' :: 'e' :: 'p' :: 'e' :: 'n' :: 'd' :: [] :=
    rfl
  rcases hmid with ⟨hemp, _⟩ | ⟨a, ha, altPre, ws2, hmid, haltL, hw2ne, hw2⟩
  · exact absurd hemp (by decide)
  have ha' : a = 'o' :: 'n' :: [] := by
    simpa [patDependsOn] using ha
  subst ha'
  subst hmid
  subst hspan
  simp only [List.append_assoc] at hta hlt ⊢
  rw [hkw]
  rcases suffix_append_cases hta with hta | ⟨tb, htb, hbne, heq⟩
  · -- inside sPre ++ (ws1 ++ (altPre ++ (ws2 ++ '#' :: d)))
    rcases suffix_append_cases hta with hta | ⟨tb, htb, hbne, heq⟩
    · -- inside ws1 ++ (altPre ++ (ws2 ++ '#' :: d))
      rcases suffix_append_cases hta with hta | ⟨tb, htb, hbne, heq⟩
      · -- inside altPre ++ (ws2 ++ '#' :: d)
        rcases suffix_append_cases hta with hta | ⟨tb, htb, hbne, heq⟩
        · -- inside ws2 ++ '#' :: d
          rcases suffix_append_cases hta with hta | ⟨tb, htb, hbne, heq⟩
          · -- inside '#' :: d
            rcases List.suffix_cons_iff.mp hta with hta | hta
            · subst hta
              rw [List.map_cons]
              show ¬_ <+: '#' :: (d.map Char.toLower ++ X)
              exact not_cons_prefix fun c' he => by cases he; decide
            · exact not_prefix_of_digit_head X hd hta h0 (by decide)
          · subst heq
            rw [List.map_append, List.append_assoc]
            exact not_prefix_of_ws_head _ hw2 htb hbne (by decide)
        · subst heq
          have htbL : tb.map Char.toLower <:+ 'o' :: 'n' :: [] := by
            rw [← haltL]
            exact htb.map Char.toLower
          have hbne' : tb.map Char.toLower ≠ [] := by
            simpa using hbne
          rw [List.map_append, List.append_assoc]
          rcases List.suffix_cons_iff.mp htbL with h' | h'
          · rw [h']
            exact not_cons_prefix fun c' he => by cases he; decide
          · rcases List.suffix_cons_iff.mp h' with h' | h'
            · rw [h']
              exact not_cons_prefix fun c' he => by cases he; decide
            · rw [List.suffix_nil] at h'
              exact absurd h' hbne'
      · subst heq
        rw [List.map_append, List.append_assoc]
        exact not_prefix_of_ws_head _ hw1 htb hbne (by decide)
    · subst heq
      rcases hs with hs | ⟨c, hs, hc⟩
      · subst hs
        rw [List.suffix_nil] at htb
        exact absurd htb hbne
      · subst hs
        rcases List.suffix_cons_iff.mp htb with h' | h'
        · subst h'
          simp only [List.map_append, List.map_cons, List.map_nil,
            List.cons_append, List.nil_append, hc]
          exact not_cons_prefix fun c' he => by cases he; decide
        · rw [List.suffix_nil] at h'
          exact absurd h' hbne
  · subst heq
    have htbL : tb.map Char.toLower <:+
        'd' :: 'e' :: 'p' :: 'e' :: 'n' :: 'd' :: [] := by
      rw [← hkw, ← hk]
      exact htb.map Char.toLower
    have hbne' : tb.map Char.toLower ≠ [] := by
      simpa using hbne
    have hkwlen : kwPre.length = 6 := by
      have := congrArg List.length hk
      simpa [hkw] using this
    rw [List.map_append, List.append_assoc]
    rcases List.suffix_cons_iff.mp htbL with h' | h'
    · -- tb is all of kwPre: excluded by ta being a proper suffix
      exfalso
      have htblen : tb.length = 6 := by
        have := congrArg List.length h'
        simpa using this
      have h1 := List.length_append tb
        (sPre ++ (ws1 ++ ('o' :: 'n' :: [] ++ (ws2 ++ '#' :: d))))
      simp only [List.length_append] at hlt
      omega
    rcases List.suffix_cons_iff.mp h' with h' | h'
    · rw [h']
      exact not_cons_prefix fun c' he => by cases he; decide
    rcases List.suffix_cons_iff.mp h' with h' | h'
    · rw [h']
      exact not_cons_prefix fun c' he => by cases he; decide
    rcases List.suffix_cons_iff.mp h' with h' | h'
    · rw [h']
      exact not_cons_prefix fun c' he => by cases he; decide
    rcases List.suffix_cons_iff.mp h' with h' | h'
    · rw [h']
      exact not_cons_prefix fun c' he => by cases he; decide
    rcases List.suffix_cons_iff.mp h' with h' | h'
    · -- tb folds to ['d']: the next character is the optional s or space
      rw [h']
      rw [List.cons_append, List.nil_append]
      rw [List.cons_prefix_cons]
      rintro ⟨-, hrest⟩
      simp only [List.map_append, List.append_assoc] at hrest
      exact not_prefix_sPre_ws _ hs hw1ne hw1 (by decide) (by decide) hrest
    · rw [List.suffix_nil] at h'
      exact absurd h' hbne'

/-- Shared handling of the optional-`s` segment: its only character
folds to `s`, which is not the keyword head `k`. -/
theorem no_inner_sPre {k : Char} {ks sPre tb : List Char} (Y : List Char)
    (hs : sPre = [] ∨ ∃ c, sPre = [c] ∧ c.toLower = 's')
    (htb : tb <:+ sPre) (hbne : tb ≠ []) (hk : k ≠ 's') :
    ¬k :: ks <+: tb.map Char.toLower ++ Y := by
  rcases hs with hs | ⟨c, hs, hc⟩
  · subst hs
    rw [List.suffix_nil] at htb
    exact absurd htb hbne
  · subst hs
    rcases List.suffix_cons_iff.mp htb with h' | h'
    · subst h'
      simp only [List.map_cons, List.map_nil, List.cons_append]
      rw [hc]
      exact not_cons_prefix fun c' he => by cases he; exact fun h => hk h.symm
    · rw [List.suffix_nil] at h'
      exact absurd h' hbne

theorem no_inner_after (span d ta : List Char) (X : List Char)
    (hshape : SpanShape patAfter span d) (hta : ta <:+ span)
    (h0 : ta ≠ []) (hlt : ta.length < span.length) :
    ¬patAfter.kw <+: ta.map Char.toLower ++ X := by
  obtain ⟨kwPre, sPre, ws1, mid, hspan, hk, hs, hw1ne, hw1, hmid, hdne, hd⟩ :=
    hshape
  have hkw : patAfter.kw = 'a' :: 'f' :: 't' :: 'e' :: 'r' :: [] := rfl
  have hmid' : mid = [] := by
    rcases hmid with ⟨_, hm⟩ | ⟨a, ha, _⟩
    · exact hm
    · exact absurd ha (by simp [patAfter])
  subst hmid'
  subst hspan
  simp only [List.append_assoc, List.nil_append] at hta hlt ⊢
  rw [hkw]
  rcases suffix_append_cases hta with hta | ⟨tb, htb, hbne, heq⟩
  · rcases suffix_append_cases hta with hta | ⟨tb, htb, hbne, heq⟩
    · exact no_inner_from_ws X ta hw1 (Or.inl rfl) hd (by simpa using hta) h0
        (by decide) (by decide) (by decide)
    · subst heq
      rw [List.map_append, List.append_assoc]
      exact no_inner_sPre _ hs htb hbne (by decide)
  · subst heq
    have htbL : tb.map Char.toLower <:+ 'a' :: 'f' :: 't' :: 'e' :: 'r' :: [] := by
      rw [← hkw, ← hk]
      exact htb.map Char.toLower
    have hbne' : tb.map Char.toLower ≠ [] := by
      simpa using hbne
    have hkwlen : kwPre.length = 5 := by
      have := congrArg List.length hk
      simpa [hkw] using this
    rw [List.map_append, List.append_assoc]
    rcases List.suffix_cons_iff.mp htbL with h' | h'
    · exfalso
      have htblen : tb.length = 5 := by
        have := congrArg List.length h'
        simpa using this
      simp only [List.length_append] at hlt
      omega
    rcases List.suffix_cons_iff.mp h' with h' | h'
    · rw [h']
      exact not_cons_prefix fun c' he => by cases he; decide
    rcases List.suffix_cons_iff.mp h' with h' | h'
    · rw [h']
      exact not_cons_prefix fun c' he => by cases he; decide
    rcases List.suffix_cons_iff.mp h' with h' | h'
    · rw [h']
      exact not_cons_prefix fun c' he => by cases he; decide
    rcases List.suffix_cons_iff.mp h' with h' | h'
    · rw [h']
      exact not_cons_prefix fun c' he => by cases he; decide
    · rw [List.suffix_nil] at h'
      exact absurd h' hbne'

theorem no_inner_require (span d ta : List Char) (X : List Char)
    (hshape : SpanShape patRequires span d) (hta : ta <:+ span)
    (h0 : ta ≠ []) (hlt : ta.length < span.length) :
    ¬patRequires.kw <+: ta.map Char.toLower ++ X := by
  obtain ⟨kwPre, sPre, ws1, mid, hspan, hk, hs, hw1ne, hw1, hmid, hdne, hd⟩ :=
    hshape
  have hkw : patRequires.kw =
      'r' :: 'e' :: 'q' :: 'u' :: 'i' :: 'r' :: 'e' :: [] := rfl
  have hmid' : mid = [] := by
    rcases hmid with ⟨_, hm⟩ | ⟨a, ha, _⟩
    · exact hm
    · exact absurd ha (by simp [patRequires])
  subst hmid'
  subst hspan
  simp only [List.append_assoc, List.nil_append] at hta hlt ⊢
  rw [hkw]
  rcases suffix_append_cases hta with hta | ⟨tb, htb, hbne, heq⟩
  · rcases suffix_append_cases hta with hta | ⟨tb, htb, hbne, heq⟩
    · exact no_inner_from_ws X ta hw1 (Or.inl rfl) hd (by simpa using hta) h0
        (by decide) (by decide) (by decide)
    · subst heq
      rw [List.map_append, List.append_assoc]
      exact no_inner_sPre _ hs htb hbne (by decide)
  · subst heq
    have htbL : tb.map Char.toLower <:+
        'r' :: 'e' :: 'q' :: 'u' :: 'i' :: 'r' :: 'e' :: [] := by
      rw [← hkw, ← hk]
      exact htb.map Char.toLower
    have hbne' : tb.map Char.toLower ≠ [] := by
      simpa using hbne
    have hkwlen : kwPre.length = 7 := by
      have := congrArg List.length hk
      simpa [hkw] using this
    rw [List.map_append, List.append_assoc]
    rcases List.suffix_cons_iff.mp htbL with h' | h'
    · exfalso
      have htblen : tb.length = 7 := by
        have := congrArg List.length h'
        simpa using this
      simp only [List.length_append] at hlt
      omega
    rcases List.suffix_cons_iff.mp h' with h' | h'
    · rw [h']
      exact not_cons_prefix fun c' he => by cases he; decide
    rcases List.suffix_cons_iff.mp h' with h' | h'
    · rw [h']
      exact not_cons_prefix fun c' he => by cases he; decide
    rcases List.suffix_cons_iff.mp h' with h' | h'
    · rw [h']
      exact not_cons_prefix fun c' he => by cases he; decide
    rcases List.suffix_cons_iff.mp h' with h' | h'
    · rw [h']
      exact not_cons_prefix fun c' he => by cases he; decide
    rcases List.suffix_cons_iff.mp h' with h' | h'
    · -- tb folds to ['r', 'e']: the third character would have to be `q`
      rw [h']
      simp only [List.cons_append, List.nil_append]
      rw [List.cons_prefix_cons]
      rintro ⟨-, hrest⟩
      rw [List.cons_prefix_cons] at hrest
      obtain ⟨-, hrest⟩ := hrest
      simp only [List.map_append, List.append_assoc] at hrest
      exact not_prefix_sPre_ws _ hs hw1ne hw1 (by decide) (by decide) hrest
    rcases List.suffix_cons_iff.mp h' with h' | h'
    · rw [h']
      exact not_cons_prefix fun c' he => by cases he; decide
    · rw [List.suffix_nil] at h'
      exact absurd h' hbne'

theorem no_inner_blocked (span d ta : List Char) (X : List Char)
    (hshape : SpanShape patBlockedBy span d) (hta : ta <:+ span)
    (h0 : ta ≠ []) (hlt : ta.length < span.length) :
    ¬patBlockedBy.kw <+: ta.map Char.toLower ++ X := by
  obtain ⟨kwPre, sPre, ws1, mid, hspan, hk, hs, hw1ne, hw1, hmid, hdne, hd⟩ :=
    hshape
  have hkw : patBlockedBy.kw =
      'b' :: 'l' :: 'o' :: 'c' :: 'k' :: 'e' :: 'd' :: [] := rfl
  rcases hmid with ⟨hemp, _⟩ | ⟨a, ha, altPre, ws2, hmid, haltL, hw2ne, hw2⟩
  · exact absurd hemp (by decide)
  have ha' : a = 'b' :: 'y' :: [] := by
    simpa [patBlockedBy] using ha
  subst ha'
  subst hmid
  subst hspan
  simp only [List.append_assoc, List.nil_append] at hta hlt ⊢
  rw [hkw]
  rcases suffix_append_cases hta with hta | ⟨tb, htb, hbne, heq⟩
  · rcases suffix_append_cases hta with hta | ⟨tb, htb, hbne, heq⟩
    · refine no_inner_from_ws X ta hw1 (Or.inr ⟨altPre, ws2, rfl, hw2, ?_⟩)
        hd (by simpa using hta) h0 (by decide) (by decide) (by decide)
      intro tb htb hbne
      have htbL : tb.map Char.toLower <:+ 'b' :: 'y' :: [] := by
        rw [← haltL]
        exact htb.map Char.toLower
      have hbne' : tb.map Char.toLower ≠ [] := by
        simpa using hbne
      rcases List.suffix_cons_iff.mp htbL with h' | h'
      · rw [h']
        simp only [List.cons_append, List.nil_append]
        rw [List.cons_prefix_cons]
        rintro ⟨-, hrest⟩
        exact not_cons_prefix (fun c' he => by cases he; decide) hrest
      rcases List.suffix_cons_iff.mp h' with h' | h'
      · rw [h']
        exact not_cons_prefix fun c' he => by cases he; decide
      · rw [List.suffix_nil] at h'
        exact absurd h' hbne'
    · subst heq
      rw [List.map_append, List.append_assoc]
      exact no_inner_sPre _ hs htb hbne (by decide)
  · subst heq
    have htbL : tb.map Char.toLower <:+
        'b' :: 'l' :: 'o' :: 'c' :: 'k' :: 'e' :: 'd' :: [] := by
      rw [← hkw, ← hk]
      exact htb.map Char.toLower
    have hbne' : tb.map Char.toLower ≠ [] := by
      simpa using hbne
    have hkwlen : kwPre.length = 7 := by
      have := congrArg List.length hk
      simpa [hkw] using this
    rw [List.map_append, List.append_assoc]
    rcases List.suffix_cons_iff.mp htbL with h' | h'
    · exfalso
      have htblen : tb.length = 7 := by
        have := congrArg List.length h'
        simpa using this
      simp only [List.length_append] at hlt
      omega
    rcases List.suffix_cons_iff.mp h' with h' | h'
    · rw [h']
      exact not_cons_prefix fun c' he => by cases he; decide
    rcases List.suffix_cons_iff.mp h' with h' | h'
    · rw [h']
      exact not_cons_prefix fun c' he => by cases he; decide
    rcases List.suffix_cons_iff.mp h' with h' | h'
    · rw [h']
      exact not_cons_prefix fun c' he => by cases he; decide
    rcases List.suffix_cons_iff.mp h' with h' | h'
    · rw [h']
      exact not_cons_prefix fun c' he => by cases he; decide
    rcases List.suffix_cons_iff.mp h' with h' | h'
    · rw [h']
      exact not_cons_prefix fun c' he => by cases he; decide
    rcases List.suffix_cons_iff.mp h' with h' | h'
    · rw [h']
      exact not_cons_prefix fun c' he => by cases he; decide
    · rw [List.suffix_nil] at h'
      exact absurd h' hbne'

theorem no_inner_waiting (span d ta : List Char) (X : List Char)
    (hshape : SpanShape patWaiting span d) (hta : ta <:+ span)
    (h0 : ta ≠ []) (hlt : ta.length < span.length) :
    ¬patWaiting.kw <+: ta.map Char.toLower ++ X := by
  obtain ⟨kwPre, sPre, ws1, mid, hspan, hk, hs, hw1ne, hw1, hmid, hdne, hd⟩ :=
    hshape
  have hkw : patWaiting.kw =
      'w' :: 'a' :: 'i' :: 't' :: 'i' :: 'n' :: 'g' :: [] := rfl
  rcases hmid with ⟨hemp, _⟩ | ⟨a, ha, altPre, ws2, hmid, haltL, hw2ne, hw2⟩
  · exact absurd hemp (by decide)
  have ha' : a = 'f' :: 'o' :: 'r' :: [] ∨ a = 'o' :: 'n' :: [] := by
    simpa [patWaiting] using ha
  subst hmid
  subst hspan
  simp only [List.append_assoc, List.nil_append] at hta hlt ⊢
  rw [hkw]
  rcases suffix_append_cases hta with hta | ⟨tb, htb, hbne, heq⟩
  · rcases suffix_append_cases hta with hta | ⟨tb, htb, hbne, heq⟩
    · refine no_inner_from_ws X ta hw1 (Or.inr ⟨altPre, ws2, rfl, hw2, ?_⟩)
        hd (by simpa using hta) h0 (by decide) (by decide) (by decide)
      intro tb htb hbne
      have hbne' : tb.map Char.toLower ≠ [] := by
        simpa using hbne
      rcases ha' with ha' | ha'
      · have htbL : tb.map Char.toLower <:+ 'f' :: 'o' :: 'r' :: [] := by
          rw [← ha', ← haltL]
          exact htb.map Char.toLower
        rcases List.suffix_cons_iff.mp htbL with h' | h'
        · rw [h']
          exact not_cons_prefix fun c' he => by cases he; decide
        rcases List.suffix_cons_iff.mp h' with h' | h'
        · rw [h']
          exact not_cons_prefix fun c' he => by cases he; decide
        rcases List.suffix_cons_iff.mp h' with h' | h'
        · rw [h']
          exact not_cons_prefix fun c' he => by cases he; decide
        · rw [List.suffix_nil] at h'
          exact absurd h' hbne'
      · have htbL : tb.map Char.toLower <:+ 'o' :: 'n' :: [] := by
          rw [← ha', ← haltL]
          exact htb.map Char.toLower
        rcases List.suffix_cons_iff.mp htbL with h' | h'
        · rw [h']
          exact not_cons_prefix fun c' he => by cases he; decide
        rcases List.suffix_cons_iff.mp h' with h' | h'
        · rw [h']
          exact not_cons_prefix fun c' he => by cases he; decide
        · rw [List.suffix_nil] at h'
          exact absurd h' hbne'
    · subst heq
      rw [List.map_append, List.append_assoc]
      exact no_inner_sPre _ hs htb hbne (by decide)
  · subst heq
    have htbL : tb.map Char.toLower <:+
        'w' :: 'a' :: 'i' :: 't' :: 'i' :: 'n' :: 'g' :: [] := by
      rw [← hkw, ← hk]
      exact htb.map Char.toLower
    have hbne' : tb.map Char.toLower ≠ [] := by
      simpa using hbne
    have hkwlen : kwPre.length = 7 := by
      have := congrArg List.length hk
      simpa [hkw] using this
    rw [List.map_append, List.append_assoc]
    rcases List.suffix_cons_iff.mp htbL with h' | h'
    · exfalso
      have htblen : tb.length = 7 := by
        have := congrArg List.length h'
        simpa using this
      simp only [List.length_append] at hlt
      omega
    rcases List.suffix_cons_iff.mp h' with h' | h'
    · rw [h']
      exact not_cons_prefix fun c' he => by cases he; decide
    rcases List.suffix_cons_iff.mp h' with h' | h'
    · rw [h']
      exact not_cons_prefix fun c' he => by cases he; decide
    rcases List.suffix_cons_iff.mp h' with h' | h'
    · rw [h']
      exact not_cons_prefix fun c' he => by cases he; decide
    rcases List.suffix_cons_iff.mp h' with h' | h'
    · rw [h']
      exact not_cons_prefix fun c' he => by cases he; decide
    rcases List.suffix_cons_iff.mp h' with h' | h'
    · rw [h']
      exact not_cons_prefix fun c' he => by cases he; decide
    rcases List.suffix_cons_iff.mp h' with h' | h'
    · rw [h']
      exact not_cons_prefix fun c' he => by cases he; decide
    · rw [List.suffix_nil] at h'
      exact absurd h' hbne'

theorem overlapFree_depend : OverlapFree patDependsOn :=
  overlapFree_of_no_inner _ fun span d ta X h1 h2 h3 h4 =>
    no_inner_depend span d ta X h1 h2 h3 h4

theorem overlapFree_after : OverlapFree patAfter :=
  overlapFree_of_no_inner _ fun span d ta X h1 h2 h3 h4 =>
    no_inner_after span d ta X h1 h2 h3 h4

theorem overlapFree_require : OverlapFree patRequires :=
  overlapFree_of_no_inner _ fun span d ta X h1 h2 h3 h4 =>
    no_inner_require span d ta X h1 h2 h3 h4

theorem overlapFree_blocked : OverlapFree patBlockedBy :=
  overlapFree_of_no_inner _ fun span d ta X h1 h2 h3 h4 =>
    no_inner_blocked span d ta X h1 h2 h3 h4

theorem overlapFree_waiting : OverlapFree patWaiting :=
  overlapFree_of_no_inner _ fun span d ta X h1 h2 h3 h4 =>
    no_inner_waiting span d ta X h1 h2 h3 h4

theorem overlapFree_all : ∀ p ∈ dependencyPatterns, OverlapFree p := by
  intro p hp
  rcases (by simpa [dependencyPatterns] using hp :
      p = patDependsOn ∨ p = patAfter ∨ p = patRequires ∨ p = patBlockedBy ∨
        p = patWaiting) with h | h | h | h | h <;> subst h
  · exact overlapFree_depend
  · exact overlapFree_after
  · exact overlapFree_require
  · exact overlapFree_blocked
  · exact overlapFree_waiting

/-! ### `FindAll` returns exactly the matches -/

theorem findPatternMatches_nil (p : DepPattern) :
    findPatternMatches p [] = [] := by
  rw [findPatternMatches]

theorem findPatternMatches_cons_some {p : DepPattern} {c : Char}
    {cs d rest : List Char} (h : matchPatternAt p (c :: cs) = some (d, rest)) :
    findPatternMatches p (c :: cs) = d :: findPatternMatches p rest := by
  rw [findPatternMatches]
  split
  · rename_i d' rest' h'
    rw [h] at h'
    injection h' with h''
    injection h'' with h1 h2
    rw [h1, h2]
  · rename_i h'
    rw [h] at h'
    cases h'

theorem findPatternMatches_cons_none {p : DepPattern} {c : Char}
    {cs : List Char} (h : matchPatternAt p (c :: cs) = none) :
    findPatternMatches p (c :: cs) = findPatternMatches p cs := by
  rw [findPatternMatches]
  split
  · rename_i d' rest' h'
    rw [h] at h'
    cases h'
  · rfl

theorem matchPatternAt_nil (p : DepPattern) : matchPatternAt p [] = none := by
  obtain ⟨kw, b, alts⟩ := p
  cases kw with
  | nil => cases b <;> rfl
  | cons k ks => rfl

/-- The remainder after a match is a suffix of the input. -/
theorem matchPatternAt_rest_suffix {p : DepPattern} {cs d rest : List Char}
    (h : matchPatternAt p cs = some (d, rest)) : rest <:+ cs := by
  rcases matchPatternAt_decomp h with ⟨span, hcs, _⟩
  rw [hcs]
  exact List.suffix_append span rest

/-- Soundness: every capture returned by the scan comes from a match at
some suffix of the text. -/
theorem findPatternMatches_sound_n (p : DepPattern) (n : Nat) :
    ∀ cs, cs.length ≤ n → ∀ d ∈ findPatternMatches p cs,
      ∃ s rest, s <:+ cs ∧ matchPatternAt p s = some (d, rest) := by
  induction n with
  | zero =>
    intro cs hlen d hd
    have : cs = [] := List.length_eq_zero.mp (Nat.le_zero.mp hlen)
    subst this
    rw [findPatternMatches_nil] at hd
    cases hd
  | succ n ih =>
    intro cs hlen d hd
    cases cs with
    | nil =>
      rw [findPatternMatches_nil] at hd
      cases hd
    | cons c cs' =>
      cases h : matchPatternAt p (c :: cs') with
      | some pr =>
        obtain ⟨d0, rest0⟩ := pr
        rw [findPatternMatches_cons_some h] at hd
        rcases List.mem_cons.mp hd with hd | hd
        · subst hd
          exact ⟨c :: cs', rest0, List.suffix_rfl, h⟩
        · have hr : rest0.length ≤ n := by
            have := matchPatternAt_length h
            simp only [List.length_cons] at this hlen
            omega
          rcases ih rest0 hr d hd with ⟨s, rest, hs, hm⟩
          exact ⟨s, rest, hs.trans (matchPatternAt_rest_suffix h), hm⟩
      | none =>
        rw [findPatternMatches_cons_none h] at hd
        have : cs'.length ≤ n := by
          simp only [List.length_cons] at hlen
          omega
        rcases ih cs' this d hd with ⟨s, rest, hs, hm⟩
        exact ⟨s, rest, hs.trans (List.suffix_cons c cs'), hm⟩

theorem findPatternMatches_sound (p : DepPattern) (cs : List Char)
    (d : List Char) (hd : d ∈ findPatternMatches p cs) :
    ∃ s rest, s <:+ cs ∧ matchPatternAt p s = some (d, rest) :=
  findPatternMatches_sound_n p cs.length cs (le_refl _) d hd

/-- Completeness: because matches never overlap, the non-overlapping
scan collects the capture of every match anywhere in the text. -/
theorem findPatternMatches_complete_n (p : DepPattern) (hof : OverlapFree p)
    (n : Nat) :
    ∀ cs s d rest, cs.length ≤ n → s <:+ cs →
      matchPatternAt p s = some (d, rest) → d ∈ findPatternMatches p cs := by
  induction n with
  | zero =>
    intro cs s d rest hlen hs hm
    have : cs = [] := List.length_eq_zero.mp (Nat.le_zero.mp hlen)
    subst this
    rw [List.suffix_nil] at hs
    subst hs
    rw [matchPatternAt_nil] at hm
    cases hm
  | succ n ih =>
    intro cs s d rest hlen hs hm
    cases cs with
    | nil =>
      rw [List.suffix_nil] at hs
      subst hs
      rw [matchPatternAt_nil] at hm
      cases hm
    | cons c cs' =>
      cases h : matchPatternAt p (c :: cs') with
      | some pr =>
        obtain ⟨d0, rest0⟩ := pr
        rw [findPatternMatches_cons_some h]
        by_cases hfull : s = c :: cs'
        · subst hfull
          rw [hm] at h
          injection h with h'
          injection h' with h1 h2
          rw [h1]
          exact List.mem_cons_self _ _
        · have hs' : s <:+ cs' := by
            rcases List.suffix_cons_iff.mp hs with h' | h'
            · exact absurd h' hfull
            · exact h'
          by_cases hlen2 : s.length ≤ rest0.length
          · have hsuf0 : s <:+ rest0 :=
              List.suffix_of_suffix_length_le hs
                (matchPatternAt_rest_suffix h) hlen2
            have hr : rest0.length ≤ n := by
              have := matchPatternAt_length h
              simp only [List.length_cons] at this hlen
              omega
            exact List.mem_cons_of_mem _ (ih rest0 s d rest hr hsuf0 hm)
          · exfalso
            have hslt : s.length < (c :: cs').length := by
              have := hs'.length_le
              simp only [List.length_cons]
              omega
            have := hof (c :: cs') d0 rest0 s h hs (by omega) hslt
            rw [hm] at this
            cases this
      | none =>
        rw [findPatternMatches_cons_none h]
        rcases List.suffix_cons_iff.mp hs with h' | h'
        · subst h'
          rw [hm] at h
          cases h
        · have : cs'.length ≤ n := by
            simp only [List.length_cons] at hlen
            omega
          exact ih cs' s d rest this h' hm

theorem findPatternMatches_complete (p : DepPattern) (hof : OverlapFree p)
    {cs s d rest : List Char} (hs : s <:+ cs)
    (hm : matchPatternAt p s = some (d, rest)) :
    d ∈ findPatternMatches p cs :=
  findPatternMatches_complete_n p hof cs.length cs s d rest (le_refl _) hs hm

/-- "The text references issue `n` via a supported pattern": one of the
five patterns matches at some position of the text with a capture whose
`Atoi` value is `n`. -/
def RefersTo (text : String) (n : Int) : Prop :=
  ∃ p ∈ dependencyPatterns, ∃ s d rest, s <:+ text.data ∧
    matchPatternAt p s = some (d, rest) ∧ atoiCapture d = some n

theorem mem_foldl_append {α β : Type} (g : β → List α) (l : List β)
    (acc : List α) (x : α) :
    x ∈ l.foldl (fun acc p => acc ++ g p) acc ↔ x ∈ acc ∨ ∃ p ∈ l, x ∈ g p := by
  induction l generalizing acc with
  | nil => simp
  | cons p l ih =>
    rw [List.foldl_cons, ih]
    simp only [List.mem_append, List.mem_cons]
    constructor
    · rintro ((hx | hx) | ⟨q, hq, hx⟩)
      · exact Or.inl hx
      · exact Or.inr ⟨p, Or.inl rfl, hx⟩
      · exact Or.inr ⟨q, Or.inr hq, hx⟩
    · rintro (hx | ⟨q, (rfl | hq), hx⟩)
      · exact Or.inl (Or.inl hx)
      · exact Or.inl (Or.inr hx)
      · exact Or.inr ⟨q, hq, hx⟩

theorem mem_parseIssueReferences {text : String} {n : Int} :
    n ∈ ParseIssueReferences text ↔
      ∃ p ∈ dependencyPatterns, ∃ d ∈ findPatternMatches p text.data,
        atoiCapture d = some n := by
  unfold ParseIssueReferences
  rw [mem_foldl_append]
  simp [List.mem_filterMap]

theorem mem_dedupLoop {selfN : Int} {deps : List Int} :
    ∀ {seen : List Int} {n : Int},
      n ∈ dedupLoop selfN deps seen ↔ n ∈ deps ∧ n ≠ selfN ∧ n ∉ seen := by
  induction deps with
  | nil => intro seen n; simp [dedupLoop]
  | cons dd rest ih =>
    intro seen n
    rw [dedupLoop]
    split_ifs with hcond
    · obtain ⟨h1, h2⟩ := hcond
      simp only [List.mem_cons, ih]
      constructor
      · rintro (rfl | ⟨hm, hne, hns⟩)
        · exact ⟨Or.inl rfl, h1, h2⟩
        · exact ⟨Or.inr hm, hne, fun hin => hns (Or.inr hin)⟩
      · rintro ⟨hmem, hne, hns⟩
        rcases hmem with rfl | hmem
        · exact Or.inl rfl
        · by_cases hdd : n = dd
          · exact Or.inl hdd
          · exact Or.inr ⟨hmem, hne, fun hin => hin.elim hdd hns⟩
    · rw [ih]
      push_neg at hcond
      simp only [List.mem_cons]
      constructor
      · rintro ⟨hm, hne, hns⟩
        exact ⟨Or.inr hm, hne, hns⟩
      · rintro ⟨hmem, hne, hns⟩
        rcases hmem with rfl | hmem
        · rcases Decidable.em (n = selfN) with h | h
          · exact absurd h hne
          · exact absurd (hcond h) hns
        · exact ⟨hmem, hne, hns⟩

/-- Fuel-indexed version of the scan (structurally recursive, so
concrete runs reduce in the kernel); with fuel at least the text length
it agrees with `findPatternMatches`. -/
def findPatternMatchesF (p : DepPattern) : Nat → List Char → List (List Char)
  | 0, _ => []
  | _ + 1, [] => []
  | fuel + 1, c :: cs =>
    match matchPatternAt p (c :: cs) with
    | some (d, rest) => d :: findPatternMatchesF p fuel rest
    | none => findPatternMatchesF p fuel cs

theorem findPatternMatchesF_eq (p : DepPattern) (fuel : Nat) :
    ∀ cs : List Char, cs.length ≤ fuel →
      findPatternMatchesF p fuel cs = findPatternMatches p cs := by
  induction fuel with
  | zero =>
    intro cs h
    have : cs = [] := List.length_eq_zero.mp (Nat.le_zero.mp h)
    subst this
    rw [findPatternMatches_nil]
    rfl
  | succ fuel ih =>
    intro cs h
    cases cs with
    | nil =>
      rw [findPatternMatches_nil]
      rfl
    | cons c cs' =>
      cases hm : matchPatternAt p (c :: cs') with
      | some pr =>
        obtain ⟨d, rest⟩ := pr
        rw [findPatternMatches_cons_some hm, findPatternMatchesF, hm]
        have hr : rest.length ≤ fuel := by
          have := matchPatternAt_length hm
          simp only [List.length_cons] at this h
          omega
        show d :: findPatternMatchesF p fuel rest = d :: findPatternMatches p rest
        rw [ih rest hr]
      | none =>
        rw [findPatternMatches_cons_none hm, findPatternMatchesF, hm]
        have hcl : cs'.length ≤ fuel := by
          simp only [List.length_cons] at h
          omega
        show findPatternMatchesF p fuel cs' = findPatternMatches p cs'
        rw [ih cs' hcl]

/-- Fuel-indexed version of `ParseIssueReferences`, for concrete
evaluation. -/
def parseIssueReferencesF (text : String) : List Int :=
  dependencyPatterns.foldl
    (fun deps p =>
      deps ++ (findPatternMatchesF p text.data.length text.data).filterMap
        atoiCapture)
    []

theorem parseIssueReferencesF_eq (text : String) :
    parseIssueReferencesF text = ParseIssueReferences text := by
  unfold parseIssueReferencesF ParseIssueReferences
  simp only [findPatternMatchesF_eq _ _ _ (le_refl _)]

theorem dedupLoop_nodup (selfN : Int) (deps : List Int) :
    ∀ seen : List Int, (dedupLoop selfN deps seen).Nodup ∧
      ∀ n ∈ dedupLoop selfN deps seen, n ∉ seen := by
  induction deps with
  | nil => intro seen; simp [dedupLoop]
  | cons dd rest ih =>
    intro seen
    rw [dedupLoop]
    split_ifs with hcond
    · obtain ⟨ihn, ihs⟩ := ih (dd :: seen)
      refine ⟨List.nodup_cons.mpr ⟨fun hdd => ihs dd hdd (by simp), ihn⟩, ?_⟩
      intro n hn
      rcases List.mem_cons.mp hn with rfl | hn
      · exact hcond.2
      · exact fun hns => ihs n hn (List.mem_cons_of_mem _ hns)
    · exact ih seen

/-- C7 counterexample: the claim says `ParseIssueReferences` returns the
referenced numbers "deduplicated and with self-references removed", but
the function itself neither deduplicates (shown here: the same reference
twice yields a duplicated result) nor knows the issue's own number. -/
theorem C7_counterexample_no_dedup :
    ¬(ParseIssueReferences "depends on #5 and depends on #5").Nodup := by
  rw [← parseIssueReferencesF_eq]
  decide

/-- C7 (amended): `ParseIssueReferences` returns every number referenced
by a supported dependency pattern, possibly with duplicates and
self-references; it is `deduplicateDeps` — applied to its result with
the issue's own number, as `DetectDependencies` does — that yields
exactly the referenced numbers, duplicate-free and with self-references
removed. -/
theorem C7_references_dedup_exact (text : String) (selfIssueNum : Int) :
    (deduplicateDeps (ParseIssueReferences text) selfIssueNum).Nodup ∧
      ∀ n, n ∈ deduplicateDeps (ParseIssueReferences text) selfIssueNum ↔
        RefersTo text n ∧ n ≠ selfIssueNum := by
  refine ⟨(dedupLoop_nodup selfIssueNum (ParseIssueReferences text) []).1,
    fun n => ?_⟩
  unfold deduplicateDeps
  rw [mem_dedupLoop]
  simp only [List.not_mem_nil, not_false_iff, and_true]
  constructor
  · rintro ⟨hm, hne⟩
    refine ⟨?_, hne⟩
    rcases mem_parseIssueReferences.mp hm with ⟨p, hp, d, hd, hatoi⟩
    rcases findPatternMatches_sound p text.data d hd with ⟨s, rest, hs, hmatch⟩
    exact ⟨p, hp, s, d, rest, hs, hmatch, hatoi⟩
  · rintro ⟨⟨p, hp, s, d, rest, hs, hm, hatoi⟩, hne⟩
    refine ⟨?_, hne⟩
    exact mem_parseIssueReferences.mpr
      ⟨p, hp, d, findPatternMatches_complete p (overlapFree_all p hp) hs hm,
        hatoi⟩

/-! ### `DetectDependencies` (`deps.go`) -/

/-- `providers.Issue`, restricted to the fields the detector reads. -/
structure Issue where
  number : Int
  body : String
  labels : List String
deriving DecidableEq, Repr

/-- `strings.Contains` on the embedding's strings. -/
def listContains (pat : List Char) : List Char → Bool
  | [] => pat.isEmpty
  | c :: cs => pat.isPrefixOf (c :: cs) || listContains pat cs

/-- `strings.Contains(s, pat)`. -/
def strContains (s pat : String) : Bool := listContains pat.data s.data

/-- `hasNoDepsOverride`: the `no-dependencies` label, or `/no-deps` in
the body. -/
def hasNoDepsOverride (issue : Issue) : Bool :=
  issue.labels.contains "no-dependencies" || strContains issue.body "/no-deps"

/-- `DetectDependencies`: `disabled` returns nothing; an override
returns nothing; otherwise references are parsed from the body and from
every comment (when fetching them succeeded; `none` embeds the error
case, which is silently skipped), then deduplicated.  Note there is no
`manual` branch in the source: any mode other than `disabled` parses
text patterns. -/
def DetectDependencies (mode : String) (issue : Issue)
    (comments : Option (List String)) : List Int :=
  if mode = "disabled" then []
  else if hasNoDepsOverride issue then []
  else
    deduplicateDeps
      (ParseIssueReferences issue.body ++
        (match comments with
         | some cs => cs.foldl (fun acc c => acc ++ ParseIssueReferences c) []
         | none => []))
      issue.number

/-- Fuel-indexed twin of `DetectDependencies` for concrete runs. -/
def DetectDependenciesF (mode : String) (issue : Issue)
    (comments : Option (List String)) : List Int :=
  if mode = "disabled" then []
  else if hasNoDepsOverride issue then []
  else
    deduplicateDeps
      (parseIssueReferencesF issue.body ++
        (match comments with
         | some cs => cs.foldl (fun acc c => acc ++ parseIssueReferencesF c) []
         | none => []))
      issue.number

theorem DetectDependenciesF_eq (mode : String) (issue : Issue)
    (comments : Option (List String)) :
    DetectDependenciesF mode issue comments =
      DetectDependencies mode issue comments := by
  unfold DetectDependenciesF DetectDependencies
  simp only [parseIssueReferencesF_eq]

/-- C8, evaluated at the failing input: in `"manual"` mode the detector
still extracts dependencies from text patterns (`depends on #2` in the
body yields `[2]`), although the repository's own documentation
(`docs/configuration.md`, ADR-0005) says manual mode honors only
explicit labels.  The claim's remaining parts hold and are evaluated
alongside: `disabled` mode, the `/no-deps` body marker, and the
`no-dependencies` label each yield no dependencies. -/
theorem C8_manual_mode_divergence :
    DetectDependencies "manual"
        { number := 1, body := "depends on #2", labels := [] } (some []) =
      [2] ∧
    DetectDependencies "disabled"
        { number := 1, body := "depends on #2", labels := [] } (some []) =
      [] ∧
    DetectDependencies "auto"
        { number := 1, body := "depends on #2 /no-deps", labels := [] }
        (some []) = [] ∧
    DetectDependencies "auto"
        { number := 1, body := "depends on #2", labels := ["no-dependencies"] }
        (some []) = [] := by
  refine ⟨?_, ?_, ?_, ?_⟩ <;> (rw [← DetectDependenciesF_eq]; decide)

/-! ## Cycle detection (`deps.go`, `CheckForCycles`)

The Go function runs a DFS with `visited` / `recStack` maps and a
`cyclePath` slice, over a `map[int][]int`.  The map is embedded as an
association list (`lookupDeps` reads the first matching entry; Go map
iteration order is unspecified, so the embedding fixes the entry order
of the list).  The recursion is embedded with explicit fuel — the
recursion depth is bounded by `graphFuel`, which the `dfsGoF_ne_none`
lemma proves sufficient, so the `none` (out-of-fuel) branches are dead
code. -/

/-- The `visited` / `recStack` maps and the `cyclePath` slice. -/
structure DfsState where
  visited : List Int
  recStack : List Int
  cyclePath : List Int
deriving Repr

/-- `issues[node]` (a missing key reads as the empty list). -/
def lookupDeps (g : List (Int × List Int)) (n : Int) : List Int :=
  match g.find? (fun e => e.1 == n) with
  | some e => e.2
  | none => []

/-- Entering `dfs(node)`: `visited[node] = true; recStack[node] = true;
cyclePath = append(cyclePath, node)`. -/
def pushNode (n : Int) (st : DfsState) : DfsState :=
  { visited := n :: st.visited
    recStack := n :: st.recStack
    cyclePath := st.cyclePath ++ [n] }

/-- Leaving `dfs(node)` without a cycle: `recStack[node] = false;
cyclePath = cyclePath[:len(cyclePath)-1]`. -/
def popNode (n : Int) (st : DfsState) : DfsState :=
  { st with
    recStack := st.recStack.erase n
    cyclePath := st.cyclePath.dropLast }

/-- The back edge found: `cyclePath = append(cyclePath, dep)`. -/
def pushCycle (n : Int) (st : DfsState) : DfsState :=
  { st with cyclePath := st.cyclePath ++ [n] }

/-- The body of `dfs(node)` after marking, iterating over the remaining
`deps`; descending into an unvisited dependency re-enters the body on
that node's dependency list. -/
def dfsGoF (g : List (Int × List Int)) :
    Nat → Int → List Int → DfsState → Option (Bool × DfsState)
  | 0, _, _, _ => none
  | fuel + 1, node, deps, st =>
    match deps with
    | [] => some (false, popNode node st)
    | dep :: rest =>
      if dep ∈ st.visited then
        if dep ∈ st.recStack then some (true, pushCycle dep st)
        else dfsGoF g fuel node rest st
      else
        match dfsGoF g fuel dep (lookupDeps g dep) (pushNode dep st) with
        | none => none
        | some (true, st1) => some (true, st1)
        | some (false, st1) => dfsGoF g fuel node rest st1

/-- Enough fuel for any DFS over `g` (proved by `dfsGoF_ne_none`). -/
def graphFuel (g : List (Int × List Int)) : Nat :=
  (g.map (fun e => e.2.length + 2)).sum + (g.map (fun e => e.2.length)).sum + 1

/-- `dfs(node)`. -/
def dfs (g : List (Int × List Int)) (node : Int) (st : DfsState) :
    Option (Bool × DfsState) :=
  dfsGoF g (graphFuel g) node (lookupDeps g node) (pushNode node st)

/-- `for node := range issues { if !visited[node] { cyclePath = nil;
if dfs(node) { ... } } }`. -/
def rootsLoop (g : List (Int × List Int)) :
    List Int → DfsState → Option (List Int)
  | [], _ => none
  | n :: rest, st =>
    if n ∈ st.visited then rootsLoop g rest st
    else
      match dfs g n { st with cyclePath := [] } with
      | none => none
      | some (true, st1) => some st1.cyclePath
      | some (false, st1) => rootsLoop g rest st1

/-- The `cycleStart` search: first index holding the path's last node,
strictly before the last position; returns the path from there. -/
def extractFrom (last : Int) : List Int → Option (List Int)
  | [] => none
  | x :: rest =>
    if x = last ∧ rest ≠ [] then some (x :: rest) else extractFrom last rest

def extractCycle (path : List Int) : Option (List Int) :=
  match path.getLast? with
  | none => none
  | some last => extractFrom last path

/-- `formatCycle`. -/
def formatCycle (cycle : List Int) : String :=
  String.intercalate " -> " (cycle.map fun n => "#" ++ toString n)

/-- `CheckForCycles`: `none` is a nil error; `some msg` the error text. -/
def CheckForCycles (g : List (Int × List Int)) : Option String :=
  match rootsLoop g (g.map Prod.fst)
      { visited := [], recStack := [], cyclePath := [] } with
  | none => none
  | some path =>
    match extractCycle path with
    | some cyc => some ("dependency cycle detected: " ++ formatCycle cyc)
    | none => some "dependency cycle detected"

/-- The dependency edge relation of the graph. -/
def Edge (g : List (Int × List Int)) (a b : Int) : Prop :=
  b ∈ lookupDeps g a

/-- Consecutive elements are edges. -/
def IsChain (g : List (Int × List Int)) : List Int → Prop
  | [] => True
  | [_] => True
  | a :: b :: rest => Edge g a b ∧ IsChain g (b :: rest)

/-- A closed nonempty walk: a chain of length at least 2 whose first and
last nodes coincide — every node of the cycle is on the list. -/
def IsCycleList (g : List (Int × List Int)) (c : List Int) : Prop :=
  IsChain g c ∧ 2 ≤ c.length ∧ c.head? = c.getLast?

/-- `v` cannot reach any cycle. -/
def CleanAt (g : List (Int × List Int)) (v : Int) : Prop :=
  ¬∃ w, Relation.ReflTransGen (Edge g) v w ∧ Relation.TransGen (Edge g) w w

/-- What the cycle path looks like when `dfs` returns true: a chain
whose last element occurs again earlier. -/
def CyclePathEnd (g : List (Int × List Int)) (path : List Int) : Prop :=
  IsChain g path ∧ ∃ v, path.getLast? = some v ∧ v ∈ path.dropLast

/-- Remaining weight of the unvisited part of the graph, bounding the
DFS recursion depth. -/
def dfsWeight (g : List (Int × List Int)) (visited : List Int) : Nat :=
  ((g.filter fun e => decide (¬e.1 ∈ visited)).map fun e => e.2.length + 2).sum

/-- Dropping elements of a list can only lower a sum of nonnegative
weights. -/
theorem sum_map_filter_le {α : Type} (p : α → Bool) (f : α → Nat) :
    ∀ l : List α, ((l.filter p).map f).sum ≤ (l.map f).sum
  | [] => le_refl 0
  | a :: t => by
    simp only [List.filter_cons, List.map_cons, List.sum_cons]
    split
    · simp only [List.map_cons, List.sum_cons]
      exact Nat.add_le_add_left (sum_map_filter_le p f t) _
    · exact le_trans (sum_map_filter_le p f t) (Nat.le_add_left _ _)

/-- A stronger filter yields a smaller weighted sum. -/
theorem sum_map_filter_mono {α : Type} (p q : α → Bool) (f : α → Nat)
    (h : ∀ a, p a = true → q a = true) :
    ∀ l : List α, ((l.filter p).map f).sum ≤ ((l.filter q).map f).sum
  | [] => le_refl 0
  | a :: t => by
    simp only [List.filter_cons]
    by_cases hp : p a = true
    · rw [if_pos hp, if_pos (h a hp)]
      simp only [List.map_cons, List.sum_cons]
      exact Nat.add_le_add_left (sum_map_filter_mono p q f h t) _
    · rw [if_neg hp]
      by_cases hq : q a = true
      · rw [if_pos hq]
        simp only [List.map_cons, List.sum_cons]
        exact le_trans (sum_map_filter_mono p q f h t) (Nat.le_add_left _ _)
      · rw [if_neg hq]
        exact sum_map_filter_mono p q f h t

/-- A stronger filter that additionally drops a kept element `a` lowers
the weighted sum by at least `f a`. -/
theorem sum_map_filter_lt {α : Type} (p q : α → Bool) (f : α → Nat)
    (h : ∀ a, p a = true → q a = true) :
    ∀ l : List α, ∀ a ∈ l, p a = false → q a = true →
      ((l.filter p).map f).sum + f a ≤ ((l.filter q).map f).sum := by
  intro l
  induction l with
  | nil => intro a ha; simp at ha
  | cons b t ih =>
    intro a ha hp hq
    rcases List.mem_cons.mp ha with rfl | hat
    · simp only [List.filter_cons, hp, hq, if_pos, if_neg, Bool.false_eq_true,
        not_false_eq_true, List.map_cons, List.sum_cons]
      rw [Nat.add_comm]
      exact Nat.add_le_add_left (sum_map_filter_mono p q f h t) _
    · simp only [List.filter_cons]
      by_cases hpb : p b = true
      · rw [if_pos hpb, if_pos (h b hpb)]
        simp only [List.map_cons, List.sum_cons, Nat.add_assoc]
        exact Nat.add_le_add_left (ih a hat hp hq) _
      · rw [if_neg hpb]
        by_cases hqb : q b = true
        · rw [if_pos hqb]
          simp only [List.map_cons, List.sum_cons]
          exact le_trans (ih a hat hp hq) (Nat.le_add_left _ _)
        · rw [if_neg hqb]
          exact ih a hat hp hq

theorem dfsWeight_mono (g : List (Int × List Int)) {v1 v2 : List Int}
    (h : ∀ x ∈ v1, x ∈ v2) : dfsWeight g v2 ≤ dfsWeight g v1 := by
  apply sum_map_filter_mono
  intro a ha
  simp only [decide_eq_true_eq] at ha ⊢
  exact fun hmem => ha (h a.1 hmem)

theorem dfsWeight_le_graphFuel (g : List (Int × List Int)) (visited : List Int) :
    dfsWeight g visited ≤ (g.map fun e => e.2.length + 2).sum :=
  sum_map_filter_le _ _ g

theorem mem_length_le_sum :
    ∀ (g : List (Int × List Int)) (entry : Int × List Int), entry ∈ g →
      entry.2.length ≤ (g.map fun e => e.2.length).sum
  | [], _, hmem => by simp at hmem
  | b :: t, entry, hmem => by
    simp only [List.map_cons, List.sum_cons]
    rcases List.mem_cons.mp hmem with rfl | hmt
    · exact Nat.le_add_right _ _
    · exact le_trans (mem_length_le_sum t entry hmt) (Nat.le_add_left _ _)

/-- Any dependency list read out of the map is counted in `graphFuel`. -/
theorem lookupDeps_length_le (g : List (Int × List Int)) (n : Int) :
    (lookupDeps g n).length ≤ (g.map fun e => e.2.length).sum := by
  unfold lookupDeps
  cases hfind : g.find? (fun e => e.1 == n) with
  | none => simp
  | some entry =>
    exact mem_length_le_sum g entry (List.mem_of_find?_eq_some hfind)

/-- Visiting an unvisited node removes its weight from `dfsWeight`. -/
theorem dfsWeight_push (g : List (Int × List Int)) (dep : Int)
    (visited : List Int) (hv : dep ∉ visited) :
    (lookupDeps g dep = [] ∧
      dfsWeight g (dep :: visited) ≤ dfsWeight g visited) ∨
    dfsWeight g (dep :: visited) + (lookupDeps g dep).length + 2 ≤
      dfsWeight g visited := by
  have hmono : dfsWeight g (dep :: visited) ≤ dfsWeight g visited :=
    dfsWeight_mono g (fun x hx => List.mem_cons_of_mem _ hx)
  cases hfind : g.find? (fun e => e.1 == dep) with
  | none => exact Or.inl ⟨by simp [lookupDeps, hfind], hmono⟩
  | some entry =>
    right
    have hmem : entry ∈ g := List.mem_of_find?_eq_some hfind
    have heq : entry.1 = dep := by
      have hbeq := List.find?_some hfind
      exact eq_of_beq hbeq
    have hlk : lookupDeps g dep = entry.2 := by simp [lookupDeps, hfind]
    rw [hlk]
    have hkey := sum_map_filter_lt (fun e => decide (¬e.1 ∈ dep :: visited))
      (fun e => decide (¬e.1 ∈ visited)) (fun e => e.2.length + 2)
      (by
        intro a ha
        simp only [decide_eq_true_eq, List.mem_cons] at ha ⊢
        exact fun hmem2 => ha (Or.inr hmem2))
      g entry hmem
      (by simp [heq])
      (by simp [heq, hv])
    have hkey2 : dfsWeight g (dep :: visited) + (entry.2.length + 2) ≤
        dfsWeight g visited := hkey
    omega

theorem dfsGoF_visited_mono (g : List (Int × List Int)) :
    ∀ fuel node deps (st : DfsState) b st1,
      dfsGoF g fuel node deps st = some (b, st1) →
      ∀ x ∈ st.visited, x ∈ st1.visited := by
  intro fuel
  induction fuel with
  | zero => intro node deps st b st1 h; simp [dfsGoF] at h
  | succ n ih =>
    intro node deps st b st1 h
    cases deps with
    | nil =>
      simp only [dfsGoF, Option.some.injEq, Prod.mk.injEq] at h
      obtain ⟨-, hst⟩ := h
      rw [← hst]
      intro x hx; exact hx
    | cons dep rest =>
      simp only [dfsGoF] at h
      by_cases hv : dep ∈ st.visited
      · rw [if_pos hv] at h
        by_cases hr : dep ∈ st.recStack
        · rw [if_pos hr] at h
          simp only [Option.some.injEq, Prod.mk.injEq] at h
          obtain ⟨-, hst⟩ := h
          rw [← hst]
          intro x hx; exact hx
        · rw [if_neg hr] at h
          exact ih node rest st b st1 h
      · rw [if_neg hv] at h
        cases hinner : dfsGoF g n dep (lookupDeps g dep) (pushNode dep st) with
        | none => rw [hinner] at h; exact absurd h (by simp)
        | some p =>
          obtain ⟨b1, st2⟩ := p
          have hpush := ih dep (lookupDeps g dep) (pushNode dep st) b1 st2 hinner
          rw [hinner] at h
          cases b1 with
          | true =>
            simp only [Option.some.injEq, Prod.mk.injEq] at h
            obtain ⟨-, hst⟩ := h
            rw [← hst]
            intro x hx
            exact hpush x (List.mem_cons_of_mem _ hx)
          | false =>
            intro x hx
            exact ih node rest st2 b st1 h x
              (hpush x (List.mem_cons_of_mem _ hx))

/-- `graphFuel g` is always enough fuel: the recursion never bottoms
out, so the `none` branches of `dfsGoF` and `rootsLoop` are dead. -/
theorem dfsGoF_ne_none (g : List (Int × List Int)) :
    ∀ fuel node deps (st : DfsState),
      dfsWeight g st.visited + deps.length + 1 ≤ fuel →
      dfsGoF g fuel node deps st ≠ none := by
  intro fuel
  induction fuel with
  | zero => intro node deps st hW; omega
  | succ n ih =>
    intro node deps st hW
    cases deps with
    | nil => simp [dfsGoF]
    | cons dep rest =>
      simp only [dfsGoF]
      by_cases hv : dep ∈ st.visited
      · rw [if_pos hv]
        by_cases hr : dep ∈ st.recStack
        · rw [if_pos hr]; simp
        · rw [if_neg hr]
          apply ih node rest st
          simp only [List.length_cons] at hW
          omega
      · rw [if_neg hv]
        have hkey := dfsWeight_push g dep st.visited hv
        have hpushvis : (pushNode dep st).visited = dep :: st.visited := rfl
        have hsub : dfsGoF g n dep (lookupDeps g dep) (pushNode dep st) ≠ none := by
          apply ih
          rw [hpushvis]
          simp only [List.length_cons] at hW
          rcases hkey with ⟨hnil, hle⟩ | hlt
          · rw [hnil]
            simp only [List.length_nil]
            omega
          · omega
        cases hinner : dfsGoF g n dep (lookupDeps g dep) (pushNode dep st) with
        | none => exact absurd hinner hsub
        | some p =>
          obtain ⟨b1, st2⟩ := p
          cases b1 with
          | true => simp
          | false =>
            apply ih node rest st2
            have hmono : ∀ x ∈ (pushNode dep st).visited, x ∈ st2.visited :=
              dfsGoF_visited_mono g n dep _ _ false st2 hinner
            have h1 : dfsWeight g st2.visited ≤ dfsWeight g st.visited := by
              apply dfsWeight_mono
              intro x hx
              exact hmono x (by rw [hpushvis]; exact List.mem_cons_of_mem _ hx)
            simp only [List.length_cons] at hW
            omega

theorem eq_dropLast_concat {l : List Int} {a : Int} (h : l.getLast? = some a) :
    l = l.dropLast ++ [a] := by
  have hne : l ≠ [] := by rintro rfl; simp at h
  rw [List.getLast?_eq_getLast l hne, Option.some.injEq] at h
  rw [← h]
  exact (List.dropLast_append_getLast hne).symm

theorem reverse_eq_cons_of_getLast? {l : List Int} {a : Int}
    (h : l.getLast? = some a) : l.reverse = a :: l.dropLast.reverse := by
  conv_lhs => rw [eq_dropLast_concat h]
  simp

theorem mem_of_getLast? {l : List Int} {a : Int} (h : l.getLast? = some a) :
    a ∈ l := by
  rw [eq_dropLast_concat h]
  exact List.mem_append_right _ (List.mem_singleton.mpr rfl)

theorem isChain_tail {g : List (Int × List Int)} {a : Int} {l : List Int}
    (h : IsChain g (a :: l)) : IsChain g l := by
  cases l with
  | nil => trivial
  | cons b t => exact h.2

theorem isChain_suffix {g : List (Int × List Int)} :
    ∀ {l t : List Int}, IsChain g l → t <:+ l → IsChain g t := by
  intro l
  induction l with
  | nil => intro t h hs; rw [List.suffix_nil.mp hs]; trivial
  | cons a l ih =>
    intro t h hs
    rcases List.suffix_cons_iff.mp hs with rfl | hs2
    · exact h
    · exact ih (isChain_tail h) hs2

theorem isChain_concat {g : List (Int × List Int)} :
    ∀ {l : List Int} {node dep : Int},
      IsChain g l → l.getLast? = some node → Edge g node dep →
      IsChain g (l ++ [dep]) := by
  intro l
  induction l with
  | nil => intro node dep h hl he; simp at hl
  | cons a t ih =>
    intro node dep h hl he
    cases t with
    | nil =>
      simp only [List.getLast?_singleton, Option.some.injEq] at hl
      subst hl
      exact ⟨he, trivial⟩
    | cons b u =>
      have h2 := ih h.2 (by rwa [List.getLast?_cons_cons] at hl) he
      exact ⟨h.1, h2⟩

theorem chain_transGen {g : List (Int × List Int)} :
    ∀ {l : List Int} {a b : Int},
      IsChain g (a :: l) → (a :: l).getLast? = some b → l ≠ [] →
      Relation.TransGen (Edge g) a b := by
  intro l
  induction l with
  | nil => intro a b h hl hne; exact absurd rfl hne
  | cons d t ih =>
    intro a b h hl hne
    cases t with
    | nil =>
      rw [List.getLast?_cons_cons, List.getLast?_singleton,
        Option.some.injEq] at hl
      subst hl
      exact Relation.TransGen.single h.1
    | cons e u =>
      have hl2 : (d :: e :: u).getLast? = some b := by
        rwa [List.getLast?_cons_cons] at hl
      exact Relation.TransGen.head h.1 (ih h.2 hl2 (by simp))

/-- A closed chain witnesses a genuine cycle in the edge relation. -/
theorem isCycleList_transGen {g : List (Int × List Int)} {c : List Int}
    (h : IsCycleList g c) : ∃ v, Relation.TransGen (Edge g) v v := by
  obtain ⟨hchain, hlen, hhl⟩ := h
  cases c with
  | nil => simp at hlen
  | cons v t =>
    cases t with
    | nil => simp at hlen
    | cons w u =>
      exact ⟨v, chain_transGen hchain hhl.symm (by simp)⟩

/-- A node whose out-neighbours all avoid cycles avoids cycles. -/
theorem cleanAt_of_deps {g : List (Int × List Int)} {node : Int}
    (h : ∀ d, Edge g node d → CleanAt g d) : CleanAt g node := by
  rintro ⟨w, hrw, hcyc⟩
  rcases Relation.ReflTransGen.cases_head hrw with rfl | ⟨d, hd, hdw⟩
  · rcases Relation.TransGen.head'_iff.mp hcyc with ⟨d, hd, hdn⟩
    exact h d hd ⟨node, hdn, hcyc⟩
  · exact h d hd ⟨w, hdw, hcyc⟩

theorem getLast?_of_suffix {l t : List Int} (hs : t <:+ l) (hne : t ≠ []) :
    t.getLast? = l.getLast? := by
  obtain ⟨pre, rfl⟩ := hs
  exact (List.getLast?_append_of_ne_nil pre hne).symm

theorem extractFrom_spec {v : Int} : ∀ {path : List Int}, v ∈ path.dropLast →
    ∃ t, extractFrom v path = some (v :: t) ∧ (v :: t) <:+ path ∧ t ≠ [] := by
  intro path
  induction path with
  | nil => intro h; simp at h
  | cons x rest ih =>
    intro h
    cases rest with
    | nil => simp at h
    | cons y u =>
      by_cases hcond : x = v ∧ y :: u ≠ ([] : List Int)
      · obtain ⟨hxv, -⟩ := hcond
        subst hxv
        refine ⟨y :: u, ?_, List.suffix_rfl, by simp⟩
        simp [extractFrom]
      · have hx : x ≠ v := by
          intro hxv; exact hcond ⟨hxv, by simp⟩
        have hv2 : v ∈ (y :: u).dropLast := by
          rw [List.dropLast_cons₂] at h
          rcases List.mem_cons.mp h with rfl | h2
          · exact absurd rfl hx
          · exact h2
        obtain ⟨t, heq, hsuf, hne⟩ := ih hv2
        refine ⟨t, ?_, hsuf.trans (List.suffix_cons x (y :: u)), hne⟩
        simp only [extractFrom]
        rw [if_neg hcond]
        exact heq

/-- `CheckForCycles` never falls through to the pathless message: the
`cycleStart` scan always succeeds on a closing path, and the extracted
slice really is a cycle of the graph. -/
theorem extractCycle_spec {g : List (Int × List Int)} {path : List Int}
    (h : CyclePathEnd g path) :
    ∃ cyc, extractCycle path = some cyc ∧ IsCycleList g cyc := by
  obtain ⟨hchain, v, hlast, hmem⟩ := h
  obtain ⟨t, heq, hsuf, hne⟩ := extractFrom_spec hmem
  refine ⟨v :: t, ?_, isChain_suffix hchain hsuf, ?_, ?_⟩
  · simp only [extractCycle]
    rw [hlast]
    exact heq
  · have ht : 0 < t.length := List.length_pos.mpr hne
    simp only [List.length_cons]
    omega
  · rw [getLast?_of_suffix hsuf (by simp), hlast]
    rfl

/-- The DFS invariant: with a well-formed recursion state, a `true`
result ends with a closing cycle path, and a `false` result restores
the path, pops exactly the current node, grows `visited`, and leaves
every finished (visited, off-stack) node unable to reach a cycle. -/
theorem dfsGoF_spec (g : List (Int × List Int)) :
    ∀ fuel node deps (st : DfsState),
      st.cyclePath.getLast? = some node →
      st.recStack = st.cyclePath.reverse →
      (∀ x ∈ st.recStack, x ∈ st.visited) →
      st.cyclePath.Nodup →
      IsChain g st.cyclePath →
      (∀ d ∈ deps, Edge g node d) →
      (∀ v ∈ st.visited, v ∉ st.recStack → CleanAt g v) →
      (∀ d, Edge g node d → d ∈ deps ∨ (d ∈ st.visited ∧ d ∉ st.recStack)) →
      ∀ b st1, dfsGoF g fuel node deps st = some (b, st1) →
        (b = true → CyclePathEnd g st1.cyclePath) ∧
        (b = false →
          st1.cyclePath = st.cyclePath.dropLast ∧
          st.recStack = node :: st1.recStack ∧
          (∀ x ∈ st.visited, x ∈ st1.visited) ∧
          node ∈ st1.visited ∧
          (∀ v ∈ st1.visited, v ∉ st1.recStack → CleanAt g v)) := by
  intro fuel
  induction fuel with
  | zero => intro node deps st _ _ _ _ _ _ _ _ b st1 h; simp [dfsGoF] at h
  | succ n ih =>
    intro node deps st hP1 hP3 hP5 hP6 hP4 hE hCI hProc b st1 h
    cases deps with
    | nil =>
      simp only [dfsGoF, Option.some.injEq, Prod.mk.injEq] at h
      obtain ⟨hb, hst⟩ := h
      subst hb
      subst hst
      have hrs : st.recStack = node :: st.cyclePath.dropLast.reverse := by
        rw [hP3]; exact reverse_eq_cons_of_getLast? hP1
      have herase : st.recStack.erase node = st.cyclePath.dropLast.reverse := by
        rw [hrs]; exact List.erase_cons_head node _
      have hnodemem : node ∈ st.visited :=
        hP5 node (by rw [hrs]; exact List.mem_cons_self node _)
      constructor
      · intro h2; cases h2
      intro _
      refine ⟨rfl, ?_, fun x hx => hx, hnodemem, ?_⟩
      · show st.recStack = node :: st.recStack.erase node
        rw [herase]; exact hrs
      · intro v hv hvnot
        have hvnot2 : v ∉ st.recStack.erase node := hvnot
        by_cases hvn : v = node
        · subst hvn
          apply cleanAt_of_deps
          intro d hd
          rcases hProc d hd with hd2 | ⟨hdv, hdns⟩
          · simp at hd2
          · exact hCI d hdv hdns
        · refine hCI v hv ?_
          intro hc
          rw [hrs] at hc
          rcases List.mem_cons.mp hc with rfl | hc2
          · exact hvn rfl
          · rw [herase] at hvnot2
            exact hvnot2 hc2
    | cons dep rest =>
      simp only [dfsGoF] at h
      by_cases hv : dep ∈ st.visited
      · rw [if_pos hv] at h
        by_cases hr : dep ∈ st.recStack
        · rw [if_pos hr] at h
          simp only [Option.some.injEq, Prod.mk.injEq] at h
          obtain ⟨hb, hst⟩ := h
          subst hb
          subst hst
          refine ⟨fun _ => ⟨?_, dep, ?_, ?_⟩, by intro h2; cases h2⟩
          · exact isChain_concat hP4 hP1 (hE dep (List.mem_cons_self dep rest))
          · exact List.getLast?_concat _
          · show dep ∈ (st.cyclePath ++ [dep]).dropLast
            rw [List.dropLast_concat]
            rw [hP3] at hr
            exact List.mem_reverse.mp hr
        · rw [if_neg hr] at h
          refine ih node rest st hP1 hP3 hP5 hP6 hP4
            (fun d hd => hE d (List.mem_cons_of_mem _ hd)) hCI ?_ b st1 h
          intro d hd
          rcases hProc d hd with hmemd | hsafe
          · rcases List.mem_cons.mp hmemd with rfl | hdr
            · exact Or.inr ⟨hv, hr⟩
            · exact Or.inl hdr
          · exact Or.inr hsafe
      · rw [if_neg hv] at h
        have hdepE : Edge g node dep := hE dep (List.mem_cons_self dep rest)
        have hdns : dep ∉ st.recStack := fun hc => hv (hP5 dep hc)
        have hdncp : dep ∉ st.cyclePath := fun hc =>
          hdns (by rw [hP3]; exact List.mem_reverse.mpr hc)
        have hP1a : (pushNode dep st).cyclePath.getLast? = some dep :=
          List.getLast?_concat _
        have hP3a : (pushNode dep st).recStack =
            (pushNode dep st).cyclePath.reverse := by
          show dep :: st.recStack = (st.cyclePath ++ [dep]).reverse
          simp [hP3]
        have hP5a : ∀ x ∈ (pushNode dep st).recStack,
            x ∈ (pushNode dep st).visited := by
          intro x hx
          rcases List.mem_cons.mp hx with rfl | hx2
          · exact List.mem_cons_self _ _
          · exact List.mem_cons_of_mem _ (hP5 x hx2)
        have hP6a : (pushNode dep st).cyclePath.Nodup := by
          show (st.cyclePath ++ [dep]).Nodup
          rw [List.nodup_append]
          refine ⟨hP6, List.nodup_singleton _, ?_⟩
          intro a ha hb
          rw [List.mem_singleton] at hb
          subst hb
          exact hdncp ha
        have hP4a : IsChain g (pushNode dep st).cyclePath :=
          isChain_concat hP4 hP1 hdepE
        have hEa : ∀ d ∈ lookupDeps g dep, Edge g dep d := fun d hd => hd
        have hCIa : ∀ v ∈ (pushNode dep st).visited,
            v ∉ (pushNode dep st).recStack → CleanAt g v := by
          intro v hv2 hvn
          rcases List.mem_cons.mp hv2 with rfl | hv3
          · exact absurd (List.mem_cons_self _ _) hvn
          · exact hCI v hv3 (fun hc => hvn (List.mem_cons_of_mem _ hc))
        have hProca : ∀ d, Edge g dep d →
            d ∈ lookupDeps g dep ∨
              (d ∈ (pushNode dep st).visited ∧
                d ∉ (pushNode dep st).recStack) :=
          fun d hd => Or.inl hd
        cases hinner : dfsGoF g n dep (lookupDeps g dep) (pushNode dep st) with
        | none => rw [hinner] at h; exact absurd h (by simp)
        | some p =>
          obtain ⟨b1, st2⟩ := p
          have hspec := ih dep (lookupDeps g dep) (pushNode dep st)
            hP1a hP3a hP5a hP6a hP4a hEa hCIa hProca b1 st2 hinner
          rw [hinner] at h
          cases b1 with
          | true =>
            simp only [Option.some.injEq, Prod.mk.injEq] at h
            obtain ⟨hb, hst⟩ := h
            subst hb
            subst hst
            exact ⟨fun _ => hspec.1 rfl, by intro h2; cases h2⟩
          | false =>
            obtain ⟨hF1, hF2, hF3, hF4, hF5⟩ := hspec.2 rfl
            have hcp2 : st2.cyclePath = st.cyclePath := by
              rw [hF1]
              show (st.cyclePath ++ [dep]).dropLast = st.cyclePath
              exact List.dropLast_concat
            have hrs2 : st2.recStack = st.recStack := by
              have h2 : dep :: st.recStack = dep :: st2.recStack := hF2
              injection h2 with _ h3
              exact h3.symm
            have hP1b : st2.cyclePath.getLast? = some node := by
              rw [hcp2]; exact hP1
            have hP3b : st2.recStack = st2.cyclePath.reverse := by
              rw [hrs2, hcp2]; exact hP3
            have hP5b : ∀ x ∈ st2.recStack, x ∈ st2.visited := by
              intro x hx
              rw [hrs2] at hx
              exact hF3 x (List.mem_cons_of_mem _ (hP5 x hx))
            have hP6b : st2.cyclePath.Nodup := by rw [hcp2]; exact hP6
            have hP4b : IsChain g st2.cyclePath := by rw [hcp2]; exact hP4
            have hEb : ∀ d ∈ rest, Edge g node d :=
              fun d hd => hE d (List.mem_cons_of_mem _ hd)
            have hProcb : ∀ d, Edge g node d →
                d ∈ rest ∨ (d ∈ st2.visited ∧ d ∉ st2.recStack) := by
              intro d hd
              rcases hProc d hd with hmemd | ⟨hdv, hdnr⟩
              · rcases List.mem_cons.mp hmemd with rfl | hdr
                · exact Or.inr ⟨hF4, by rw [hrs2]; exact hdns⟩
                · exact Or.inl hdr
              · exact Or.inr ⟨hF3 d (List.mem_cons_of_mem _ hdv),
                  by rw [hrs2]; exact hdnr⟩
            have hres := ih node rest st2 hP1b hP3b hP5b hP6b hP4b hEb hF5
              hProcb b st1 h
            refine ⟨hres.1, fun hb => ?_⟩
            obtain ⟨hG1, hG2, hG3, hG4, hG5⟩ := hres.2 hb
            refine ⟨by rw [hG1, hcp2], by rw [← hrs2]; exact hG2,
              fun x hx => hG3 x (hF3 x (List.mem_cons_of_mem _ hx)),
              hG4, hG5⟩

theorem edge_source_mem_keys {g : List (Int × List Int)} {a b : Int}
    (h : Edge g a b) : a ∈ g.map Prod.fst := by
  unfold Edge lookupDeps at h
  cases hfind : g.find? (fun e => e.1 == a) with
  | none => rw [hfind] at h; simp at h
  | some entry =>
    have hbeq := List.find?_some hfind
    have heq : entry.1 = a := eq_of_beq hbeq
    rw [← heq]
    exact List.mem_map_of_mem Prod.fst (List.mem_of_find?_eq_some hfind)

/-- The root loop: a returned path closes a cycle; termination without a
path means every root reaches no cycle. -/
theorem rootsLoop_spec (g : List (Int × List Int)) :
    ∀ roots (st : DfsState),
      st.recStack = [] →
      (∀ v ∈ st.visited, CleanAt g v) →
      (∀ path, rootsLoop g roots st = some path → CyclePathEnd g path) ∧
      (rootsLoop g roots st = none → ∀ n ∈ roots, CleanAt g n) := by
  intro roots
  induction roots with
  | nil =>
    intro st hrs hclean
    exact ⟨fun path h => by simp [rootsLoop] at h,
      fun _ n hn => absurd hn (List.not_mem_nil n)⟩
  | cons r rest ih =>
    intro st hrs hclean
    simp only [rootsLoop]
    by_cases hv : r ∈ st.visited
    · rw [if_pos hv]
      refine ⟨(ih st hrs hclean).1, fun hnone n hn => ?_⟩
      rcases List.mem_cons.mp hn with rfl | hn2
      · exact hclean n hv
      · exact (ih st hrs hclean).2 hnone n hn2
    · rw [if_neg hv]
      cases hdfs : dfs g r { st with cyclePath := [] } with
      | none =>
        exfalso
        refine dfsGoF_ne_none g (graphFuel g) r (lookupDeps g r)
          (pushNode r { st with cyclePath := [] }) ?_ hdfs
        have h1 := dfsWeight_le_graphFuel g
          (pushNode r { st with cyclePath := [] }).visited
        have h2 := lookupDeps_length_le g r
        unfold graphFuel
        omega
      | some p =>
        obtain ⟨b1, st1⟩ := p
        have hdfs2 : dfsGoF g (graphFuel g) r (lookupDeps g r)
            (pushNode r { st with cyclePath := [] }) = some (b1, st1) := hdfs
        have hps := dfsGoF_spec g (graphFuel g) r (lookupDeps g r)
          (pushNode r { st with cyclePath := [] })
          (by simp [pushNode])
          (by simp [pushNode, hrs])
          (by
            intro x hx
            have hx2 : x ∈ r :: st.recStack := hx
            rw [hrs] at hx2
            rcases List.mem_cons.mp hx2 with rfl | h0
            · exact List.mem_cons_self _ _
            · simp at h0)
          (by simp [pushNode])
          trivial
          (fun d hd => hd)
          (by
            intro v hv2 hvn
            have hv3 : v ∈ r :: st.visited := hv2
            rcases List.mem_cons.mp hv3 with rfl | h4
            · exact absurd (List.mem_cons_self v st.recStack) hvn
            · exact hclean v h4)
          (fun d hd => Or.inl hd)
          b1 st1 hdfs2
        cases b1 with
        | true =>
          refine ⟨fun path hpath => ?_, fun hnone => by cases hnone⟩
          have hpe := hps.1 rfl
          rwa [Option.some.inj hpath] at hpe
        | false =>
          have hF := hps.2 rfl
          have h2 : r :: st.recStack = r :: st1.recStack := hF.2.1
          injection h2 with _ h3
          have hrs1 : st1.recStack = [] := by rw [← h3, hrs]
          have hclean1 : ∀ v ∈ st1.visited, CleanAt g v := fun v hv2 =>
            hF.2.2.2.2 v hv2 (by rw [hrs1]; exact List.not_mem_nil v)
          refine ⟨(ih st1 hrs1 hclean1).1, fun hnone n hn => ?_⟩
          rcases List.mem_cons.mp hn with rfl | hn2
          · exact hclean1 n hF.2.2.2.1
          · exact (ih st1 hrs1 hclean1).2 hnone n hn2

/-- **C3** For every dependency graph (embedded as an association list,
one entry per issue), `CheckForCycles` returns no error exactly when the
graph has no cycle — no node reaches itself through one or more
dependency edges — so every acyclic graph (chains, diamonds) passes; and
whenever it returns an error, the message is exactly
`dependency cycle detected: ` followed by the formatted path of a
genuine cycle of the graph (a closed chain of dependency edges whose
first and last nodes coincide), so the formatted path lists every node
on that cycle. -/
theorem C3_checkForCycles (g : List (Int × List Int)) :
    (CheckForCycles g = none ↔ ¬∃ v, Relation.TransGen (Edge g) v v) ∧
    (∀ msg, CheckForCycles g = some msg →
      ∃ cyc, IsCycleList g cyc ∧
        msg = "dependency cycle detected: " ++ formatCycle cyc) := by
  have hspec := rootsLoop_spec g (g.map Prod.fst) ⟨[], [], []⟩ rfl
    (by intro v hv; simp at hv)
  constructor
  · constructor
    · intro hnone
      unfold CheckForCycles at hnone
      rintro ⟨v, hv⟩
      cases hroots : rootsLoop g (g.map Prod.fst) ⟨[], [], []⟩ with
      | none =>
        have hkey : v ∈ g.map Prod.fst := by
          rcases Relation.TransGen.head'_iff.mp hv with ⟨d, hd, -⟩
          exact edge_source_mem_keys hd
        exact hspec.2 hroots v hkey ⟨v, Relation.ReflTransGen.refl, hv⟩
      | some path =>
        rw [hroots] at hnone
        cases hext : extractCycle path with
        | none => simp [hext] at hnone
        | some cyc => simp [hext] at hnone
    · intro hnocyc
      unfold CheckForCycles
      cases hroots : rootsLoop g (g.map Prod.fst) ⟨[], [], []⟩ with
      | none => rfl
      | some path =>
        exfalso
        have hend := hspec.1 path hroots
        obtain ⟨cyc, hextr, hcyc⟩ := extractCycle_spec hend
        exact hnocyc (isCycleList_transGen hcyc)
  · intro msg hmsg
    cases hroots : rootsLoop g (g.map Prod.fst) ⟨[], [], []⟩ with
    | none =>
      have hnone : CheckForCycles g = none := by
        unfold CheckForCycles
        rw [hroots]
      rw [hnone] at hmsg
      cases hmsg
    | some path =>
      have hend := hspec.1 path hroots
      obtain ⟨cyc, hextr, hcyc⟩ := extractCycle_spec hend
      have hval : CheckForCycles g =
          some ("dependency cycle detected: " ++ formatCycle cyc) := by
        unfold CheckForCycles
        rw [hroots]
        simp [hextr]
      rw [hval] at hmsg
      exact ⟨cyc, hcyc, (Option.some.inj hmsg).symm⟩

/-- Instances of `C3_checkForCycles`: the chain `1 ← 2 ← 3` is reported
cycle-free, and the 2-cycle `1 ↔ 2` yields the formatted error. -/
theorem C3_checkForCycles_witness :
    (¬∃ v, Relation.TransGen (Edge [((2 : Int), [(1 : Int)]), (3, [2])]) v v) ∧
    (∃ cyc, IsCycleList [((1 : Int), [(2 : Int)]), (2, [1])] cyc ∧
      "dependency cycle detected: #1 -> #2 -> #1" =
        "dependency cycle detected: " ++ formatCycle cyc) :=
  ⟨(C3_checkForCycles [((2 : Int), [(1 : Int)]), (3, [2])]).1.mp (by decide),
   (C3_checkForCycles [((1 : Int), [(2 : Int)]), (2, [1])]).2
     "dependency cycle detected: #1 -> #2 -> #1" (by decide)⟩

/-! ## State persistence (`state.go`)

`State` is serialized with `json.MarshalIndent(s, "", "  ")` between the
HTML comment markers, and parsed back by a regex extraction followed by
`json.Unmarshal`.  The embedding works on `List Char`.  `time.Time` is
abstracted as an integer instant (RFC3339 round-trips instants exactly,
which is all the proofs use), and its JSON leaf is an integer.  The
parser is a general JSON value parser (fuelled for structural
recursion); it covers the strings / integers / arrays / objects that
`State` uses — `Serialize` emits nothing else, and `json.Unmarshal`
rejects other shapes for these struct fields. -/

def lbrace : Char := Char.ofNat 123

def rbrace : Char := Char.ofNat 125

def jsonWS (c : Char) : Bool :=
  c = ' ' || c = '\t' || c = '\n' || c = '\r'

def jskipWS (cs : List Char) : List Char := cs.dropWhile jsonWS

/-- `unicode.IsSpace` on the whitespace `strings.TrimSpace` can meet
here (the ASCII space class). -/
def goIsSpace (c : Char) : Bool :=
  c = ' ' || c = '\t' || c = '\n' || c = Char.ofNat 11 || c = Char.ofNat 12 ||
    c = '\r'

def trimSpace (cs : List Char) : List Char :=
  ((cs.dropWhile goIsSpace).reverse.dropWhile goIsSpace).reverse

def hexDigit (n : Nat) : Char :=
  if n < 10 then Char.ofNat (48 + n) else Char.ofNat (87 + n)

def hexVal (c : Char) : Option Nat :=
  if 48 ≤ c.toNat ∧ c.toNat ≤ 57 then some (c.toNat - 48)
  else if 97 ≤ c.toNat ∧ c.toNat ≤ 102 then some (c.toNat - 87)
  else if 65 ≤ c.toNat ∧ c.toNat ≤ 70 then some (c.toNat - 55)
  else none

/-- `encoding/json` string escaping with the default HTML escaping:
quotes, backslashes and control characters are escaped, and `<`, `>`,
`&`, U+2028, U+2029 become `\uXXXX` — a rendered string never contains
a literal `<` or `>`. -/
def escapeChar (c : Char) : List Char :=
  if c = '"' then ['\\', '"']
  else if c = '\\' then ['\\', '\\']
  else if c = '\n' then ['\\', 'n']
  else if c = '\r' then ['\\', 'r']
  else if c = '\t' then ['\\', 't']
  else if c.toNat < 32 then
    ['\\', 'u', '0', '0', hexDigit (c.toNat / 16), hexDigit (c.toNat % 16)]
  else if c = '<' then ['\\', 'u', '0', '0', '3', 'c']
  else if c = '>' then ['\\', 'u', '0', '0', '3', 'e']
  else if c = '&' then ['\\', 'u', '0', '0', '2', '6']
  else if c.toNat = 8232 then ['\\', 'u', '2', '0', '2', '8']
  else if c.toNat = 8233 then ['\\', 'u', '2', '0', '2', '9']
  else [c]

def escapeString (cs : List Char) : List Char := (cs.map escapeChar).flatten

/-- Decimal digits of a natural number (what `strconv`/`fmt` print). -/
def natDigitsF : Nat → Nat → List Char
  | 0, _ => []
  | fuel + 1, n =>
    if n < 10 then [Char.ofNat (48 + n)]
    else natDigitsF fuel (n / 10) ++ [Char.ofNat (48 + n % 10)]

def natDigits (n : Nat) : List Char := natDigitsF (n + 1) n

def intChars (n : Int) : List Char :=
  if n < 0 then '-' :: natDigits (-n).toNat else natDigits n.toNat

/-- JSON string contents after the opening quote, with the escape forms
`json` decodes (`\" \\ \/ \b \f \n \r \t \uXXXX`). -/
def parseJStrF : Nat → List Char → Option (List Char × List Char)
  | 0, _ => none
  | fuel + 1, cs =>
    match cs with
    | [] => none
    | c :: rest =>
      if c = '"' then some ([], rest)
      else if c = '\\' then
        match rest with
        | [] => none
        | e :: r2 =>
          if e = '"' then (parseJStrF fuel r2).map (fun p => ('"' :: p.1, p.2))
          else if e = '\\' then
            (parseJStrF fuel r2).map (fun p => ('\\' :: p.1, p.2))
          else if e = '/' then
            (parseJStrF fuel r2).map (fun p => ('/' :: p.1, p.2))
          else if e = 'b' then
            (parseJStrF fuel r2).map (fun p => (Char.ofNat 8 :: p.1, p.2))
          else if e = 'f' then
            (parseJStrF fuel r2).map (fun p => (Char.ofNat 12 :: p.1, p.2))
          else if e = 'n' then
            (parseJStrF fuel r2).map (fun p => ('\n' :: p.1, p.2))
          else if e = 'r' then
            (parseJStrF fuel r2).map (fun p => ('\r' :: p.1, p.2))
          else if e = 't' then
            (parseJStrF fuel r2).map (fun p => ('\t' :: p.1, p.2))
          else if e = 'u' then
            match r2 with
            | h1 :: h2 :: h3 :: h4 :: r3 =>
              match hexVal h1, hexVal h2, hexVal h3, hexVal h4 with
              | some a, some b, some c2, some d =>
                (parseJStrF fuel r3).map
                  (fun p =>
                    (Char.ofNat (((a * 16 + b) * 16 + c2) * 16 + d) :: p.1, p.2))
              | _, _, _, _ => none
            | _ => none
          else none
      else (parseJStrF fuel rest).map (fun p => (c :: p.1, p.2))

def parseJStr (cs : List Char) : Option (List Char × List Char) :=
  parseJStrF (cs.length + 1) cs

/-- A JSON integer (`Serialize` emits only integer numbers, and
`json.Unmarshal` rejects fractions for the `int` fields). -/
def parseIntChars (cs : List Char) : Option (Int × List Char) :=
  match cs with
  | '-' :: rest =>
    match rest.takeWhile Char.isDigit with
    | [] => none
    | ds => some (-(digitsToNat ds : Int), rest.dropWhile Char.isDigit)
  | _ =>
    match cs.takeWhile Char.isDigit with
    | [] => none
    | ds => some ((digitsToNat ds : Int), cs.dropWhile Char.isDigit)

inductive Jval where
  | jstr (s : String)
  | jint (n : Int)
  | jarr (xs : List Jval)
  | jobj (fs : List (String × Jval))

/-- Parser request: a value, array elements, or object members. -/
inductive PTok where
  | val
  | elems
  | members

inductive PRes where
  | v (x : Jval)
  | vs (xs : List Jval)
  | ms (xs : List (String × Jval))

/-- Recursive-descent JSON parser (one fuelled function so every branch
is structural and evaluable). -/
def parseF : Nat → PTok → List Char → Option (PRes × List Char)
  | 0, _, _ => none
  | fuel + 1, .val, cs =>
    match jskipWS cs with
    | [] => none
    | c :: rest =>
      if c = '"' then
        match parseJStr rest with
        | some (s, r) => some (.v (.jstr (String.mk s)), r)
        | none => none
      else if c = '[' then
        match jskipWS rest with
        | c2 :: r2 =>
          if c2 = ']' then some (.v (.jarr []), r2)
          else
            match parseF fuel .elems rest with
            | some (.vs xs, r) => some (.v (.jarr xs), r)
            | _ => none
        | [] => none
      else if c = lbrace then
        match jskipWS rest with
        | c2 :: r2 =>
          if c2 = rbrace then some (.v (.jobj []), r2)
          else
            match parseF fuel .members rest with
            | some (.ms xs, r) => some (.v (.jobj xs), r)
            | _ => none
        | [] => none
      else
        match parseIntChars (c :: rest) with
        | some (n, r) => some (.v (.jint n), r)
        | none => none
  | fuel + 1, .elems, cs =>
    match parseF fuel .val cs with
    | some (.v x, r) =>
      match jskipWS r with
      | c :: r2 =>
        if c = ',' then
          match parseF fuel .elems r2 with
          | some (.vs xs, r3) => some (.vs (x :: xs), r3)
          | _ => none
        else if c = ']' then some (.vs [x], r2)
        else none
      | [] => none
    | _ => none
  | fuel + 1, .members, cs =>
    match jskipWS cs with
    | c :: rest =>
      if c = '"' then
        match parseJStr rest with
        | some (k, r) =>
          match jskipWS r with
          | c2 :: r2 =>
            if c2 = ':' then
              match parseF fuel .val r2 with
              | some (.v x, r3) =>
                match jskipWS r3 with
                | c3 :: r4 =>
                  if c3 = ',' then
                    match parseF fuel .members r4 with
                    | some (.ms xs, r5) => some (.ms ((String.mk k, x) :: xs), r5)
                    | _ => none
                  else if c3 = rbrace then some (.ms [(String.mk k, x)], r4)
                  else none
                | [] => none
              | _ => none
            else none
          | [] => none
        | none => none
      else none
    | [] => none

def parseJVal (cs : List Char) : Option (Jval × List Char) :=
  match parseF (2 * cs.length + 2) .val cs with
  | some (.v x, r) => some (x, r)
  | _ => none

/-- `claude.QAEntry` — no json tags, so the keys are the Go field
names `Questions` / `Answers`. -/
structure QAEntry where
  questions : String
  answers : String
deriving DecidableEq, Repr

/-- `state.State`.  Slice fields are `Option` to keep Go's nil / empty
distinction; `none` is a nil slice. -/
structure GoState where
  sessionID : String
  currentPhase : String
  qaHistory : Option (List QAEntry)
  qaRound : Int
  planVersion : Int
  reviewIteration : Int
  prNumber : Int
  branchName : String
  lastUpdated : Int
  lastCommentID : Int
  error : String
  dependsOn : Option (List Int)
  blockedBy : Option (List Int)
  failureReason : String
deriving DecidableEq, Repr

/-- Object member lookup; a duplicated key keeps the last value, as
`json.Unmarshal` does. -/
def jLookup (fs : List (String × Jval)) (k : String) : Option Jval :=
  fs.foldl (fun acc p => if p.1 = k then some p.2 else acc) none

def jGetStr (fs : List (String × Jval)) (k : String) : Option String :=
  match jLookup fs k with
  | none => some ""
  | some (.jstr s) => some s
  | some _ => none

def jGetInt (fs : List (String × Jval)) (k : String) : Option Int :=
  match jLookup fs k with
  | none => some 0
  | some (.jint n) => some n
  | some _ => none

def jAsInt : Jval → Option Int
  | .jint n => some n
  | _ => none

def jGetIntList (fs : List (String × Jval)) (k : String) :
    Option (Option (List Int)) :=
  match jLookup fs k with
  | none => some none
  | some (.jarr xs) =>
    match xs.mapM jAsInt with
    | some ns => some (some ns)
    | none => none
  | some _ => none

/-- Decoding a `QAEntry` object (the exact-key case; Go would also
accept case-insensitive keys, which `Serialize` never produces). -/
def jAsQA : Jval → Option QAEntry
  | .jobj fs =>
    match jGetStr fs "Questions", jGetStr fs "Answers" with
    | some q, some a => some ⟨q, a⟩
    | _, _ => none
  | _ => none

def jGetQAList (fs : List (String × Jval)) (k : String) :
    Option (Option (List QAEntry)) :=
  match jLookup fs k with
  | none => some none
  | some (.jarr xs) =>
    match xs.mapM jAsQA with
    | some es => some (some es)
    | none => none
  | some _ => none

/-- `json.Unmarshal` into a zero `State`: absent fields keep their zero
value, present fields must have the right shape. -/
def decodeState (v : Jval) : Option GoState :=
  match v with
  | .jobj fs =>
    (jGetStr fs "session_id").bind fun sid =>
    (jGetStr fs "current_phase").bind fun ph =>
    (jGetQAList fs "qa_history").bind fun qa =>
    (jGetInt fs "qa_round").bind fun qr =>
    (jGetInt fs "plan_version").bind fun pv =>
    (jGetInt fs "review_iteration").bind fun ri =>
    (jGetInt fs "pr_number").bind fun pr =>
    (jGetStr fs "branch_name").bind fun bn =>
    (jGetInt fs "last_updated").bind fun lu =>
    (jGetInt fs "last_comment_id").bind fun lc =>
    (jGetStr fs "error").bind fun er =>
    (jGetIntList fs "depends_on").bind fun dep =>
    (jGetIntList fs "blocked_by").bind fun blk =>
    (jGetStr fs "failure_reason").bind fun fr =>
    some ⟨sid, ph, qa, qr, pv, ri, pr, bn, lu, lc, er, dep, blk, fr⟩
  | _ => none

def ind1 : List Char := [' ', ' ']

def ind2 : List Char := [' ', ' ', ' ', ' ']

def ind3 : List Char := [' ', ' ', ' ', ' ', ' ', ' ']

def jstrLit (s : String) : List Char := '"' :: escapeString s.data ++ ['"']

def fieldLine (k : String) (v : List Char) : List Char :=
  ind1 ++ jstrLit k ++ ':' :: ' ' :: v

def renderIntItems : List Int → List Char
  | [] => []
  | [n] => ind2 ++ intChars n
  | n :: rest => ind2 ++ intChars n ++ ',' :: '\n' :: renderIntItems rest

def renderIntArr (xs : List Int) : List Char :=
  '[' :: '\n' :: renderIntItems xs ++ '\n' :: ind1 ++ [']']

def renderQAObj (e : QAEntry) : List Char :=
  lbrace :: '\n' :: ind3 ++ jstrLit "Questions" ++ ':' :: ' ' ::
      jstrLit e.questions ++
    ',' :: '\n' :: ind3 ++ jstrLit "Answers" ++ ':' :: ' ' ::
      jstrLit e.answers ++
    '\n' :: ind2 ++ [rbrace]

def renderQAItems : List QAEntry → List Char
  | [] => []
  | [e] => ind2 ++ renderQAObj e
  | e :: rest => ind2 ++ renderQAObj e ++ ',' :: '\n' :: renderQAItems rest

def renderQAArr (xs : List QAEntry) : List Char :=
  '[' :: '\n' :: renderQAItems xs ++ '\n' :: ind1 ++ [']']

/-- A present slice field (`omitempty` skips nil and empty slices). -/
def optSlice {A B : Type} (o : Option (List A)) (f : List A → B) : List B :=
  match o with
  | some (a :: t) => [f (a :: t)]
  | _ => []

/-- The JSON value a `QAEntry` denotes. -/
def qaJ (e : QAEntry) : Jval :=
  Jval.jobj [("Questions", Jval.jstr e.questions), ("Answers", Jval.jstr e.answers)]

/-- The members `MarshalIndent` emits for a `State`, in struct field
order: key, denoted JSON value, and rendered value text.  `omitempty`
skips zero scalars and empty (nil or length 0) slices; `current_phase`
and `last_updated` are always present. -/
def stateMs (s : GoState) : List (String × Jval × List Char) :=
  (if s.sessionID = "" then [] else
    [("session_id", Jval.jstr s.sessionID, jstrLit s.sessionID)]) ++
  [("current_phase", Jval.jstr s.currentPhase, jstrLit s.currentPhase)] ++
  optSlice s.qaHistory
    (fun l => ("qa_history", Jval.jarr (l.map qaJ), renderQAArr l)) ++
  (if s.qaRound = 0 then [] else
    [("qa_round", Jval.jint s.qaRound, intChars s.qaRound)]) ++
  (if s.planVersion = 0 then [] else
    [("plan_version", Jval.jint s.planVersion, intChars s.planVersion)]) ++
  (if s.reviewIteration = 0 then [] else
    [("review_iteration", Jval.jint s.reviewIteration, intChars s.reviewIteration)]) ++
  (if s.prNumber = 0 then [] else
    [("pr_number", Jval.jint s.prNumber, intChars s.prNumber)]) ++
  (if s.branchName = "" then [] else
    [("branch_name", Jval.jstr s.branchName, jstrLit s.branchName)]) ++
  [("last_updated", Jval.jint s.lastUpdated, intChars s.lastUpdated)] ++
  (if s.lastCommentID = 0 then [] else
    [("last_comment_id", Jval.jint s.lastCommentID, intChars s.lastCommentID)]) ++
  (if s.error = "" then [] else
    [("error", Jval.jstr s.error, jstrLit s.error)]) ++
  optSlice s.dependsOn
    (fun l => ("depends_on", Jval.jarr (l.map Jval.jint), renderIntArr l)) ++
  optSlice s.blockedBy
    (fun l => ("blocked_by", Jval.jarr (l.map Jval.jint), renderIntArr l)) ++
  (if s.failureReason = "" then [] else
    [("failure_reason", Jval.jstr s.failureReason, jstrLit s.failureReason)])

def lineOf (m : String × Jval × List Char) : List Char := fieldLine m.1 m.2.2

def stateLines (s : GoState) : List (List Char) := (stateMs s).map lineOf

def joinLines : List (List Char) → List Char
  | [] => []
  | [l] => l
  | l :: rest => l ++ ',' :: '\n' :: joinLines rest

def renderState (s : GoState) : List Char :=
  lbrace :: '\n' :: joinLines (stateLines s) ++ '\n' :: [rbrace]

/-- The JSON object the rendered text denotes. -/
def stateFields (s : GoState) : List (String × Jval) :=
  (stateMs s).map (fun m => (m.1, m.2.1))

def startMarker : List Char := "<!-- ultra-engineer-state".data

def endMarker : List Char := "-->".data

def botMarker : List Char := "<!-- ultra-engineer -->".data

/-- `Serialize`: sets `LastUpdated = time.Now()` (the `now` argument)
and wraps the indented JSON in the markers. -/
def SerializeState (s : GoState) (now : Int) : List Char :=
  startMarker ++ '\n' :: renderState { s with lastUpdated := now } ++
    '\n' :: endMarker

/-- Index of the first occurrence of `pat`. -/
def findSub (pat : List Char) : List Char → Option Nat
  | [] => if pat = [] then some 0 else none
  | c :: t =>
    if pat.isPrefixOf (c :: t) then some 0
    else (findSub pat t).map (fun n => n + 1)

def containsSub (pat cs : List Char) : Bool := (findSub pat cs).isSome

/-- `Parse`: the regex `<!-- ultra-engineer-state\s*([\s\S]*?)\s*-->`
takes the text from the first start marker to the first `-->` after it
(lazy group), `strings.TrimSpace` trims it, `json.Unmarshal` decodes
it (trailing whitespace after the value is accepted, anything else is
an error). -/
def ParseBody (body : List Char) : Option GoState :=
  match findSub startMarker body with
  | none => none
  | some i =>
    match findSub endMarker (body.drop (i + startMarker.length)) with
    | none => none
    | some j =>
      match parseJVal (trimSpace ((body.drop (i + startMarker.length)).take j)) with
      | some (v, r) => if jskipWS r = [] then decodeState v else none
      | none => none

/-- `stateRegex.MatchString body`. -/
def containsStateFragment (body : List Char) : Bool :=
  match findSub startMarker body with
  | none => false
  | some i => containsSub endMarker (body.drop (i + startMarker.length))

/-- `IsBotComment`. -/
def IsBotComment (body : List Char) : Bool :=
  containsSub botMarker body || containsStateFragment body

theorem toNat_ofNat_small {m : Nat} (h : m < 55296) :
    (Char.ofNat m).toNat = m := by
  unfold Char.ofNat
  rw [dif_pos (Or.inl h : Nat.isValidChar m)]
  rfl

theorem digitsToNat_concat (a : List Char) (c : Char) :
    digitsToNat (a ++ [c]) = 10 * digitsToNat a + (c.toNat - 48) := by
  unfold digitsToNat
  rw [List.foldl_append]
  simp [Nat.mul_comm]

theorem natDigitsF_toNat : ∀ fuel n, n < fuel →
    digitsToNat (natDigitsF fuel n) = n := by
  intro fuel
  induction fuel with
  | zero => intro n h; omega
  | succ f ih =>
    intro n h
    unfold natDigitsF
    by_cases h10 : n < 10
    · rw [if_pos h10]
      unfold digitsToNat
      simp [toNat_ofNat_small (by omega : 48 + n < 55296)]
    · rw [if_neg h10]
      rw [digitsToNat_concat, ih (n / 10) (by omega)]
      have hofnat : (Char.ofNat (48 + n % 10)).toNat = 48 + n % 10 :=
        toNat_ofNat_small (by omega)
      omega

theorem natDigits_toNat (n : Nat) : digitsToNat (natDigits n) = n :=
  natDigitsF_toNat (n + 1) n (Nat.lt_succ_self n)

theorem natDigitsF_ne_nil : ∀ fuel n, n < fuel → natDigitsF fuel n ≠ [] := by
  intro fuel
  induction fuel with
  | zero => intro n h; omega
  | succ f ih =>
    intro n h
    unfold natDigitsF
    by_cases h10 : n < 10
    · rw [if_pos h10]; simp
    · rw [if_neg h10]; simp

theorem digit_char_isDigit {m : Nat} (h : m < 10) :
    (Char.ofNat (48 + m)).isDigit = true := by
  interval_cases m <;> decide

theorem natDigitsF_digits : ∀ fuel n, n < fuel →
    ∀ c ∈ natDigitsF fuel n, c.isDigit = true := by
  intro fuel
  induction fuel with
  | zero => intro n h; omega
  | succ f ih =>
    intro n h c hc
    unfold natDigitsF at hc
    by_cases h10 : n < 10
    · rw [if_pos h10] at hc
      rw [List.mem_singleton] at hc
      subst hc
      exact digit_char_isDigit h10
    · rw [if_neg h10] at hc
      rcases List.mem_append.mp hc with hc1 | hc2
      · exact ih (n / 10) (by omega) c hc1
      · rw [List.mem_singleton] at hc2
        subst hc2
        exact digit_char_isDigit (by omega)

theorem natDigits_digits {n : Nat} : ∀ c ∈ natDigits n, c.isDigit = true :=
  natDigitsF_digits (n + 1) n (Nat.lt_succ_self n)

theorem natDigits_ne_nil (n : Nat) : natDigits n ≠ [] :=
  natDigitsF_ne_nil (n + 1) n (Nat.lt_succ_self n)

/-- Splitting `takeWhile` / `dropWhile` at a boundary. -/
theorem tw_append {p : Char → Bool} {rest : List Char}
    (hb : ∀ c, rest.head? = some c → p c = false) :
    ∀ a, (∀ c ∈ a, p c = true) →
      (a ++ rest).takeWhile p = a ∧ (a ++ rest).dropWhile p = rest := by
  intro a
  induction a with
  | nil =>
    intro _
    cases rest with
    | nil => simp
    | cons r t =>
      have hr : p r = false := hb r rfl
      simp [List.takeWhile_cons, List.dropWhile_cons, hr]
  | cons x a2 ih =>
    intro ha
    have hx : p x = true := ha x (List.mem_cons_self x a2)
    have := ih (fun c hc => ha c (List.mem_cons_of_mem _ hc))
    simp only [List.cons_append, List.takeWhile_cons, List.dropWhile_cons, hx]
    simp only [if_true]
    exact ⟨by rw [this.1], by rw [this.2]⟩

/-- `parseIntChars` reads back exactly the integer `intChars` printed. -/
theorem parseIntChars_int (n : Int) (rest : List Char)
    (hb : ∀ c, rest.head? = some c → c.isDigit = false) :
    parseIntChars (intChars n ++ rest) = some (n, rest) := by
  have htwP : ∀ m : Nat,
      (natDigits m ++ rest).takeWhile Char.isDigit = natDigits m ∧
      (natDigits m ++ rest).dropWhile Char.isDigit = rest :=
    fun m => tw_append hb (natDigits m) (fun c hc => natDigits_digits c hc)
  unfold intChars
  by_cases hneg : n < 0
  · rw [if_pos hneg]
    show parseIntChars ('-' :: (natDigits (-n).toNat ++ rest)) = _
    unfold parseIntChars
    split
    · rename_i r2 heq
      injection heq with h1 h2
      subst h2
      rw [(htwP _).1, (htwP _).2]
      obtain ⟨d, ds, hds⟩ := List.exists_cons_of_ne_nil (natDigits_ne_nil (-n).toNat)
      rw [hds]
      show some (-(digitsToNat (d :: ds) : Int), rest) = some (n, rest)
      rw [← hds, natDigits_toNat]
      have hval : -(((-n).toNat : Int)) = n := by omega
      rw [hval]
    · rename_i hne
      exact (hne (natDigits (-n).toNat ++ rest) rfl).elim
  · rw [if_neg hneg]
    obtain ⟨d, ds, hds⟩ := List.exists_cons_of_ne_nil (natDigits_ne_nil n.toNat)
    have hd : d.isDigit = true := by
      apply natDigits_digits d
      rw [hds]
      exact List.mem_cons_self d ds
    have hcons : natDigits n.toNat ++ rest = d :: (ds ++ rest) := by
      rw [hds]; rfl
    rw [hcons]
    unfold parseIntChars
    split
    · rename_i r2 heq
      injection heq with h1 h2
      rw [h1] at hd
      exact absurd hd (by decide)
    · rw [← hcons, (htwP _).1, (htwP _).2, hds]
      show some ((digitsToNat (d :: ds) : Int), rest) = some (n, rest)
      rw [← hds, natDigits_toNat]
      have hval : ((n.toNat : Int)) = n := by omega
      rw [hval]

theorem hexVal_hexDigit {m : Nat} (h : m < 16) : hexVal (hexDigit m) = some m := by
  interval_cases m <;> decide

theorem parseJStrF_lit (f : Nat) (c : Char) (r : List Char)
    (h1 : c ≠ '"') (h2 : c ≠ '\\') :
    parseJStrF (f + 1) (c :: r) =
      (parseJStrF f r).map (fun p => (c :: p.1, p.2)) := by
  simp only [parseJStrF, if_neg h1, if_neg h2]

/-- One source character's escape decodes back to that character. -/
theorem parseJStrF_escChar (fuel : Nat) (c : Char) (tail : List Char) :
    parseJStrF (fuel + 1) (escapeChar c ++ tail) =
      (parseJStrF fuel tail).map (fun p => (c :: p.1, p.2)) := by
  have hchar1 : Char.ofNat (c.toNat / 16 * 16 + c.toNat % 16) = c := by
    rw [show c.toNat / 16 * 16 + c.toNat % 16 = c.toNat from by omega,
      Char.ofNat_toNat]
  unfold escapeChar
  by_cases hq : c = '"'
  · rw [if_pos hq, hq]
    simp [parseJStrF]
  rw [if_neg hq]
  by_cases hbs : c = '\\'
  · rw [if_pos hbs, hbs]
    simp [parseJStrF]
  rw [if_neg hbs]
  by_cases hn : c = '\n'
  · rw [if_pos hn, hn]
    simp [parseJStrF]
  rw [if_neg hn]
  by_cases hr : c = '\r'
  · rw [if_pos hr, hr]
    simp [parseJStrF]
  rw [if_neg hr]
  by_cases ht : c = '\t'
  · rw [if_pos ht, ht]
    simp [parseJStrF]
  rw [if_neg ht]
  by_cases hc : c.toNat < 32
  · rw [if_pos hc]
    simp [parseJStrF, hexVal_hexDigit (show c.toNat / 16 < 16 by omega),
      hexVal_hexDigit (show c.toNat % 16 < 16 by omega),
      show hexVal '0' = some 0 from by decide, hchar1]
  rw [if_neg hc]
  by_cases hlt : c = '<'
  · rw [if_pos hlt, hlt]
    simp [parseJStrF, show hexVal '0' = some 0 from by decide,
      show hexVal '3' = some 3 from by decide,
      show hexVal 'c' = some 12 from by decide]
  rw [if_neg hlt]
  by_cases hgt : c = '>'
  · rw [if_pos hgt, hgt]
    simp [parseJStrF, show hexVal '0' = some 0 from by decide,
      show hexVal '3' = some 3 from by decide,
      show hexVal 'e' = some 14 from by decide]
  rw [if_neg hgt]
  by_cases ha : c = '&'
  · rw [if_pos ha, ha]
    simp [parseJStrF, show hexVal '0' = some 0 from by decide,
      show hexVal '2' = some 2 from by decide,
      show hexVal '6' = some 6 from by decide]
  rw [if_neg ha]
  by_cases h2028 : c.toNat = 8232
  · rw [if_pos h2028]
    simp [parseJStrF, show hexVal '0' = some 0 from by decide,
      show hexVal '2' = some 2 from by decide,
      show hexVal '8' = some 8 from by decide,
      show Char.ofNat 8232 = c from by rw [← h2028, Char.ofNat_toNat]]
  rw [if_neg h2028]
  by_cases h2029 : c.toNat = 8233
  · rw [if_pos h2029]
    simp [parseJStrF, show hexVal '0' = some 0 from by decide,
      show hexVal '2' = some 2 from by decide,
      show hexVal '9' = some 9 from by decide,
      show Char.ofNat 8233 = c from by rw [← h2029, Char.ofNat_toNat]]
  rw [if_neg h2029]
  exact parseJStrF_lit fuel c tail hq hbs

theorem escapeString_cons (c : Char) (t : List Char) :
    escapeString (c :: t) = escapeChar c ++ escapeString t := by
  unfold escapeString
  rw [List.map_cons, List.flatten_cons]

/-- The parser reads back exactly the string the encoder escaped. -/
theorem parseJStrF_escape : ∀ fuel (s rest : List Char), s.length < fuel →
    parseJStrF fuel (escapeString s ++ '"' :: rest) = some (s, rest) := by
  intro fuel
  induction fuel with
  | zero => intro s rest h; omega
  | succ f ih =>
    intro s rest h
    cases s with
    | nil =>
      show parseJStrF (f + 1) ('"' :: rest) = some ([], rest)
      simp [parseJStrF]
    | cons c t =>
      rw [escapeString_cons, List.append_assoc, parseJStrF_escChar,
        ih t rest (by simp only [List.length_cons] at h; omega)]
      rfl

set_option maxHeartbeats 1000000 in
theorem escapeChar_length_pos (c : Char) : 0 < (escapeChar c).length := by
  unfold escapeChar
  repeat' split
  all_goals simp only [List.length_cons, List.length_nil]
  all_goals omega

theorem length_le_escapeString (s : List Char) :
    s.length ≤ (escapeString s).length := by
  induction s with
  | nil => simp [escapeString]
  | cons c t ih =>
    rw [escapeString_cons, List.length_append, List.length_cons]
    have hc := escapeChar_length_pos c
    omega

theorem parseJStr_escape (s rest : List Char) :
    parseJStr (escapeString s ++ '"' :: rest) = some (s, rest) := by
  unfold parseJStr
  apply parseJStrF_escape
  have h1 := length_le_escapeString s
  simp only [List.length_append, List.length_cons]
  omega

theorem jsonWS_false {c : Char} (h1 : c ≠ ' ') (h2 : c ≠ '\t') (h3 : c ≠ '\n')
    (h4 : c ≠ '\r') : jsonWS c = false := by
  simp [jsonWS, h1, h2, h3, h4]

theorem jskipWS_all (ws : List Char) (h : ∀ c ∈ ws, jsonWS c = true)
    (cs : List Char) : jskipWS (ws ++ cs) = jskipWS cs := by
  induction ws with
  | nil => rfl
  | cons w t ih =>
    rw [List.cons_append]
    show List.dropWhile jsonWS (w :: (t ++ cs)) = _
    rw [List.dropWhile_cons, if_pos (h w (List.mem_cons_self w t))]
    exact ih (fun c hc => h c (List.mem_cons_of_mem _ hc))

theorem jskipWS_cons_neg {c : Char} (h : jsonWS c = false) (cs : List Char) :
    jskipWS (c :: cs) = c :: cs := by
  show List.dropWhile jsonWS (c :: cs) = c :: cs
  rw [List.dropWhile_cons, h]
  simp

/-- The next character (if any) is not a digit, so a preceding number
literal cannot spill over. -/
def NumBoundary (cs : List Char) : Prop :=
  ∀ c, cs.head? = some c → c.isDigit = false

/-- `txt` parses as the single JSON value `v`, consuming exactly `txt`,
for any sufficient fuel. -/
def ValOK (txt : List Char) (v : Jval) : Prop :=
  ∀ fuel rest, 2 * txt.length + 2 ≤ fuel → NumBoundary rest →
    parseF fuel .val (txt ++ rest) = some (.v v, rest)

theorem parseF_val_ws (f : Nat) (ws cs : List Char)
    (h : ∀ c ∈ ws, jsonWS c = true) :
    parseF (f + 1) .val (ws ++ cs) = parseF (f + 1) .val cs := by
  simp only [parseF]
  rw [jskipWS_all ws h cs]

theorem valOK_jstr (s : String) : ValOK (jstrLit s) (Jval.jstr s) := by
  intro fuel rest hf hb
  obtain ⟨f, rfl⟩ : ∃ f, fuel = f + 1 := ⟨fuel - 1, by omega⟩
  have hshape : jstrLit s ++ rest = '"' :: (escapeString s.data ++ '"' :: rest) := by
    simp [jstrLit]
  rw [hshape]
  simp only [parseF]
  rw [jskipWS_cons_neg (by decide : jsonWS '"' = false)]
  simp [parseJStr_escape, show String.mk s.data = s from rfl]

theorem intChars_ne_nil (n : Int) : intChars n ≠ [] := by
  unfold intChars
  split
  · simp
  · exact natDigits_ne_nil _

theorem intChars_mem {n : Int} {c : Char} (h : c ∈ intChars n) :
    c.isDigit = true ∨ c = '-' := by
  unfold intChars at h
  split at h
  · rcases List.mem_cons.mp h with rfl | h2
    · exact Or.inr rfl
    · exact Or.inl (natDigits_digits c h2)
  · exact Or.inl (natDigits_digits c h)

theorem valOK_jint (n : Int) : ValOK (intChars n) (Jval.jint n) := by
  intro fuel rest hf hb
  obtain ⟨f, rfl⟩ : ∃ f, fuel = f + 1 := ⟨fuel - 1, by omega⟩
  obtain ⟨d, t, hdt⟩ := List.exists_cons_of_ne_nil (intChars_ne_nil n)
  have hdmem : d.isDigit = true ∨ d = '-' :=
    intChars_mem (by rw [hdt]; exact List.mem_cons_self d t)
  have hdfacts : jsonWS d = false ∧ d ≠ '"' ∧ d ≠ '[' ∧ d ≠ lbrace := by
    rcases hdmem with hdig | hdash
    · exact ⟨jsonWS_false (digit_ne hdig (by decide)) (digit_ne hdig (by decide))
        (digit_ne hdig (by decide)) (digit_ne hdig (by decide)),
        digit_ne hdig (by decide), digit_ne hdig (by decide),
        digit_ne hdig (by decide)⟩
    · subst hdash
      exact ⟨by decide, by decide, by decide, by decide⟩
  rw [hdt, List.cons_append]
  simp only [parseF]
  rw [jskipWS_cons_neg hdfacts.1]
  have hback : d :: (t ++ rest) = intChars n ++ rest := by rw [hdt]; rfl
  simp only [hdfacts.2.1, hdfacts.2.2.1, hdfacts.2.2.2, if_false, if_neg,
    ite_false]
  simp only [hback, parseIntChars_int n rest hb]

/-- The text of an indented member list joined with `,\n`. -/
def membersText (ind : List Char) : List (String × Jval × List Char) → List Char
  | [] => []
  | [m] => ind ++ jstrLit m.1 ++ ':' :: ' ' :: m.2.2
  | m :: rest =>
    ind ++ jstrLit m.1 ++ ':' :: ' ' :: m.2.2 ++ ',' :: '\n' :: membersText ind rest

theorem parseF_members_ws (f : Nat) (ws cs : List Char)
    (h : ∀ c ∈ ws, jsonWS c = true) :
    parseF (f + 1) .members (ws ++ cs) = parseF (f + 1) .members cs := by
  simp only [parseF]
  rw [jskipWS_all ws h cs]

theorem numBoundary_cons {c : Char} (h : c.isDigit = false) (cs : List Char) :
    NumBoundary (c :: cs) := by
  intro c2 hc2
  rw [← Option.some.inj hc2]
  exact h

/-- A member list parses to its key/value pairs, consuming the closing
brace. -/
theorem parse_membersOK (ind closeInd : List Char)
    (hind : ∀ c ∈ ind, jsonWS c = true)
    (hclose : ∀ c ∈ closeInd, jsonWS c = true) :
    ∀ (ms : List (String × Jval × List Char)) (f : Nat) (rest : List Char),
      ms ≠ [] → (∀ m ∈ ms, ValOK m.2.2 m.2.1) →
      2 * (membersText ind ms).length + 2 ≤ f →
      parseF f .members
          (membersText ind ms ++ '\n' :: closeInd ++ rbrace :: rest) =
        some (.ms (ms.map fun m => (m.1, m.2.1)), rest) := by
  intro ms
  induction ms with
  | nil => intro f rest hne _ _; exact absurd rfl hne
  | cons m tailms ih =>
    intro f rest hne hv hf
    obtain ⟨k, v, t⟩ := m
    have hnlclose : ∀ c ∈ '\n' :: closeInd, jsonWS c = true := by
      intro c hc
      rcases List.mem_cons.mp hc with rfl | hc2
      · decide
      · exact hclose c hc2
    have hlenjs : (jstrLit k).length = (escapeString k.data).length + 2 := by
      simp [jstrLit]
    cases tailms with
    | nil =>
      have hlen : (membersText ind [(k, v, t)]).length =
          ind.length + (jstrLit k).length + 2 + t.length := by
        simp only [membersText, List.length_append, List.length_cons]
        omega
      obtain ⟨f0, rfl⟩ : ∃ f0, f = f0 + 1 := ⟨f - 1, by omega⟩
      have hinput : membersText ind [(k, v, t)] ++ '\n' :: closeInd ++ rbrace :: rest =
          ind ++ ('"' :: (escapeString k.data ++ '"' ::
            (':' :: ' ' :: (t ++ '\n' :: closeInd ++ rbrace :: rest)))) := by
        simp [membersText, jstrLit]
      rw [hinput, parseF_members_ws f0 ind _ hind]
      have hval : parseF f0 .val
          (' ' :: (t ++ '\n' :: closeInd ++ rbrace :: rest)) =
          some (.v v, '\n' :: closeInd ++ rbrace :: rest) := by
        obtain ⟨f2, rfl⟩ : ∃ f2, f0 = f2 + 1 := ⟨f0 - 1, by omega⟩
        rw [show (' ' :: (t ++ '\n' :: closeInd ++ rbrace :: rest)) =
          [' '] ++ (t ++ ('\n' :: closeInd ++ rbrace :: rest)) from by simp,
          parseF_val_ws f2 [' '] _ (by decide)]
        have hvk : ValOK t v := hv (k, v, t) (List.mem_cons_self _ _)
        exact hvk (f2 + 1) _ (by omega) (numBoundary_cons (by decide) _)
      have hskip2 : jskipWS ('\n' :: closeInd ++ rbrace :: rest) =
          rbrace :: rest := by
        rw [show ('\n' :: closeInd ++ rbrace :: rest) =
          ('\n' :: closeInd) ++ rbrace :: rest from by simp,
          jskipWS_all _ hnlclose, jskipWS_cons_neg (by decide)]
      simp only [List.cons_append, List.append_assoc] at hval hskip2
      simp only [parseF]
      rw [jskipWS_cons_neg (by decide : jsonWS '"' = false)]
      simp [parseJStr_escape, hval, hskip2,
        jskipWS_cons_neg (show jsonWS ':' = false by decide),
        show String.mk k.data = k from rfl,
        show ¬rbrace = ',' by decide]
    | cons m2 tail2 =>
      have hlen : (membersText ind ((k, v, t) :: m2 :: tail2)).length =
          ind.length + (jstrLit k).length + 2 + t.length + 2 +
            (membersText ind (m2 :: tail2)).length := by
        simp only [membersText, List.length_append, List.length_cons]
        omega
      obtain ⟨f0, rfl⟩ : ∃ f0, f = f0 + 1 := ⟨f - 1, by omega⟩
      have hinput : membersText ind ((k, v, t) :: m2 :: tail2) ++
            '\n' :: closeInd ++ rbrace :: rest =
          ind ++ ('"' :: (escapeString k.data ++ '"' ::
            (':' :: ' ' :: (t ++ ',' ::
              ('\n' :: (membersText ind (m2 :: tail2) ++
                '\n' :: closeInd ++ rbrace :: rest)))))) := by
        simp [membersText, jstrLit]
      rw [hinput, parseF_members_ws f0 ind _ hind]
      have hval : parseF f0 .val
          (' ' :: (t ++ ',' :: ('\n' :: (membersText ind (m2 :: tail2) ++
            '\n' :: closeInd ++ rbrace :: rest)))) =
          some (.v v, ',' :: ('\n' :: (membersText ind (m2 :: tail2) ++
            '\n' :: closeInd ++ rbrace :: rest))) := by
        obtain ⟨f2, rfl⟩ : ∃ f2, f0 = f2 + 1 := ⟨f0 - 1, by omega⟩
        rw [show (' ' :: (t ++ ',' :: ('\n' :: (membersText ind (m2 :: tail2) ++
            '\n' :: closeInd ++ rbrace :: rest)))) =
          [' '] ++ (t ++ (',' :: ('\n' :: (membersText ind (m2 :: tail2) ++
            '\n' :: closeInd ++ rbrace :: rest)))) from by simp,
          parseF_val_ws f2 [' '] _ (by decide)]
        have hvk : ValOK t v := hv (k, v, t) (List.mem_cons_self _ _)
        exact hvk (f2 + 1) _ (by omega) (numBoundary_cons (by decide) _)
      have hrec : parseF f0 .members
          ('\n' :: (membersText ind (m2 :: tail2) ++
            '\n' :: closeInd ++ rbrace :: rest)) =
          some (.ms ((m2 :: tail2).map fun m => (m.1, m.2.1)), rest) := by
        rw [show ('\n' :: (membersText ind (m2 :: tail2) ++
            '\n' :: closeInd ++ rbrace :: rest)) =
          ['\n'] ++ (membersText ind (m2 :: tail2) ++
            '\n' :: closeInd ++ rbrace :: rest) from by simp]
        obtain ⟨f2, rfl⟩ : ∃ f2, f0 = f2 + 1 := ⟨f0 - 1, by omega⟩
        rw [show f2 + 1 = f2 + 1 from rfl, parseF_members_ws f2 ['\n'] _ (by decide)]
        have hih := ih (f2 + 1) rest (by simp)
          (fun m hm => hv m (List.mem_cons_of_mem _ hm)) (by omega)
        simpa [List.cons_append, List.append_assoc] using hih
      simp only [List.cons_append, List.append_assoc] at hval hrec
      simp only [parseF]
      rw [jskipWS_cons_neg (by decide : jsonWS '"' = false)]
      simp [parseJStr_escape, hval, hrec,
        jskipWS_cons_neg (show jsonWS ':' = false by decide),
        jskipWS_cons_neg (show jsonWS ',' = false by decide),
        show String.mk k.data = k from rfl]

/-- The text of an indented array item list joined with `,\n`. -/
def itemsText : List (List Char × Jval) → List Char
  | [] => []
  | [p] => ind2 ++ p.1
  | p :: rest => ind2 ++ p.1 ++ ',' :: '\n' :: itemsText rest

/-- An item list (with any leading whitespace) parses to its values,
consuming the closing bracket. -/
theorem parse_elemsOK (closeInd : List Char)
    (hclose : ∀ c ∈ closeInd, jsonWS c = true) :
    ∀ (items : List (List Char × Jval)) (ws : List Char) (f : Nat)
      (rest : List Char),
      items ≠ [] → (∀ c ∈ ws, jsonWS c = true) →
      (∀ p ∈ items, ValOK p.1 p.2) →
      2 * (itemsText items).length + 2 ≤ f →
      parseF f .elems
          (ws ++ (itemsText items ++ '\n' :: (closeInd ++ ']' :: rest))) =
        some (.vs (items.map Prod.snd), rest) := by
  intro items
  induction items with
  | nil => intro ws f rest hne _ _ _; exact absurd rfl hne
  | cons p tailit ih =>
    intro ws f rest hne hws hv hf
    obtain ⟨t, v⟩ := p
    have hnlclose : ∀ c ∈ '\n' :: closeInd, jsonWS c = true := by
      intro c hc
      rcases List.mem_cons.mp hc with rfl | hc2
      · decide
      · exact hclose c hc2
    have hwsind : ∀ c ∈ ws ++ ind2, jsonWS c = true := by
      intro c hc
      rcases List.mem_append.mp hc with hc1 | hc2
      · exact hws c hc1
      · exact (by decide : ∀ c ∈ ind2, jsonWS c = true) c hc2
    cases tailit with
    | nil =>
      have hlen : (itemsText [(t, v)]).length = 4 + t.length := by
        show (ind2 ++ t).length = _
        simp only [ind2, List.length_append, List.length_cons, List.length_nil]
      obtain ⟨f0, rfl⟩ : ∃ f0, f = f0 + 1 := ⟨f - 1, by omega⟩
      have hval : parseF f0 .val
          (ws ++ (itemsText [(t, v)] ++ '\n' :: (closeInd ++ ']' :: rest))) =
          some (.v v, '\n' :: (closeInd ++ ']' :: rest)) := by
        obtain ⟨f2, rfl⟩ : ∃ f2, f0 = f2 + 1 := ⟨f0 - 1, by omega⟩
        rw [show ws ++ (itemsText [(t, v)] ++ '\n' :: (closeInd ++ ']' :: rest)) =
          (ws ++ ind2) ++ (t ++ ('\n' :: (closeInd ++ ']' :: rest))) from by
            show ws ++ ((ind2 ++ t) ++ '\n' :: (closeInd ++ ']' :: rest)) = _
            simp,
          parseF_val_ws f2 (ws ++ ind2) _ hwsind]
        have hvk : ValOK t v := hv (t, v) (List.mem_cons_self _ _)
        exact hvk (f2 + 1) _ (by omega) (numBoundary_cons (by decide) _)
      have hskip2 : jskipWS ('\n' :: (closeInd ++ ']' :: rest)) = ']' :: rest := by
        rw [show ('\n' :: (closeInd ++ ']' :: rest)) =
          ('\n' :: closeInd) ++ ']' :: rest from by simp,
          jskipWS_all _ hnlclose, jskipWS_cons_neg (by decide)]
      simp only [List.cons_append, List.append_assoc] at hval hskip2
      simp only [parseF]
      simp [hval, hskip2, show ¬(']' : Char) = ',' by decide]
    | cons p2 tail2 =>
      have hlen : (itemsText ((t, v) :: p2 :: tail2)).length =
          6 + t.length + (itemsText (p2 :: tail2)).length := by
        show (ind2 ++ t ++ ',' :: '\n' :: itemsText (p2 :: tail2)).length = _
        simp only [ind2, List.length_append, List.length_cons, List.length_nil]
        omega
      obtain ⟨f0, rfl⟩ : ∃ f0, f = f0 + 1 := ⟨f - 1, by omega⟩
      have hval : parseF f0 .val
          (ws ++ (itemsText ((t, v) :: p2 :: tail2) ++
            '\n' :: (closeInd ++ ']' :: rest))) =
          some (.v v, ',' :: ('\n' :: (itemsText (p2 :: tail2) ++
            '\n' :: (closeInd ++ ']' :: rest)))) := by
        obtain ⟨f2, rfl⟩ : ∃ f2, f0 = f2 + 1 := ⟨f0 - 1, by omega⟩
        rw [show ws ++ (itemsText ((t, v) :: p2 :: tail2) ++
            '\n' :: (closeInd ++ ']' :: rest)) =
          (ws ++ ind2) ++ (t ++ (',' :: ('\n' :: (itemsText (p2 :: tail2) ++
            '\n' :: (closeInd ++ ']' :: rest))))) from by
            show ws ++ ((ind2 ++ t ++ ',' :: '\n' :: itemsText (p2 :: tail2)) ++
              '\n' :: (closeInd ++ ']' :: rest)) = _
            simp,
          parseF_val_ws f2 (ws ++ ind2) _ hwsind]
        have hvk : ValOK t v := hv (t, v) (List.mem_cons_self _ _)
        exact hvk (f2 + 1) _ (by omega) (numBoundary_cons (by decide) _)
      have hrec : parseF f0 .elems
          ('\n' :: (itemsText (p2 :: tail2) ++ '\n' :: (closeInd ++ ']' :: rest))) =
          some (.vs ((p2 :: tail2).map Prod.snd), rest) := by
        have hih := ih ['\n'] f0 rest (by simp) (by decide)
          (fun q hq => hv q (List.mem_cons_of_mem _ hq)) (by omega)
        simpa [List.cons_append, List.append_assoc] using hih
      simp only [List.cons_append, List.append_assoc] at hval hrec
      simp only [parseF]
      simp [hval, hrec, jskipWS_cons_neg (show jsonWS ',' = false by decide)]

/-- An indented-object literal parses to its members. -/
theorem valOK_obj (ind closeInd : List Char)
    (hind : ∀ c ∈ ind, jsonWS c = true)
    (hclose : ∀ c ∈ closeInd, jsonWS c = true)
    (ms : List (String × Jval × List Char)) (hne : ms ≠ [])
    (hv : ∀ m ∈ ms, ValOK m.2.2 m.2.1)
    (X : List Char) (hX : membersText ind ms = ind ++ '"' :: X) :
    ValOK (lbrace :: '\n' :: (membersText ind ms ++ '\n' :: (closeInd ++ [rbrace])))
      (.jobj (ms.map fun m => (m.1, m.2.1))) := by
  intro fuel rest hf hb
  obtain ⟨f0, rfl⟩ : ∃ f0, fuel = f0 + 1 := ⟨fuel - 1, by omega⟩
  have hlen : (lbrace :: '\n' :: (membersText ind ms ++
      '\n' :: (closeInd ++ [rbrace]))).length =
      (membersText ind ms).length + closeInd.length + 4 := by
    simp only [List.length_append, List.length_cons, List.length_nil]
    omega
  have hinput : (lbrace :: '\n' :: (membersText ind ms ++
        '\n' :: (closeInd ++ [rbrace]))) ++ rest =
      lbrace :: ('\n' :: (membersText ind ms ++
        ('\n' :: (closeInd ++ rbrace :: rest)))) := by
    simp
  rw [hinput]
  have hskipq : jskipWS ('\n' :: (membersText ind ms ++
      ('\n' :: (closeInd ++ rbrace :: rest)))) =
      '"' :: (X ++ ('\n' :: (closeInd ++ rbrace :: rest))) := by
    rw [hX, show ('\n' :: ((ind ++ '"' :: X) ++
      ('\n' :: (closeInd ++ rbrace :: rest)))) =
      ('\n' :: ind) ++ ('"' :: (X ++ ('\n' :: (closeInd ++ rbrace :: rest))))
      from by simp]
    rw [jskipWS_all _ (by
      intro c hc
      rcases List.mem_cons.mp hc with rfl | hc2
      · decide
      · exact hind c hc2), jskipWS_cons_neg (by decide)]
  have hmem : parseF f0 .members ('\n' :: (membersText ind ms ++
      ('\n' :: (closeInd ++ rbrace :: rest)))) =
      some (.ms (ms.map fun m => (m.1, m.2.1)), rest) := by
    obtain ⟨f2, rfl⟩ : ∃ f2, f0 = f2 + 1 := ⟨f0 - 1, by omega⟩
    rw [show ('\n' :: (membersText ind ms ++
      ('\n' :: (closeInd ++ rbrace :: rest)))) =
      ['\n'] ++ (membersText ind ms ++
        ('\n' :: (closeInd ++ rbrace :: rest))) from by simp,
      parseF_members_ws f2 ['\n'] _ (by decide)]
    have := parse_membersOK ind closeInd hind hclose ms (f2 + 1) rest hne hv
      (by omega)
    simpa [List.cons_append, List.append_assoc] using this
  simp only [parseF]
  rw [jskipWS_cons_neg (by decide : jsonWS lbrace = false)]
  simp [hskipq, hmem, show ¬lbrace = '"' by decide, show ¬lbrace = '[' by decide,
    show ¬('"' : Char) = rbrace by decide]

def qaMs (e : QAEntry) : List (String × Jval × List Char) :=
  [("Questions", Jval.jstr e.questions, jstrLit e.questions),
   ("Answers", Jval.jstr e.answers, jstrLit e.answers)]

theorem valOK_qaObj (e : QAEntry) : ValOK (renderQAObj e) (qaJ e) := by
  have hshape : renderQAObj e =
      lbrace :: '\n' :: (membersText ind3 (qaMs e) ++ '\n' :: (ind2 ++ [rbrace])) := by
    simp [renderQAObj, membersText, qaMs]
  have hjobj : qaJ e = .jobj ((qaMs e).map fun m => (m.1, m.2.1)) := by
    simp [qaJ, qaMs]
  rw [hshape, hjobj]
  refine valOK_obj ind3 ind2 (by decide) (by decide) (qaMs e) (by simp [qaMs])
    ?_ (escapeString "Questions".data ++ '"' ::
      (':' :: ' ' :: (jstrLit e.questions ++ ',' :: '\n' ::
        (ind3 ++ (jstrLit "Answers" ++ ':' :: ' ' :: jstrLit e.answers))))) ?_
  · intro m hm
    rcases List.mem_cons.mp hm with rfl | hm2
    · exact valOK_jstr e.questions
    · rcases List.mem_cons.mp hm2 with rfl | hm3
      · exact valOK_jstr e.answers
      · simp at hm3
  · simp [membersText, qaMs, jstrLit]

theorem renderQAItems_eq : ∀ xs : List QAEntry,
    renderQAItems xs = itemsText (xs.map fun e => (renderQAObj e, qaJ e))
  | [] => rfl
  | [_] => rfl
  | e :: e2 :: rest => by
    show ind2 ++ renderQAObj e ++ ',' :: '\n' :: renderQAItems (e2 :: rest) =
      ind2 ++ renderQAObj e ++ ',' :: '\n' ::
        itemsText ((e2 :: rest).map fun x => (renderQAObj x, qaJ x))
    rw [renderQAItems_eq (e2 :: rest)]

theorem renderIntItems_eq : ∀ xs : List Int,
    renderIntItems xs = itemsText (xs.map fun n => (intChars n, Jval.jint n))
  | [] => rfl
  | [_] => rfl
  | n :: n2 :: rest => by
    show ind2 ++ intChars n ++ ',' :: '\n' :: renderIntItems (n2 :: rest) =
      ind2 ++ intChars n ++ ',' :: '\n' ::
        itemsText ((n2 :: rest).map fun x => (intChars x, Jval.jint x))
    rw [renderIntItems_eq (n2 :: rest)]

/-- An indented-array literal parses to its element values. -/
theorem valOK_arr (d : Char) (t1 : List Char) (v1 : Jval)
    (tailit : List (List Char × Jval))
    (hd1 : jsonWS d = false) (hd2 : d ≠ ']')
    (hv : ∀ p ∈ (d :: t1, v1) :: tailit, ValOK p.1 p.2) :
    ValOK ('[' :: '\n' :: (itemsText ((d :: t1, v1) :: tailit) ++
        '\n' :: (ind1 ++ [']'])))
      (.jarr (((d :: t1, v1) :: tailit).map Prod.snd)) := by
  intro fuel rest hf hb
  obtain ⟨f0, rfl⟩ : ∃ f0, fuel = f0 + 1 := ⟨fuel - 1, by omega⟩
  have hlen : ('[' :: '\n' :: (itemsText ((d :: t1, v1) :: tailit) ++
      '\n' :: (ind1 ++ [']']))).length =
      (itemsText ((d :: t1, v1) :: tailit)).length + 6 := by
    simp only [List.length_append, List.length_cons, List.length_nil, ind1]
  have hinput : ('[' :: '\n' :: (itemsText ((d :: t1, v1) :: tailit) ++
        '\n' :: (ind1 ++ [']']))) ++ rest =
      '[' :: ('\n' :: (itemsText ((d :: t1, v1) :: tailit) ++
        ('\n' :: (ind1 ++ ']' :: rest)))) := by
    simp
  rw [hinput]
  obtain ⟨more, hmore⟩ : ∃ more, itemsText ((d :: t1, v1) :: tailit) =
      ind2 ++ (d :: (t1 ++ more)) := by
    cases tailit with
    | nil => exact ⟨[], by simp [itemsText]⟩
    | cons q tq => exact ⟨',' :: '\n' :: itemsText (q :: tq), by simp [itemsText]⟩
  have hskipd : jskipWS ('\n' :: (itemsText ((d :: t1, v1) :: tailit) ++
      ('\n' :: (ind1 ++ ']' :: rest)))) =
      d :: ((t1 ++ more) ++ ('\n' :: (ind1 ++ ']' :: rest))) := by
    rw [hmore, show ('\n' :: ((ind2 ++ (d :: (t1 ++ more))) ++
      ('\n' :: (ind1 ++ ']' :: rest)))) =
      ('\n' :: ind2) ++ (d :: ((t1 ++ more) ++ ('\n' :: (ind1 ++ ']' :: rest))))
      from by simp]
    rw [jskipWS_all _ (by decide), jskipWS_cons_neg hd1]
  have helems : parseF f0 .elems ('\n' :: (itemsText ((d :: t1, v1) :: tailit) ++
      ('\n' :: (ind1 ++ ']' :: rest)))) =
      some (.vs ((((d :: t1, v1) :: tailit)).map Prod.snd), rest) := by
    have := parse_elemsOK ind1 (by decide) ((d :: t1, v1) :: tailit) ['\n'] f0
      rest (by simp) (by decide) hv (by rw [hlen] at hf; omega)
    simpa [List.cons_append, List.append_assoc] using this
  simp only [parseF]
  rw [jskipWS_cons_neg (by decide : jsonWS '[' = false)]
  simp [hskipd, helems, hd2, show ¬('[' : Char) = '"' by decide]

theorem valOK_renderQAArr (e : QAEntry) (es : List QAEntry) :
    ValOK (renderQAArr (e :: es)) (Jval.jarr ((e :: es).map qaJ)) := by
  have hshape : renderQAArr (e :: es) =
      '[' :: '\n' :: (itemsText ((e :: es).map fun x => (renderQAObj x, qaJ x)) ++
        '\n' :: (ind1 ++ [']'])) := by
    simp [renderQAArr, renderQAItems_eq]
  have hmapj : Jval.jarr ((e :: es).map qaJ) =
      Jval.jarr (((e :: es).map fun x => (renderQAObj x, qaJ x)).map Prod.snd) := by
    simp
  rw [hshape, hmapj, List.map_cons]
  have hobj : renderQAObj e = lbrace ::
      ('\n' :: (ind3 ++ jstrLit "Questions" ++ ':' :: ' ' ::
        jstrLit e.questions ++ ',' :: '\n' :: ind3 ++ jstrLit "Answers" ++
        ':' :: ' ' :: jstrLit e.answers ++ '\n' :: ind2 ++ [rbrace])) := rfl
  rw [hobj]
  apply valOK_arr lbrace _ (qaJ e) _ (by decide) (by decide)
  intro p hp
  rw [← hobj] at hp
  rcases List.mem_cons.mp hp with rfl | hp2
  · exact valOK_qaObj e
  · simp only [List.mem_map] at hp2
    obtain ⟨x, hx, rfl⟩ := hp2
    exact valOK_qaObj x

theorem valOK_renderIntArr (n : Int) (ns : List Int) :
    ValOK (renderIntArr (n :: ns)) (Jval.jarr ((n :: ns).map Jval.jint)) := by
  have hshape : renderIntArr (n :: ns) =
      '[' :: '\n' :: (itemsText ((n :: ns).map fun x => (intChars x, Jval.jint x)) ++
        '\n' :: (ind1 ++ [']'])) := by
    simp [renderIntArr, renderIntItems_eq]
  have hmapj : Jval.jarr ((n :: ns).map Jval.jint) =
      Jval.jarr (((n :: ns).map fun x => (intChars x, Jval.jint x)).map Prod.snd) := by
    simp
  rw [hshape, hmapj, List.map_cons]
  obtain ⟨d, t, hdt⟩ := List.exists_cons_of_ne_nil (intChars_ne_nil n)
  have hdmem : d.isDigit = true ∨ d = '-' :=
    intChars_mem (by rw [hdt]; exact List.mem_cons_self d t)
  have hd1 : jsonWS d = false := by
    rcases hdmem with hdig | hdash
    · exact jsonWS_false (digit_ne hdig (by decide)) (digit_ne hdig (by decide))
        (digit_ne hdig (by decide)) (digit_ne hdig (by decide))
    · subst hdash; decide
  have hd2 : d ≠ ']' := by
    rcases hdmem with hdig | hdash
    · exact digit_ne hdig (by decide)
    · subst hdash; decide
  rw [hdt]
  apply valOK_arr d t (Jval.jint n) _ hd1 hd2
  intro p hp
  rw [← hdt] at hp
  rcases List.mem_cons.mp hp with rfl | hp2
  · exact valOK_jint n
  · simp only [List.mem_map] at hp2
    obtain ⟨x, hx, rfl⟩ := hp2
    exact valOK_jint x

theorem membersText_head (ind : List Char) (m : String × Jval × List Char) :
    ∀ rest, ∃ X, membersText ind (m :: rest) = ind ++ '"' :: X := by
  intro rest
  cases rest with
  | nil =>
    refine ⟨escapeString m.1.data ++ '"' :: (':' :: ' ' :: m.2.2), ?_⟩
    show ind ++ jstrLit m.1 ++ ':' :: ' ' :: m.2.2 = _
    simp [jstrLit]
  | cons m2 r2 =>
    refine ⟨escapeString m.1.data ++ '"' :: (':' :: ' ' ::
      (m.2.2 ++ ',' :: '\n' :: membersText ind (m2 :: r2))), ?_⟩
    show ind ++ jstrLit m.1 ++ ':' :: ' ' :: m.2.2 ++
      ',' :: '\n' :: membersText ind (m2 :: r2) = _
    simp [jstrLit]

theorem joinLines_map_lineOf : ∀ ms : List (String × Jval × List Char),
    joinLines (ms.map lineOf) = membersText ind1 ms
  | [] => rfl
  | [_] => rfl
  | m :: m2 :: rest => by
    show lineOf m ++ ',' :: '\n' :: joinLines ((m2 :: rest).map lineOf) =
      ind1 ++ jstrLit m.1 ++ ':' :: ' ' :: m.2.2 ++
        ',' :: '\n' :: membersText ind1 (m2 :: rest)
    rw [joinLines_map_lineOf (m2 :: rest)]
    simp [lineOf, fieldLine]

theorem stateMs_ne_nil (s : GoState) : stateMs s ≠ [] := by
  intro h
  have h2 := congrArg List.length h
  simp only [stateMs, List.length_append, List.length_cons,
    List.length_nil] at h2
  omega

theorem stateMs_valOK (s : GoState) : ∀ m ∈ stateMs s, ValOK m.2.2 m.2.1 := by
  have hseg1 : ∀ (c : Prop) [Decidable c] (k : String) (v : Jval) (t : List Char)
      (m : String × Jval × List Char),
      m ∈ (if c then ([] : List (String × Jval × List Char)) else [(k, v, t)]) →
        m = (k, v, t) := by
    intro c _ k v t m h
    by_cases hc : c
    · rw [if_pos hc] at h; simp at h
    · rw [if_neg hc] at h; simpa using h
  have hsegSlice : ∀ {A : Type} (o : Option (List A))
      (f : List A → String × Jval × List Char) (m : String × Jval × List Char),
      m ∈ optSlice o f → ∃ a t, o = some (a :: t) ∧ m = f (a :: t) := by
    intro A o f m h
    rcases o with _ | l
    · simp [optSlice] at h
    · rcases l with _ | ⟨a, t⟩
      · simp [optSlice] at h
      · simp [optSlice] at h
        exact ⟨a, t, rfl, h⟩
  intro m hm
  unfold stateMs at hm
  simp only [List.mem_append] at hm
  rcases hm with ((((((((((((h | h) | h) | h) | h) | h) | h) | h) | h) | h) | h)
    | h) | h) | h
  · rw [hseg1 _ _ _ _ _ h]; exact valOK_jstr _
  · rw [List.mem_singleton.mp h]; exact valOK_jstr _
  · obtain ⟨a, t, -, rfl⟩ := hsegSlice _ _ _ h
    exact valOK_renderQAArr a t
  · rw [hseg1 _ _ _ _ _ h]; exact valOK_jint _
  · rw [hseg1 _ _ _ _ _ h]; exact valOK_jint _
  · rw [hseg1 _ _ _ _ _ h]; exact valOK_jint _
  · rw [hseg1 _ _ _ _ _ h]; exact valOK_jint _
  · rw [hseg1 _ _ _ _ _ h]; exact valOK_jstr _
  · rw [List.mem_singleton.mp h]; exact valOK_jint _
  · rw [hseg1 _ _ _ _ _ h]; exact valOK_jint _
  · rw [hseg1 _ _ _ _ _ h]; exact valOK_jstr _
  · obtain ⟨a, t, -, rfl⟩ := hsegSlice _ _ _ h
    exact valOK_renderIntArr a t
  · obtain ⟨a, t, -, rfl⟩ := hsegSlice _ _ _ h
    exact valOK_renderIntArr a t
  · rw [hseg1 _ _ _ _ _ h]; exact valOK_jstr _

/-- The rendered state text parses as the denoted JSON object. -/
theorem valOK_state (s : GoState) :
    ValOK (renderState s) (Jval.jobj (stateFields s)) := by
  have hshape : renderState s = lbrace :: '\n' ::
      (membersText ind1 (stateMs s) ++ '\n' :: (([] : List Char) ++ [rbrace])) := by
    show lbrace :: '\n' :: joinLines (stateLines s) ++ '\n' :: [rbrace] = _
    rw [stateLines, joinLines_map_lineOf]
    simp
  rw [hshape,
    show stateFields s = (stateMs s).map (fun m => (m.1, m.2.1)) from rfl]
  obtain ⟨m, ms2, hms⟩ := List.exists_cons_of_ne_nil (stateMs_ne_nil s)
  obtain ⟨X, hX⟩ := membersText_head ind1 m ms2
  rw [hms]
  exact valOK_obj ind1 [] (by decide) (by simp) (m :: ms2) (by simp)
    (by
      intro m2 hm2
      rw [← hms] at hm2
      exact stateMs_valOK s m2 hm2)
    X hX

theorem foldl_lookup_init (k : String) :
    ∀ (fs : List (String × Jval)) (init : Option Jval),
      fs.foldl (fun a p => if p.1 = k then some p.2 else a) init =
        match fs.foldl (fun a p => if p.1 = k then some p.2 else a) none with
        | some v => some v
        | none => init := by
  intro fs
  induction fs with
  | nil => intro init; rfl
  | cons p t ih =>
    intro init
    obtain ⟨k2, v2⟩ := p
    show t.foldl _ (if k2 = k then some v2 else init) = _
    rw [ih (if k2 = k then some v2 else init)]
    conv_rhs =>
      rw [show ((k2, v2) :: t).foldl
          (fun a p => if p.1 = k then some p.2 else a) none =
        t.foldl (fun a p => if p.1 = k then some p.2 else a)
          (if k2 = k then some v2 else none) from rfl,
        ih (if k2 = k then some v2 else none)]
    cases hF : t.foldl (fun a p => if p.1 = k then some p.2 else a) none with
    | some w => simp
    | none =>
      by_cases hk : k2 = k
      · simp [hk]
      · simp [hk]

theorem jLookup_append (fs1 fs2 : List (String × Jval)) (k : String) :
    jLookup (fs1 ++ fs2) k =
      match jLookup fs2 k with
      | some v => some v
      | none => jLookup fs1 k := by
  unfold jLookup
  rw [List.foldl_append]
  exact foldl_lookup_init k fs2 _

theorem map_ite_nil {A B : Type} (f : A → B) (c : Prop) [Decidable c] (x : A) :
    (if c then ([] : List A) else [x]).map f = if c then [] else [f x] := by
  by_cases hc : c <;> simp [hc]

theorem map_optSlice {A B C : Type} (o : Option (List A)) (g : List A → B)
    (f : B → C) : (optSlice o g).map f = optSlice o (fun l => f (g l)) := by
  rcases o with _ | (_ | ⟨a, t⟩) <;> simp [optSlice]

theorem jLookup_nil (k : String) : jLookup [] k = none := rfl

theorem jLookup_single_self (k : String) (v : Jval) :
    jLookup [(k, v)] k = some v := by
  simp [jLookup]

theorem jLookup_single_ne (k2 : String) (v : Jval) (k : String) (h : ¬k2 = k) :
    jLookup [(k2, v)] k = none := by
  simp [jLookup, h]

theorem jLookup_ite_self (c : Prop) [Decidable c] (k : String) (v : Jval) :
    jLookup (if c then [] else [(k, v)]) k = if c then none else some v := by
  by_cases hc : c <;> simp [hc, jLookup]

theorem jLookup_ite_ne (c : Prop) [Decidable c] (k2 : String) (v : Jval)
    (k : String) (h : ¬k2 = k) :
    jLookup (if c then [] else [(k2, v)]) k = none := by
  by_cases hc : c <;> simp [hc, jLookup, h]

theorem jLookup_optSlice_ne {A : Type} (o : Option (List A))
    (g : List A → String × Jval) (k : String) (h : ∀ l, ¬(g l).1 = k) :
    jLookup (optSlice o g) k = none := by
  rcases o with _ | (_ | ⟨a, t⟩) <;> simp [optSlice, jLookup, h]

theorem jLookup_optSlice_self {A : Type} (o : Option (List A))
    (g : List A → Jval) (k : String) :
    jLookup (optSlice o (fun l => (k, g l))) k =
      match o with
      | some (a :: t) => some (g (a :: t))
      | _ => none := by
  rcases o with _ | (_ | ⟨a, t⟩) <;> simp [optSlice, jLookup]

/-- `json.Unmarshal` round-trips a slice through `omitempty` up to this
collapse: an empty-but-non-nil slice is omitted and decodes as nil. -/
def collapseSlice {A : Type} (o : Option (List A)) : Option (List A) :=
  match o with
  | some (a :: t) => some (a :: t)
  | _ => none

def collapseState (s : GoState) : GoState :=
  { s with qaHistory := collapseSlice s.qaHistory,
           dependsOn := collapseSlice s.dependsOn,
           blockedBy := collapseSlice s.blockedBy }

theorem optSlice_none {A B : Type} (f : List A → B) :
    optSlice (none : Option (List A)) f = [] := rfl

theorem optSlice_some_nil {A B : Type} (f : List A → B) :
    optSlice (some ([] : List A)) f = [] := rfl

theorem optSlice_some_cons {A B : Type} (f : List A → B) (a : A) (t : List A) :
    optSlice (some (a :: t)) f = [f (a :: t)] := rfl

theorem jLookup_cons (k2 : String) (v : Jval) (t : List (String × Jval))
    (k : String) :
    jLookup ((k2, v) :: t) k =
      match jLookup t k with
      | some w => some w
      | none => if k2 = k then some v else none := by
  show t.foldl (fun acc p => if p.1 = k then some p.2 else acc)
      (if k2 = k then some v else none) = _
  exact foldl_lookup_init k t _

theorem sfl_sessionID (s : GoState) :
    jLookup (stateFields s) "session_id" =
      if s.sessionID = "" then none else some (Jval.jstr s.sessionID) := by
  unfold stateFields stateMs
  by_cases hc : s.sessionID = "" <;>
    simp [hc, List.map_append, map_ite_nil, map_optSlice, jLookup_append, jLookup_cons,
      jLookup_ite_ne, jLookup_single_ne, jLookup_optSlice_ne,
      jLookup_ite_self, jLookup_single_self, jLookup_nil]

theorem sfl_currentPhase (s : GoState) :
    jLookup (stateFields s) "current_phase" = some (Jval.jstr s.currentPhase) := by
  unfold stateFields stateMs
  simp [List.map_append, map_ite_nil, map_optSlice, jLookup_append, jLookup_cons,
    jLookup_ite_ne, jLookup_single_ne, jLookup_optSlice_ne,
    jLookup_ite_self, jLookup_single_self, jLookup_nil]

theorem sfl_qaHistory (s : GoState) :
    jLookup (stateFields s) "qa_history" =
      match s.qaHistory with
      | some (e :: t) => some (Jval.jarr ((e :: t).map qaJ))
      | _ => none := by
  unfold stateFields stateMs
  rcases hq : s.qaHistory with _ | (_ | ⟨e, t⟩) <;>
    simp [hq, optSlice_none, optSlice_some_nil, optSlice_some_cons, List.map_append, map_ite_nil, map_optSlice,
      jLookup_append, jLookup_cons, jLookup_ite_ne, jLookup_single_ne, jLookup_optSlice_ne,
      jLookup_ite_self, jLookup_single_self, jLookup_nil]

theorem sfl_qaRound (s : GoState) :
    jLookup (stateFields s) "qa_round" =
      if s.qaRound = 0 then none else some (Jval.jint s.qaRound) := by
  unfold stateFields stateMs
  by_cases hc : s.qaRound = 0 <;>
    simp [hc, List.map_append, map_ite_nil, map_optSlice, jLookup_append, jLookup_cons,
      jLookup_ite_ne, jLookup_single_ne, jLookup_optSlice_ne,
      jLookup_ite_self, jLookup_single_self, jLookup_nil]

theorem sfl_planVersion (s : GoState) :
    jLookup (stateFields s) "plan_version" =
      if s.planVersion = 0 then none else some (Jval.jint s.planVersion) := by
  unfold stateFields stateMs
  by_cases hc : s.planVersion = 0 <;>
    simp [hc, List.map_append, map_ite_nil, map_optSlice, jLookup_append, jLookup_cons,
      jLookup_ite_ne, jLookup_single_ne, jLookup_optSlice_ne,
      jLookup_ite_self, jLookup_single_self, jLookup_nil]

theorem sfl_reviewIteration (s : GoState) :
    jLookup (stateFields s) "review_iteration" =
      if s.reviewIteration = 0 then none else some (Jval.jint s.reviewIteration) := by
  unfold stateFields stateMs
  by_cases hc : s.reviewIteration = 0 <;>
    simp [hc, List.map_append, map_ite_nil, map_optSlice, jLookup_append, jLookup_cons,
      jLookup_ite_ne, jLookup_single_ne, jLookup_optSlice_ne,
      jLookup_ite_self, jLookup_single_self, jLookup_nil]

theorem sfl_prNumber (s : GoState) :
    jLookup (stateFields s) "pr_number" =
      if s.prNumber = 0 then none else some (Jval.jint s.prNumber) := by
  by_cases hc : s.prNumber = 0 <;>
  · unfold stateFields stateMs
    simp [hc, List.map_append, map_ite_nil, map_optSlice, jLookup_append, jLookup_cons,
      jLookup_ite_ne, jLookup_single_ne, jLookup_optSlice_ne,
      jLookup_ite_self, jLookup_single_self, jLookup_nil]

theorem sfl_branchName (s : GoState) :
    jLookup (stateFields s) "branch_name" =
      if s.branchName = "" then none else some (Jval.jstr s.branchName) := by
  by_cases hc : s.branchName = "" <;>
  · unfold stateFields stateMs
    simp [hc, List.map_append, map_ite_nil, map_optSlice, jLookup_append, jLookup_cons,
      jLookup_ite_ne, jLookup_single_ne, jLookup_optSlice_ne,
      jLookup_ite_self, jLookup_single_self, jLookup_nil]

theorem sfl_lastUpdated (s : GoState) :
    jLookup (stateFields s) "last_updated" = some (Jval.jint s.lastUpdated) := by
  unfold stateFields stateMs
  simp [List.map_append, map_ite_nil, map_optSlice, jLookup_append, jLookup_cons,
    jLookup_ite_ne, jLookup_single_ne, jLookup_optSlice_ne,
    jLookup_ite_self, jLookup_single_self, jLookup_nil]

theorem sfl_lastCommentID (s : GoState) :
    jLookup (stateFields s) "last_comment_id" =
      if s.lastCommentID = 0 then none else some (Jval.jint s.lastCommentID) := by
  by_cases hc : s.lastCommentID = 0 <;>
  · unfold stateFields stateMs
    simp [hc, List.map_append, map_ite_nil, map_optSlice, jLookup_append, jLookup_cons,
      jLookup_ite_ne, jLookup_single_ne, jLookup_optSlice_ne,
      jLookup_ite_self, jLookup_single_self, jLookup_nil]

theorem sfl_error (s : GoState) :
    jLookup (stateFields s) "error" =
      if s.error = "" then none else some (Jval.jstr s.error) := by
  by_cases hc : s.error = "" <;>
  · unfold stateFields stateMs
    simp [hc, List.map_append, map_ite_nil, map_optSlice, jLookup_append, jLookup_cons,
      jLookup_ite_ne, jLookup_single_ne, jLookup_optSlice_ne,
      jLookup_ite_self, jLookup_single_self, jLookup_nil]

theorem sfl_dependsOn (s : GoState) :
    jLookup (stateFields s) "depends_on" =
      match s.dependsOn with
      | some (n :: t) => some (Jval.jarr ((n :: t).map Jval.jint))
      | _ => none := by
  unfold stateFields stateMs
  rcases hq : s.dependsOn with _ | (_ | ⟨n, t⟩) <;>
    simp [hq, optSlice_none, optSlice_some_nil, optSlice_some_cons, List.map_append, map_ite_nil, map_optSlice,
      jLookup_append, jLookup_cons, jLookup_ite_ne, jLookup_single_ne, jLookup_optSlice_ne,
      jLookup_ite_self, jLookup_single_self, jLookup_nil]

theorem sfl_blockedBy (s : GoState) :
    jLookup (stateFields s) "blocked_by" =
      match s.blockedBy with
      | some (n :: t) => some (Jval.jarr ((n :: t).map Jval.jint))
      | _ => none := by
  unfold stateFields stateMs
  rcases hq : s.blockedBy with _ | (_ | ⟨n, t⟩) <;>
    simp [hq, optSlice_none, optSlice_some_nil, optSlice_some_cons, List.map_append, map_ite_nil, map_optSlice,
      jLookup_append, jLookup_cons, jLookup_ite_ne, jLookup_single_ne, jLookup_optSlice_ne,
      jLookup_ite_self, jLookup_single_self, jLookup_nil]

theorem sfl_failureReason (s : GoState) :
    jLookup (stateFields s) "failure_reason" =
      if s.failureReason = "" then none else some (Jval.jstr s.failureReason) := by
  by_cases hc : s.failureReason = "" <;>
  · unfold stateFields stateMs
    simp [hc, List.map_append, map_ite_nil, map_optSlice, jLookup_append, jLookup_cons,
      jLookup_ite_ne, jLookup_single_ne, jLookup_optSlice_ne,
      jLookup_ite_self, jLookup_single_self, jLookup_nil]

theorem jAsQA_qaJ (e : QAEntry) : jAsQA (qaJ e) = some e := by
  simp [jAsQA, qaJ, jGetStr, jLookup]

theorem jAsInt_jint (n : Int) : jAsInt (Jval.jint n) = some n := rfl

theorem mapM_loop_jAsQA : ∀ (l acc : List QAEntry),
    List.mapM.loop jAsQA (l.map qaJ) acc = some (acc.reverse ++ l) := by
  intro l
  induction l with
  | nil => intro acc; simp [List.mapM.loop]
  | cons e t ih =>
    intro acc
    simp [List.mapM.loop, jAsQA_qaJ, ih (e :: acc)]

theorem mapM_jAsQA (l : List QAEntry) : (l.map qaJ).mapM jAsQA = some l := by
  have h := mapM_loop_jAsQA l []
  simpa using h

theorem mapM_loop_jAsInt : ∀ (l acc : List Int),
    List.mapM.loop jAsInt (l.map Jval.jint) acc = some (acc.reverse ++ l) := by
  intro l
  induction l with
  | nil => intro acc; simp [List.mapM.loop]
  | cons n t ih =>
    intro acc
    simp [List.mapM.loop, jAsInt_jint, ih (n :: acc)]

theorem mapM_jAsInt (l : List Int) : (l.map Jval.jint).mapM jAsInt = some l := by
  have h := mapM_loop_jAsInt l []
  simpa using h

theorem sfget_sessionID (s : GoState) :
    jGetStr (stateFields s) "session_id" = some s.sessionID := by
  unfold jGetStr
  rw [sfl_sessionID]
  by_cases hc : s.sessionID = "" <;> simp [hc]

theorem sfget_currentPhase (s : GoState) :
    jGetStr (stateFields s) "current_phase" = some s.currentPhase := by
  unfold jGetStr
  rw [sfl_currentPhase]

theorem sfget_qaHistory (s : GoState) :
    jGetQAList (stateFields s) "qa_history" = some (collapseSlice s.qaHistory) := by
  unfold jGetQAList
  rw [sfl_qaHistory]
  rcases hq : s.qaHistory with _ | (_ | ⟨e, t⟩)
  · simp [collapseSlice]
  · simp [collapseSlice]
  · have h := mapM_loop_jAsQA (e :: t) []
    simp at h
    simp [collapseSlice, h]

theorem sfget_qaRound (s : GoState) :
    jGetInt (stateFields s) "qa_round" = some s.qaRound := by
  unfold jGetInt
  rw [sfl_qaRound]
  by_cases hc : s.qaRound = 0 <;> simp [hc]

theorem sfget_planVersion (s : GoState) :
    jGetInt (stateFields s) "plan_version" = some s.planVersion := by
  unfold jGetInt
  rw [sfl_planVersion]
  by_cases hc : s.planVersion = 0 <;> simp [hc]

theorem sfget_reviewIteration (s : GoState) :
    jGetInt (stateFields s) "review_iteration" = some s.reviewIteration := by
  unfold jGetInt
  rw [sfl_reviewIteration]
  by_cases hc : s.reviewIteration = 0 <;> simp [hc]

theorem sfget_prNumber (s : GoState) :
    jGetInt (stateFields s) "pr_number" = some s.prNumber := by
  unfold jGetInt
  rw [sfl_prNumber]
  by_cases hc : s.prNumber = 0 <;> simp [hc]

theorem sfget_branchName (s : GoState) :
    jGetStr (stateFields s) "branch_name" = some s.branchName := by
  unfold jGetStr
  rw [sfl_branchName]
  by_cases hc : s.branchName = "" <;> simp [hc]

theorem sfget_lastUpdated (s : GoState) :
    jGetInt (stateFields s) "last_updated" = some s.lastUpdated := by
  unfold jGetInt
  rw [sfl_lastUpdated]

theorem sfget_lastCommentID (s : GoState) :
    jGetInt (stateFields s) "last_comment_id" = some s.lastCommentID := by
  unfold jGetInt
  rw [sfl_lastCommentID]
  by_cases hc : s.lastCommentID = 0 <;> simp [hc]

theorem sfget_error (s : GoState) :
    jGetStr (stateFields s) "error" = some s.error := by
  unfold jGetStr
  rw [sfl_error]
  by_cases hc : s.error = "" <;> simp [hc]

theorem sfget_dependsOn (s : GoState) :
    jGetIntList (stateFields s) "depends_on" = some (collapseSlice s.dependsOn) := by
  unfold jGetIntList
  rw [sfl_dependsOn]
  rcases hq : s.dependsOn with _ | (_ | ⟨n, t⟩)
  · simp [collapseSlice]
  · simp [collapseSlice]
  · have h := mapM_loop_jAsInt (n :: t) []
    simp at h
    simp [collapseSlice, h]

theorem sfget_blockedBy (s : GoState) :
    jGetIntList (stateFields s) "blocked_by" = some (collapseSlice s.blockedBy) := by
  unfold jGetIntList
  rw [sfl_blockedBy]
  rcases hq : s.blockedBy with _ | (_ | ⟨n, t⟩)
  · simp [collapseSlice]
  · simp [collapseSlice]
  · have h := mapM_loop_jAsInt (n :: t) []
    simp at h
    simp [collapseSlice, h]

theorem sfget_failureReason (s : GoState) :
    jGetStr (stateFields s) "failure_reason" = some s.failureReason := by
  unfold jGetStr
  rw [sfl_failureReason]
  by_cases hc : s.failureReason = "" <;> simp [hc]

/-- `json.Unmarshal` on the object `MarshalIndent` denotes: every field
comes back, except that omitted empty slices come back as nil. -/
theorem decode_stateFields (s : GoState) :
    decodeState (Jval.jobj (stateFields s)) = some (collapseState s) := by
  simp only [decodeState, sfget_sessionID, sfget_currentPhase, sfget_qaHistory,
    sfget_qaRound, sfget_planVersion, sfget_reviewIteration, sfget_prNumber,
    sfget_branchName, sfget_lastUpdated, sfget_lastCommentID, sfget_error,
    sfget_dependsOn, sfget_blockedBy, sfget_failureReason, Option.some_bind]
  rfl

theorem hexDigit_ne_gt (m : Nat) (hm : m < 16) : ¬hexDigit m = '>' := by
  unfold hexDigit
  split <;> intro heq <;>
    (have h2 := congrArg Char.toNat heq
     rw [toNat_ofNat_small (by omega)] at h2
     rw [show Char.toNat '>' = 62 from rfl] at h2
     omega)

/-- The HTML-escaping marshaller never emits a literal `>`. -/
theorem escapeChar_no_gt (c : Char) : '>' ∉ escapeChar c := by
  unfold escapeChar
  by_cases h1 : c = '"'
  · rw [if_pos h1]; decide
  rw [if_neg h1]
  by_cases h2 : c = '\\'
  · rw [if_pos h2]; decide
  rw [if_neg h2]
  by_cases h3 : c = '\n'
  · rw [if_pos h3]; decide
  rw [if_neg h3]
  by_cases h4 : c = '\r'
  · rw [if_pos h4]; decide
  rw [if_neg h4]
  by_cases h5 : c = '\t'
  · rw [if_pos h5]; decide
  rw [if_neg h5]
  by_cases h6 : c.toNat < 32
  · rw [if_pos h6]
    intro hmem
    simp at hmem
    rcases hmem with h | h
    · exact hexDigit_ne_gt _ (by omega) h.symm
    · exact hexDigit_ne_gt _ (by omega) h.symm
  rw [if_neg h6]
  by_cases h7 : c = '<'
  · rw [if_pos h7]; decide
  rw [if_neg h7]
  by_cases h8 : c = '>'
  · rw [if_pos h8]; decide
  rw [if_neg h8]
  by_cases h9 : c = '&'
  · rw [if_pos h9]; decide
  rw [if_neg h9]
  by_cases h10 : c.toNat = 8232
  · rw [if_pos h10]; decide
  rw [if_neg h10]
  by_cases h11 : c.toNat = 8233
  · rw [if_pos h11]; decide
  rw [if_neg h11]
  intro hmem
  rcases List.mem_singleton.mp hmem with rfl
  exact h8 rfl

theorem escapeString_no_gt (cs : List Char) : '>' ∉ escapeString cs := by
  unfold escapeString
  intro h
  rcases List.mem_flatten.mp h with ⟨l, hl, hc⟩
  rcases List.mem_map.mp hl with ⟨c, _, rfl⟩
  exact escapeChar_no_gt c hc

theorem jstrLit_no_gt (x : String) : '>' ∉ jstrLit x := by
  unfold jstrLit
  intro h
  rcases List.mem_cons.mp h with h2 | h2
  · exact absurd h2 (by decide)
  rcases List.mem_append.mp h2 with h3 | h3
  · exact escapeString_no_gt _ h3
  · rcases List.mem_singleton.mp h3 with h4
    exact absurd h4 (by decide)

theorem intChars_no_gt (n : Int) : '>' ∉ intChars n := by
  intro h
  rcases intChars_mem h with h2 | h2
  · exact absurd h2 (by decide)
  · exact absurd h2 (by decide)

theorem no_gt_append {a b : List Char} (ha : '>' ∉ a) (hb : '>' ∉ b) :
    '>' ∉ a ++ b := by
  intro h
  rcases List.mem_append.mp h with h | h
  exacts [ha h, hb h]

theorem no_gt_cons {c : Char} {a : List Char} (hc : ¬c = '>') (ha : '>' ∉ a) :
    '>' ∉ c :: a := by
  intro h
  rcases List.mem_cons.mp h with h | h
  exacts [hc h.symm, ha h]

theorem renderQAObj_no_gt (e : QAEntry) : '>' ∉ renderQAObj e := by
  unfold renderQAObj
  repeat' first
    | exact jstrLit_no_gt _
    | apply no_gt_append
    | apply no_gt_cons (by decide)
    | decide

theorem renderQAItems_no_gt : ∀ xs : List QAEntry, '>' ∉ renderQAItems xs
  | [] => by simp [renderQAItems]
  | [e] => by
    unfold renderQAItems
    exact no_gt_append (by decide) (renderQAObj_no_gt e)
  | e :: e2 :: rest => by
    unfold renderQAItems
    repeat' first
      | exact renderQAObj_no_gt _
      | exact renderQAItems_no_gt (e2 :: rest)
      | apply no_gt_append
      | apply no_gt_cons (by decide)
      | decide

theorem renderQAArr_no_gt (xs : List QAEntry) : '>' ∉ renderQAArr xs := by
  unfold renderQAArr
  repeat' first
    | exact renderQAItems_no_gt _
    | apply no_gt_append
    | apply no_gt_cons (by decide)
    | decide

theorem renderIntItems_no_gt : ∀ xs : List Int, '>' ∉ renderIntItems xs
  | [] => by simp [renderIntItems]
  | [n] => by
    unfold renderIntItems
    exact no_gt_append (by decide) (intChars_no_gt n)
  | n :: n2 :: rest => by
    unfold renderIntItems
    repeat' first
      | exact intChars_no_gt _
      | exact renderIntItems_no_gt (n2 :: rest)
      | apply no_gt_append
      | apply no_gt_cons (by decide)
      | decide

theorem renderIntArr_no_gt (xs : List Int) : '>' ∉ renderIntArr xs := by
  unfold renderIntArr
  repeat' first
    | exact renderIntItems_no_gt _
    | apply no_gt_append
    | apply no_gt_cons (by decide)
    | decide

theorem stateMs_no_gt (s : GoState) :
    ∀ m ∈ stateMs s, '>' ∉ m.2.2 := by
  intro m hm
  unfold stateMs at hm
  simp only [List.mem_append] at hm
  have hseg1 : ∀ (c : Prop) [Decidable c] (x : String × Jval × List Char),
      m ∈ (if c then [] else [x]) → m = x := by
    intro c hc x hmem
    by_cases h : c
    · rw [if_pos h] at hmem; cases hmem
    · rw [if_neg h] at hmem; exact List.mem_singleton.mp hmem
  rcases hm with ((((((((((((h | h) | h) | h) | h) | h) | h) | h) | h) | h) | h)
      | h) | h) | h
  · rw [hseg1 _ _ h]; exact jstrLit_no_gt _
  · rw [List.mem_singleton.mp h]; exact jstrLit_no_gt _
  · rcases hq : s.qaHistory with _ | (_ | ⟨e, t⟩)
    · rw [hq] at h; simp [optSlice] at h
    · rw [hq] at h; simp [optSlice] at h
    · rw [hq] at h; simp [optSlice] at h
      rw [h]; exact renderQAArr_no_gt _
  · rw [hseg1 _ _ h]; exact intChars_no_gt _
  · rw [hseg1 _ _ h]; exact intChars_no_gt _
  · rw [hseg1 _ _ h]; exact intChars_no_gt _
  · rw [hseg1 _ _ h]; exact intChars_no_gt _
  · rw [hseg1 _ _ h]; exact jstrLit_no_gt _
  · rw [List.mem_singleton.mp h]; exact intChars_no_gt _
  · rw [hseg1 _ _ h]; exact intChars_no_gt _
  · rw [hseg1 _ _ h]; exact jstrLit_no_gt _
  · rcases hq : s.dependsOn with _ | (_ | ⟨n, t⟩)
    · rw [hq] at h; simp [optSlice] at h
    · rw [hq] at h; simp [optSlice] at h
    · rw [hq] at h; simp [optSlice] at h
      rw [h]; exact renderIntArr_no_gt _
  · rcases hq : s.blockedBy with _ | (_ | ⟨n, t⟩)
    · rw [hq] at h; simp [optSlice] at h
    · rw [hq] at h; simp [optSlice] at h
    · rw [hq] at h; simp [optSlice] at h
      rw [h]; exact renderIntArr_no_gt _
  · rw [hseg1 _ _ h]; exact jstrLit_no_gt _

theorem fieldLine_no_gt (k : String) (v : List Char) (hv : '>' ∉ v) :
    '>' ∉ fieldLine k v := by
  unfold fieldLine
  repeat' first
    | exact hv
    | exact jstrLit_no_gt _
    | apply no_gt_append
    | apply no_gt_cons (by decide)
    | decide

theorem joinLines_no_gt : ∀ ls : List (List Char),
    (∀ l ∈ ls, '>' ∉ l) → '>' ∉ joinLines ls
  | [] => by intro _; simp [joinLines]
  | [l] => by
    intro hls
    unfold joinLines
    exact hls l (List.mem_singleton.mpr rfl)
  | l :: l2 :: rest => by
    intro hls
    unfold joinLines
    refine no_gt_append (hls l (by simp)) (no_gt_cons (by decide)
      (no_gt_cons (by decide) ?_))
    exact joinLines_no_gt (l2 :: rest) (fun x hx => hls x (by simp [hx]))

/-- The serialized JSON block contains no `>`, so the first `-->` after
the start marker is the serializer's own end marker. -/
theorem renderState_no_gt (s : GoState) : '>' ∉ renderState s := by
  unfold renderState
  have hjl : '>' ∉ joinLines (stateLines s) := by
    refine joinLines_no_gt (stateLines s) ?_
    intro l hl
    unfold stateLines at hl
    rcases List.mem_map.mp hl with ⟨m, hm, rfl⟩
    exact fieldLine_no_gt m.1 m.2.2 (stateMs_no_gt s m hm)
  exact no_gt_append (no_gt_cons (by decide) (no_gt_cons (by decide) hjl))
    (by decide)

/-- `strings.Index` semantics: `findSub` returns the position of the
first occurrence. -/
theorem findSub_eq_some (pat : List Char) : ∀ (cs : List Char) (n : Nat),
    pat.isPrefixOf (cs.drop n) = true →
    (∀ j, j < n → pat.isPrefixOf (cs.drop j) = false) →
    findSub pat cs = some n := by
  intro cs
  induction cs with
  | nil =>
    intro n h1 h2
    rw [List.drop_nil] at h1
    cases n with
    | zero =>
      have hp : pat = [] := by
        cases pat with
        | nil => rfl
        | cons a t => simp [List.isPrefixOf] at h1
      unfold findSub
      rw [if_pos hp]
    | succ n2 =>
      have h0 := h2 0 (Nat.succ_pos n2)
      rw [List.drop_nil] at h0
      rw [h1] at h0
      simp at h0
  | cons c t ih =>
    intro n h1 h2
    unfold findSub
    cases n with
    | zero =>
      rw [List.drop_zero] at h1
      rw [if_pos h1]
    | succ n2 =>
      have h0 := h2 0 (Nat.succ_pos n2)
      rw [List.drop_zero] at h0
      rw [if_neg (by simp [h0])]
      have h1' : pat.isPrefixOf (t.drop n2) = true := h1
      rw [ih n2 h1' (fun j hj => h2 (j + 1) (by omega))]
      rfl

/-- Since the JSON block holds no `>`, the first `-->` after the start
marker is the end marker `Serialize` wrote. -/
theorem findSub_endMarker (R suf : List Char) (hR : '>' ∉ R) :
    findSub endMarker (('\n' :: (R ++ ['\n'])) ++ (endMarker ++ suf)) =
      some ('\n' :: (R ++ ['\n'])).length := by
  apply findSub_eq_some
  · rw [List.drop_left]
    exact List.isPrefixOf_iff_prefix.mpr (List.prefix_append _ _)
  · intro j hj
    cases hb : endMarker.isPrefixOf
        ((('\n' :: (R ++ ['\n'])) ++ (endMarker ++ suf)).drop j) with
    | false => rfl
    | true =>
    exfalso
    obtain ⟨w, hw⟩ := List.isPrefixOf_iff_prefix.mp hb
    have hgt : (('\n' :: (R ++ ['\n'])) ++ (endMarker ++ suf))[j + 2]? =
        some '>' := by
      rw [← List.getElem?_drop]
      rw [← hw]
      rw [List.getElem?_append_left (by decide : 2 < endMarker.length)]
      rfl
    have hTlen : ('\n' :: (R ++ ['\n'])).length = R.length + 2 := by simp
    by_cases hcase : j + 2 < ('\n' :: (R ++ ['\n'])).length
    · rw [List.getElem?_append_left hcase] at hgt
      have hmem : '>' ∈ '\n' :: (R ++ ['\n']) := List.mem_iff_getElem?.mpr ⟨j + 2, hgt⟩
      rcases List.mem_cons.mp hmem with h | h
      · exact absurd h (by decide)
      rcases List.mem_append.mp h with h | h
      · exact hR h
      · exact absurd (List.mem_singleton.mp h) (by decide)
    · push_neg at hcase
      rw [List.getElem?_append_right hcase] at hgt
      rw [hTlen] at hj
      have hj2 : j + 2 - ('\n' :: (R ++ ['\n'])).length = 0 ∨
          j + 2 - ('\n' :: (R ++ ['\n'])).length = 1 := by
        rw [hTlen]
        omega
      rcases hj2 with h0 | h0 <;> rw [h0] at hgt
      · rw [List.getElem?_append_left (by decide : 0 < endMarker.length)] at hgt
        exact absurd hgt (by decide)
      · rw [List.getElem?_append_left (by decide : 1 < endMarker.length)] at hgt
        exact absurd hgt (by decide)

theorem renderState_shape (s : GoState) :
    renderState s =
      (lbrace :: '\n' :: joinLines (stateLines s) ++ ['\n']) ++ [rbrace] := by
  unfold renderState
  simp [List.cons_append, List.append_assoc]

/-- `strings.TrimSpace` recovers exactly the JSON block between the
markers: the block starts with `{` and ends with `}`, neither a space. -/
theorem trimSpace_render (s : GoState) :
    trimSpace ('\n' :: (renderState s ++ ['\n'])) = renderState s := by
  unfold trimSpace
  have h1 : List.dropWhile goIsSpace ('\n' :: (renderState s ++ ['\n'])) =
      renderState s ++ ['\n'] := by
    rw [List.dropWhile_cons, if_pos (by decide : goIsSpace '\n' = true)]
    rw [renderState_shape]
    simp only [List.cons_append, List.append_assoc]
    rw [List.dropWhile_cons, if_neg (by decide : ¬goIsSpace lbrace = true)]
  rw [h1]
  have h2 : (renderState s ++ ['\n']).reverse = '\n' :: rbrace ::
      (lbrace :: '\n' :: joinLines (stateLines s) ++ ['\n']).reverse := by
    rw [renderState_shape]
    simp [List.reverse_append]
  rw [h2]
  rw [List.dropWhile_cons, if_pos (by decide : goIsSpace '\n' = true)]
  rw [List.dropWhile_cons, if_neg (by decide : ¬goIsSpace rbrace = true)]
  rw [show (rbrace ::
      (lbrace :: '\n' :: joinLines (stateLines s) ++ ['\n']).reverse).reverse =
      (lbrace :: '\n' :: joinLines (stateLines s) ++ ['\n']) ++ [rbrace] from
    by simp]
  exact (renderState_shape s).symm

/-- The fuel `parseJVal` allots suffices for the rendered state, and
the parse consumes the whole block. -/
theorem parseJVal_render (s : GoState) :
    parseJVal (renderState s) = some (Jval.jobj (stateFields s), []) := by
  unfold parseJVal
  have h := valOK_state s (2 * (renderState s).length + 2) []
    (le_refl _) (by intro c hc; simp at hc)
  rw [List.append_nil] at h
  rw [h]

/-- `Parse` applied to a body that embeds `Serialize`'s output (with the
start marker first appearing at the fragment) recovers the state up to
the `omitempty` slice collapse. -/
theorem ParseBody_embed (s : GoState) (now : Int) (pre suf : List Char)
    (hpre : ∀ j, j < pre.length →
      startMarker.isPrefixOf ((pre ++ SerializeState s now ++ suf).drop j) = false) :
    ParseBody (pre ++ SerializeState s now ++ suf) =
      some (collapseState { s with lastUpdated := now }) := by
  have hbody : pre ++ SerializeState s now ++ suf =
      (pre ++ startMarker) ++
        (('\n' :: (renderState { s with lastUpdated := now } ++ ['\n'])) ++
          (endMarker ++ suf)) := by
    unfold SerializeState
    simp [List.cons_append, List.append_assoc]
  have hfs1 : findSub startMarker (pre ++ SerializeState s now ++ suf) =
      some pre.length := by
    apply findSub_eq_some
    · rw [hbody, List.append_assoc, List.drop_left]
      exact List.isPrefixOf_iff_prefix.mpr (List.prefix_append _ _)
    · exact hpre
  have hdrop : (pre ++ SerializeState s now ++ suf).drop
        (pre.length + startMarker.length) =
      ('\n' :: (renderState { s with lastUpdated := now } ++ ['\n'])) ++
        (endMarker ++ suf) := by
    rw [hbody, ← List.length_append]
    exact List.drop_left _ _
  have hfs2 := findSub_endMarker (renderState { s with lastUpdated := now })
    suf (renderState_no_gt _)
  simp only [ParseBody, hfs1, hdrop, hfs2, List.take_left, trimSpace_render,
    parseJVal_render]
  rw [if_pos (show jskipWS [] = [] from rfl)]
  exact decode_stateFields _

/-- C2: Round-trip of the comment-embedded state.  `Parse` applied to
the output of `Serialize` — also when the fragment is embedded in
surrounding text whose earlier part contains no start marker —
reproduces the record field-for-field except `LastUpdated`, which
`Serialize` overwrites with the serialization time, provided no slice
field is empty-but-non-nil.  (Without that proviso the claim fails:
`omitempty` drops a zero-length slice, so an empty non-nil slice decodes
back as nil — see the counterexample.) -/
theorem C2_serialize_parse_roundtrip (s : GoState) (now : Int)
    (pre suf : List Char)
    (hpre : ∀ j, j < pre.length →
      startMarker.isPrefixOf ((pre ++ SerializeState s now ++ suf).drop j) = false)
    (hqa : ¬s.qaHistory = some []) (hdep : ¬s.dependsOn = some [])
    (hblk : ¬s.blockedBy = some []) :
    ParseBody (pre ++ SerializeState s now ++ suf) =
      some { s with lastUpdated := now } := by
  rw [ParseBody_embed s now pre suf hpre]
  have hcol : collapseState { s with lastUpdated := now } =
      { s with lastUpdated := now } := by
    unfold collapseState
    rcases hq : s.qaHistory with _ | (_ | ⟨e, t⟩) <;>
      rcases hd : s.dependsOn with _ | (_ | ⟨n1, t1⟩) <;>
        rcases hb2 : s.blockedBy with _ | (_ | ⟨n2, t2⟩) <;>
          first
            | exact absurd hq hqa
            | exact absurd hd hdep
            | exact absurd hb2 hblk
            | simp [collapseSlice, hq, hd, hb2]
  rw [hcol]

/-- Witness for C2: a concrete state embedded between plain text round-trips
exactly, with `LastUpdated` replaced by the serialization instant. -/
theorem C2_serialize_parse_roundtrip_witness :
    ParseBody ("Hi ".data ++
        SerializeState ⟨"", "new", none, 0, 0, 0, 0, "", 0, 0, "", none, none, ""⟩ 5 ++
        " bye".data) =
      some ⟨"", "new", none, 0, 0, 0, 0, "", 5, 0, "", none, none, ""⟩ :=
  C2_serialize_parse_roundtrip ⟨"", "new", none, 0, 0, 0, 0, "", 0, 0, "", none, none, ""⟩
    5 "Hi ".data " bye".data (by decide) (by decide) (by decide) (by decide)

/-- Counterexample to the unqualified claim: a state whose `DependsOn`
is an empty non-nil slice does not round-trip field-for-field —
`omitempty` omits the empty slice and it decodes back as nil. -/
theorem C2_counterexample_empty_slice :
    ParseBody (SerializeState
        ⟨"", "new", none, 0, 0, 0, 0, "", 0, 0, "", some [], none, ""⟩ 5) =
      some ⟨"", "new", none, 0, 0, 0, 0, "", 5, 0, "", none, none, ""⟩ ∧
    ¬ParseBody (SerializeState
        ⟨"", "new", none, 0, 0, 0, 0, "", 0, 0, "", some [], none, ""⟩ 5) =
      some ⟨"", "new", none, 0, 0, 0, 0, "", 5, 0, "", some [], none, ""⟩ := by
  constructor
  · decide
  · decide

/-! ## `IsBotComment` and the orchestrator's reply scan
(`state.go` `IsBotComment`; `orchestrator.go` `handleQuestions` /
`handleApproval`; `security/auth.go` `IsAuthorized`) -/

/-- If `pat` occurs at position `n`, `findSub` returns some position
`≤ n`. -/
theorem findSub_le (pat : List Char) : ∀ (cs : List Char) (n : Nat),
    pat.isPrefixOf (cs.drop n) = true →
    ∃ i, findSub pat cs = some i ∧ i ≤ n := by
  intro cs
  induction cs with
  | nil =>
    intro n h1
    rw [List.drop_nil] at h1
    have hp : pat = [] := by
      cases pat with
      | nil => rfl
      | cons a t => simp [List.isPrefixOf] at h1
    exact ⟨0, by unfold findSub; rw [if_pos hp], Nat.zero_le n⟩
  | cons c t ih =>
    intro n h1
    unfold findSub
    by_cases h0 : pat.isPrefixOf (c :: t) = true
    · exact ⟨0, by rw [if_pos h0], Nat.zero_le n⟩
    · cases n with
      | zero =>
        rw [List.drop_zero] at h1
        exact absurd h1 h0
      | succ n2 =>
        obtain ⟨i, hfi, hile⟩ := ih n2 h1
        refine ⟨i + 1, ?_, by omega⟩
        rw [if_neg h0, hfi]
        rfl

/-- Any body that embeds a serialized state fragment matches the state
regex: the first start marker (wherever it is) is followed by the
fragment's own `-->`. -/
theorem containsStateFragment_embed (s : GoState) (now : Int)
    (pre suf : List Char) :
    containsStateFragment (pre ++ SerializeState s now ++ suf) = true := by
  have hbody : pre ++ SerializeState s now ++ suf =
      ((pre ++ startMarker) ++
          ('\n' :: (renderState { s with lastUpdated := now } ++ ['\n']))) ++
        (endMarker ++ suf) := by
    unfold SerializeState
    simp [List.cons_append, List.append_assoc]
  have hsm : startMarker.isPrefixOf
      ((pre ++ SerializeState s now ++ suf).drop pre.length) = true := by
    rw [hbody, List.append_assoc, List.append_assoc, List.drop_left]
    exact List.isPrefixOf_iff_prefix.mpr (List.prefix_append _ _)
  obtain ⟨i, hfi, hile⟩ := findSub_le startMarker _ pre.length hsm
  unfold containsStateFragment
  rw [hfi]
  show (findSub endMarker
      ((pre ++ SerializeState s now ++ suf).drop (i + startMarker.length))).isSome =
    true
  have hle : i + startMarker.length ≤
      ((pre ++ startMarker) ++
        ('\n' :: (renderState { s with lastUpdated := now } ++ ['\n']))).length := by
    simp [List.length_append]
    omega
  have hem : endMarker.isPrefixOf
      (((pre ++ SerializeState s now ++ suf).drop (i + startMarker.length)).drop
        (((pre ++ startMarker) ++
            ('\n' :: (renderState { s with lastUpdated := now } ++ ['\n']))).length -
          (i + startMarker.length))) = true := by
    rw [List.drop_drop, Nat.add_sub_cancel' hle, hbody, List.drop_left]
    exact List.isPrefixOf_iff_prefix.mpr (List.prefix_append _ _)
  obtain ⟨m, hfm, _⟩ := findSub_le endMarker _ _ hem
  rw [hfm]
  rfl

/-- A comment as the reply scan sees it: numeric ID, author login,
body. -/
structure GComment where
  id : Int
  author : String
  body : List Char
deriving DecidableEq, Repr

/-- The selection loop of `handleQuestions` / `handleApproval`
(`for i := len(comments)-1; i >= 0; i--`, first comment with
`c.ID > st.LastCommentID && !state.IsBotComment(c.Body)`). -/
def findAnswer (comments : List GComment) (lastCommentID : Int) :
    Option GComment :=
  comments.reverse.find?
    (fun c => decide (lastCommentID < c.id) && !IsBotComment c.body)

/-- C10: `IsBotComment` is true exactly when the body contains the bot
marker or matches the state-fragment pattern; consequently a body that
embeds a serialized state fragment — even without the bot marker, such
as a human reply quoting a fragment — is classified as bot-authored and
the orchestrator's reply scan never selects it. -/
theorem C10_isBotComment :
    (∀ body, IsBotComment body = true ↔
      (containsSub botMarker body = true ∨ containsStateFragment body = true)) ∧
    (∀ (s : GoState) (now : Int) (pre suf : List Char),
      IsBotComment (pre ++ SerializeState s now ++ suf) = true) ∧
    (∀ (comments : List GComment) (lastCommentID : Int) (c : GComment),
      findAnswer comments lastCommentID = some c →
      ∀ (s : GoState) (now : Int) (pre suf : List Char),
        ¬c.body = pre ++ SerializeState s now ++ suf) := by
  have hembed : ∀ (s : GoState) (now : Int) (pre suf : List Char),
      IsBotComment (pre ++ SerializeState s now ++ suf) = true := by
    intro s now pre suf
    unfold IsBotComment
    rw [containsStateFragment_embed, Bool.or_true]
  refine ⟨?_, hembed, ?_⟩
  · intro body
    unfold IsBotComment
    rw [Bool.or_eq_true]
  · intro comments lastCommentID c hfind s now pre suf heq
    have hp := List.find?_some hfind
    rw [Bool.and_eq_true] at hp
    rcases hp with ⟨_, h2⟩
    simp only [Bool.not_eq_true'] at h2
    rw [heq, hembed s now pre suf] at h2
    simp at h2

/-- Witness for C10: a concrete human comment quoting a serialized
fragment (no bot marker) is classified as a bot comment. -/
theorem C10_isBotComment_witness :
    IsBotComment ("see this fragment: ".data ++
        SerializeState ⟨"", "new", none, 0, 0, 0, 0, "", 0, 0, "", none, none, ""⟩ 3 ++
        " - weird, right?".data) = true :=
  C10_isBotComment.2.1 ⟨"", "new", none, 0, 0, 0, 0, "", 0, 0, "", none, none, ""⟩
    3 "see this fragment: ".data " - weird, right?".data

/-- ASCII case folding (`strings.ToLower` on the bodies below). -/
def asciiToLower (c : Char) : Char :=
  if 65 ≤ c.toNat ∧ c.toNat ≤ 90 then Char.ofNat (c.toNat + 32) else c

def lowerTrim (cs : List Char) : List Char := (trimSpace cs).map asciiToLower

/-- `workflow.IsAbort`: lower-cased trimmed body starts with `/abort`
or equals `abort`. -/
def IsAbort (cs : List Char) : Bool :=
  "/abort".data.isPrefixOf (lowerTrim cs) || lowerTrim cs == "abort".data

/-- `workflow.IsApproval` (`qa.go`): trimmed body equals `/approve`. -/
def IsApproval (cs : List Char) : Bool := trimSpace cs == "/approve".data

/-- `security.IsAuthorized`: delegated collaborator check; an error
(`none`) fails closed. -/
def IsAuthorized (isCollaborator : String → Option Bool)
    (commentAuthor : String) : Bool :=
  match isCollaborator commentAuthor with
  | none => false
  | some b => b

/-- Outcome of `handleQuestions`: whether it returned "wait for user",
whether it returned the abort error, and the `LastCommentID` /
`CurrentPhase` fields of the state afterwards. -/
structure QOut where
  wait : Bool
  aborted : Bool
  lastCommentID : Int
  phase : String
deriving DecidableEq, Repr

/-- `handleQuestions` (orchestrator.go lines 189-221): select the reply
with `findAnswer`; none → wait; abort → error (before the watermark
update); otherwise consume: watermark to the reply's ID, phase to
`planning`.  No authorization check appears in the source. -/
def handleQuestions (comments : List GComment) (lastCommentID : Int) : QOut :=
  match findAnswer comments lastCommentID with
  | none => ⟨true, false, lastCommentID, "questions"⟩
  | some c =>
    if IsAbort c.body then ⟨false, true, lastCommentID, "questions"⟩
    else ⟨false, false, c.id, "planning"⟩

/-- Outcome of `handleApproval`: wait / abort flags and the
`LastCommentID`, `CurrentPhase`, `PlanVersion` fields afterwards. -/
structure AOut where
  wait : Bool
  aborted : Bool
  lastCommentID : Int
  phase : String
  planVersion : Int
deriving DecidableEq, Repr

/-- `handleApproval` (orchestrator.go lines 253-316): select the reply
with `findAnswer`; none → wait; otherwise the watermark moves to the
reply's ID before the abort check; `/approve` → implementing; anything
else is integrated as feedback (`PlanVersion++`, wait again).  No
authorization check appears in the source. -/
def handleApproval (comments : List GComment) (lastCommentID : Int)
    (planVersion : Int) : AOut :=
  match findAnswer comments lastCommentID with
  | none => ⟨true, false, lastCommentID, "approval", planVersion⟩
  | some c =>
    if IsAbort c.body then ⟨false, true, c.id, "approval", planVersion⟩
    else if IsApproval c.body then
      ⟨false, false, c.id, "implementing", planVersion⟩
    else ⟨false, false, c.id, "approval", planVersion + 1⟩

/-- C6: the questions and approval handlers consume replies without any
authorization check.  With a collaborator oracle that rejects
`"mallory"` (so `security.IsAuthorized` would answer `false`, and also
answers `false` when the check errors), a non-bot reply by `mallory` is
still selected, advances the `LastCommentID` watermark, and advances
the phase — in `handleQuestions` to `planning`, in `handleApproval` a
`/approve` body reaches `implementing`.  This contradicts the spec's
authorization gate, which requires unauthorized replies to be skipped
and not consumed. -/
theorem C6_unauthorized_reply_consumed :
    IsAuthorized (fun a => some (a == "trusted")) "mallory" = false ∧
    IsAuthorized (fun _ => none) "mallory" = false ∧
    handleQuestions [⟨7, "mallory", "sounds good, proceed".data⟩] 0 =
      ⟨false, false, 7, "planning"⟩ ∧
    handleApproval [⟨9, "mallory", "/approve".data⟩] 0 1 =
      ⟨false, false, 9, "implementing", 1⟩ := by
  refine ⟨rfl, rfl, ?_, ?_⟩ <;> decide

end UltraEng
